import Mathlib

/-!
# Verification of the bspwm window-tree engine

A shallow embedding of the window-tree engine of the bspwm fork under
verification (src/tree.c, src/stack.c, src/monitor.c), together with proofs
that settle the frozen claims about it.

Conventions of the embedding:
* machine integers become `Nat`/`Int` with explicit saturation or bounds where
  the C code has them (`SAFE_ADD`, `SAFE_SUB`, `UINT16_MAX`);
* the C `double` fields (`split_ratio`, presel ratios) become `ℚ`;
* the full binary tree of `node_t` cells becomes the inductive type `NTree`
  (the code maintains the invariant that a node has either both children or
  none, so a tree cell is a leaf or a binary split);
* pointer surgery becomes path-indexed functional updates: a `TPath` is the
  list of child directions from the root to a node, and the parent-pointer
  walks of the C code become recomputation along a path;
* fallible lookups return `Option`.
-/

namespace Bspwm

/-- `MAX_TREE_DEPTH` from tree.c. -/
def MAX_TREE_DEPTH : Nat := 256

/-- `UINT16_MAX`. -/
def UINT16_MAX : Nat := 65535

/-- `SAFE_ADD(a, b, max)` from tree.c:
`((b) > 0 && (a) > (max) - (b)) ? (max) : (a) + (b)`. -/
def safe_add (a b mx : Nat) : Nat :=
  if 0 < b ∧ mx - b < a then mx else a + b

/-- `SAFE_SUB(a, b)` from tree.c: `((a) < (b) ? 0 : (a) - (b))`;
this is exactly truncated subtraction on `Nat`. -/
def safe_sub (a b : Nat) : Nat := a - b

/-- `split_type_t`: `TYPE_VERTICAL` / `TYPE_HORIZONTAL`. -/
inductive SplitType where
  | vertical
  | horizontal
deriving DecidableEq, Repr

/-- Modelled from the spec: `client_state_t` lives in the types header, which
is not part of the sources; §3 of the spec lists the states in the order
tiled, pseudo-tiled, floating, fullscreen, matching the comment in
`stack_level` ("TILED=0, PSEUDO_TILED=0, FLOATING=1, FULLSCREEN=2" after the
class lookup). -/
inductive ClientState where
  | tiled
  | pseudo_tiled
  | floating
  | fullscreen
deriving DecidableEq, Repr

/-- The numeric value of a `client_state_t` enumerator (declaration order). -/
def ClientState.toNat : ClientState → Nat
  | .tiled => 0
  | .pseudo_tiled => 1
  | .floating => 2
  | .fullscreen => 3

/-- Modelled from the spec: `stack_layer_t` lives in the types header, which
is not part of the sources; §3 lists the layers in the order below, normal,
above, and the comment in `stack_level` says "layer enum is 0,1,2 which
matches level directly". -/
inductive StackLayer where
  | below
  | normal
  | above
deriving DecidableEq, Repr

/-- The numeric value of a `stack_layer_t` enumerator (declaration order). -/
def StackLayer.toNat : StackLayer → Nat
  | .below => 0
  | .normal => 1
  | .above => 2

/-- `layout_t`: `LAYOUT_TILED` / `LAYOUT_MONOCLE`. -/
inductive Layout where
  | tiled
  | monocle
deriving DecidableEq, Repr

/-- `direction_t`. -/
inductive Direction where
  | north
  | west
  | south
  | east
deriving DecidableEq, Repr

/-- `xcb_rectangle_t`: signed 16-bit position, unsigned 16-bit size.  The
embedding uses `Int` for the position and `Nat` for the size. -/
structure XRect where
  x : Int
  y : Int
  width : Nat
  height : Nat
deriving DecidableEq, Repr

/-- The parts of `client_t` the verified components read. -/
structure Client where
  state : ClientState
  layer : StackLayer
  floating_rectangle : XRect
  tiled_rectangle : XRect
  shown : Bool
deriving DecidableEq, Repr

/-- Modelled from the spec: the `IS_TILED` macro of the missing types header;
§3/§4.6 treat tiled and pseudo-tiled together as the tiled class. -/
def IS_TILED (c : Client) : Bool :=
  c.state = ClientState.tiled ∨ c.state = ClientState.pseudo_tiled

/-- Modelled from the spec: the `IS_FLOATING` macro of the missing types
header. -/
def IS_FLOATING (c : Client) : Bool :=
  c.state = ClientState.floating

/-- `constraints_t`: minimum width/height, stored as `uint16_t` in the code. -/
structure Constraints where
  min_width : Nat
  min_height : Nat
deriving DecidableEq, Repr

/-- `presel_t`: a pending split direction and ratio plus the feedback window
handle. -/
structure Presel where
  split_dir : Direction
  split_ratio : ℚ
  feedback : Nat
deriving DecidableEq, Repr

/-- The per-cell payload of a `node_t`: everything except the parent/child
pointers, which the inductive tree structure replaces. -/
structure NodeInfo where
  id : Nat
  split_type : SplitType
  split_ratio : ℚ
  vacant : Bool
  hidden : Bool
  sticky : Bool
  priv : Bool
  marked : Bool
  rectangle : XRect
  constraints : Constraints
  presel : Option Presel
  client : Option Client
deriving DecidableEq, Repr

/-- The window tree.  The code maintains the full-binary-tree invariant
(`first_child` is null exactly when `second_child` is), so a cell either has
no children (`leaf`) or both (`split`). -/
inductive NTree where
  | leaf (info : NodeInfo)
  | split (info : NodeInfo) (first second : NTree)
deriving DecidableEq, Repr

namespace NTree

/-- The payload of the root cell. -/
def info : NTree → NodeInfo
  | .leaf i => i
  | .split i _ _ => i

/-- Replace the payload of the root cell. -/
def withInfo : NTree → NodeInfo → NTree
  | .leaf _, j => .leaf j
  | .split _ a b, j => .split j a b

/-- Height of a tree: a leaf has height 0. -/
def height : NTree → Nat
  | .leaf _ => 0
  | .split _ a b => max a.height b.height + 1

/-- The leaves of a tree, left to right.  This is the order produced by the
`first_extrema`/`next_leaf` iteration of tree.c for trees within the depth
guard. -/
def leaves : NTree → List NodeInfo
  | .leaf i => [i]
  | .split _ a b => a.leaves ++ b.leaves

end NTree

/-- Modelled from the spec: the `IS_RECEPTACLE` macro of the missing types
header; the glossary defines a receptacle as a childless, client-less
placeholder leaf. -/
def IS_RECEPTACLE (t : NTree) : Bool :=
  match t with
  | .leaf i => i.client = none
  | .split _ _ _ => false

/-! ## stack.c: stack levels (claim C9) -/

/-- `stack_level` from stack.c: `3 * c->layer + state_table[c->state]` with
`state_table[4] = {0, 0, 1, 2}`. -/
def stack_level (c : Client) : Nat :=
  3 * c.layer.toNat + [0, 0, 1, 2].getD c.state.toNat 0

/-- The spec's `state_class` function (§4.6): tiled/pseudo-tiled → 0,
floating → 1, fullscreen → 2. -/
def state_class : ClientState → Nat
  | .tiled => 0
  | .pseudo_tiled => 0
  | .floating => 1
  | .fullscreen => 2

/-! ## tree.c: constraint aggregation (claim C2) -/

/-- The computation performed by `update_constraints` (tree.c) on an internal
node, as a function of the node's split type and its two children's
constraints. -/
def update_constraints_calc (st : SplitType) (c1 c2 : Constraints) : Constraints :=
  match st with
  | .vertical =>
      { min_width := safe_add c1.min_width c2.min_width UINT16_MAX
        min_height := max c1.min_height c2.min_height }
  | .horizontal =>
      { min_width := max c1.min_width c2.min_width
        min_height := safe_add c1.min_height c2.min_height UINT16_MAX }

/-- The spec's aggregation (§4.3), stated in the spec's words: vertical split
sums the children's minimum widths saturating at `UINT16_MAX` and takes the
maximum of the minimum heights; a horizontal split is transposed. -/
def constraints_spec_agg (st : SplitType) (c1 c2 : Constraints) : Constraints :=
  match st with
  | .vertical =>
      { min_width := min (c1.min_width + c2.min_width) UINT16_MAX
        min_height := max c1.min_height c2.min_height }
  | .horizontal =>
      { min_width := max c1.min_width c2.min_width
        min_height := min (c1.min_height + c2.min_height) UINT16_MAX }

/-! ## tree.c: `first_extrema` (claim C10) -/

/-- The loop of `first_extrema` (tree.c): follow `first_child` while a first
child exists and `depth < MAX_TREE_DEPTH`, counting steps.  Returns the node
reached and the final depth counter. -/
def first_extrema_go : NTree → Nat → NTree × Nat
  | .leaf i, depth => (.leaf i, depth)
  | .split i a b, depth =>
      if depth < MAX_TREE_DEPTH then first_extrema_go a (depth + 1)
      else (.split i a b, depth)

/-- `first_extrema` from tree.c: run the loop from depth 0, then return
`NULL` when `depth > MAX_TREE_DEPTH` and the reached node otherwise. -/
def first_extrema (t : NTree) : Option NTree :=
  let r := first_extrema_go t 0
  if r.2 > MAX_TREE_DEPTH then none else some r.1

/-- Following `first_child` pointers for at most `fuel` steps. -/
def followFirst : NTree → Nat → NTree
  | t, 0 => t
  | .leaf i, _ + 1 => .leaf i
  | .split _ a _, fuel + 1 => followFirst a fuel

/-! ## tree.c: rotations and flips (claims C3, C4) -/

/-- `rotate_tree_rec_bounded` from tree.c.  At each visited internal node:
when the rotation is 90° on a horizontal split, 270° on a vertical split, or
180°, the children are swapped and the ratio inverted; then (except for
180°) the split axis is toggled; recursion descends into both children with
the depth counter incremented, stopping past `MAX_TREE_DEPTH`. -/
def rotate_tree_rec_bounded : NTree → Nat → Nat → NTree
  | .leaf i, _, _ => .leaf i
  | .split i a b, deg, depth =>
      if deg = 0 ∨ MAX_TREE_DEPTH < depth then .split i a b
      else if (deg = 90 ∧ i.split_type = SplitType.horizontal) ∨
              (deg = 270 ∧ i.split_type = SplitType.vertical) ∨ deg = 180 then
        let i1 : NodeInfo := { i with split_ratio := 1 - i.split_ratio }
        let i2 : NodeInfo :=
          if deg ≠ 180 then
            { i1 with split_type :=
                match i1.split_type with
                | SplitType.horizontal => SplitType.vertical
                | SplitType.vertical => SplitType.horizontal }
          else i1
        .split i2
          (if depth < MAX_TREE_DEPTH then rotate_tree_rec_bounded b deg (depth + 1) else b)
          (rotate_tree_rec_bounded a deg (depth + 1))
      else
        let i2 : NodeInfo :=
          if deg ≠ 180 then
            { i with split_type :=
                match i.split_type with
                | SplitType.horizontal => SplitType.vertical
                | SplitType.vertical => SplitType.horizontal }
          else i
        .split i2
          (if depth < MAX_TREE_DEPTH then rotate_tree_rec_bounded a deg (depth + 1) else a)
          (rotate_tree_rec_bounded b deg (depth + 1))

/-- `rotate_tree_rec` from tree.c. -/
def rotate_tree_rec (t : NTree) (deg : Nat) : NTree :=
  rotate_tree_rec_bounded t deg 0

/-- `rebuild_constraints_from_leaves_bounded` from tree.c: post-order
recomputation of every internal node's constraints via
`update_constraints`. -/
def rebuild_constraints_from_leaves_bounded : NTree → Nat → NTree
  | .leaf i, _ => .leaf i
  | .split i a b, depth =>
      if MAX_TREE_DEPTH < depth then .split i a b
      else
        let a' := rebuild_constraints_from_leaves_bounded a (depth + 1)
        let b' := rebuild_constraints_from_leaves_bounded b (depth + 1)
        .split
          { i with constraints :=
              update_constraints_calc i.split_type a'.info.constraints b'.info.constraints }
          a' b'

/-- `rebuild_constraints_from_leaves` from tree.c. -/
def rebuild_constraints_from_leaves (t : NTree) : NTree :=
  rebuild_constraints_from_leaves_bounded t 0

/-- `rotate_tree` from tree.c: rotate recursively, then rebuild constraints
from the leaves.  The final `rebuild_constraints_towards_root` call of the C
function updates constraints of ancestors *outside* the rotated subtree; in
this subtree-local embedding it has no effect (call sites that splice the
result back into a larger tree re-propagate along that chain). -/
def rotate_tree (t : NTree) (deg : Nat) : NTree :=
  rebuild_constraints_from_leaves (rotate_tree_rec t deg)

/-- `flip_t`: `FLIP_HORIZONTAL` / `FLIP_VERTICAL`. -/
inductive Flip where
  | horizontal
  | vertical
deriving DecidableEq, Repr

/-- `flip_tree_bounded` from tree.c: on each internal node whose split axis
matches the flip axis, swap the children and invert the ratio; recurse into
both children with the depth counter incremented. -/
def flip_tree_bounded : NTree → Flip → Nat → NTree
  | .leaf i, _, _ => .leaf i
  | .split i a b, flp, depth =>
      if MAX_TREE_DEPTH < depth then .split i a b
      else if (flp = Flip.horizontal ∧ i.split_type = SplitType.horizontal) ∨
              (flp = Flip.vertical ∧ i.split_type = SplitType.vertical) then
        .split { i with split_ratio := 1 - i.split_ratio }
          (flip_tree_bounded b flp (depth + 1))
          (flip_tree_bounded a flp (depth + 1))
      else
        .split i
          (flip_tree_bounded a flp (depth + 1))
          (flip_tree_bounded b flp (depth + 1))

/-- `flip_tree` from tree.c. -/
def flip_tree (t : NTree) (flp : Flip) : NTree :=
  flip_tree_bounded t flp 0

/-- Erase the constraints field of a payload (used to state identities that
hold up to the constraint rebuild). -/
def NodeInfo.eraseConstraints (i : NodeInfo) : NodeInfo :=
  { i with constraints := ⟨0, 0⟩ }

/-- Erase every constraints field in a tree. -/
def NTree.eraseConstraints : NTree → NTree
  | .leaf i => .leaf i.eraseConstraints
  | .split i a b => .split i.eraseConstraints a.eraseConstraints b.eraseConstraints

/-! ## tree.c: the layout engine's fence computation (claim C1) -/

/-- The fence computation of `apply_layout` (tree.c, internal-node arm) along
one axis: `fence = (unsigned int)(extent * split_ratio)`; then, when the
children's minima summed with `SAFE_ADD` saturation at `UINT16_MAX` fit the
extent, the fence is clamped to `[min1, extent - min2]` and the resulting
ratio `fence / extent` is written back.  Returns the fence and the (possibly
updated) split ratio.  The `double` arithmetic is embedded in `ℚ`; the
truncating cast to `unsigned int` is the floor (ratios are kept in `[0, 1]`
by `set_ratio`, so the value is non-negative). -/
def apply_layout_fence (extent : Nat) (ratio : ℚ) (min1 min2 : Nat) : Nat × ℚ :=
  let fence : Nat := ⌊(extent : ℚ) * ratio⌋₊
  let min_sum : Nat := safe_add min1 min2 UINT16_MAX
  if min_sum ≤ extent then
    if fence < min1 then (min1, (min1 : ℚ) / (extent : ℚ))
    else if extent - min2 < fence then
      (extent - min2, ((extent - min2 : Nat) : ℚ) / (extent : ℚ))
    else (fence, ratio)
  else (fence, ratio)

/-- The internal-node arm of `apply_layout` for a tiled layout with neither
child vacant: split the rectangle at the fence along the split axis and
return the two child rectangles together with the updated ratio. -/
def apply_layout_split (st : SplitType) (rect : XRect) (ratio : ℚ)
    (c1 c2 : Constraints) : XRect × XRect × ℚ :=
  match st with
  | .vertical =>
      let r := apply_layout_fence rect.width ratio c1.min_width c2.min_width
      (⟨rect.x, rect.y, r.1, rect.height⟩,
       ⟨rect.x + r.1, rect.y, rect.width - r.1, rect.height⟩, r.2)
  | .horizontal =>
      let r := apply_layout_fence rect.height ratio c1.min_height c2.min_height
      (⟨rect.x, rect.y, rect.width, r.1⟩,
       ⟨rect.x, rect.y + r.1, rect.width, rect.height - r.1⟩, r.2)

/-- `apply_layout` from tree.c, restricted to the fields of the model: every
visited node records its rectangle; in monocle layout or when either child is
vacant both children receive the parent's whole rectangle, otherwise the
rectangle is split by `apply_layout_split` and the clamped ratio is written
back.  (The leaf arm's border/gap/size-hint handling drives the window
backend and is not part of the tree state.) -/
def apply_layout (lay : Layout) : NTree → XRect → NTree
  | .leaf i, rect => .leaf { i with rectangle := rect }
  | .split i a b, rect =>
      if lay = Layout.monocle ∨ a.info.vacant ∨ b.info.vacant then
        .split { i with rectangle := rect }
          (apply_layout lay a rect) (apply_layout lay b rect)
      else
        let r := apply_layout_split i.split_type rect i.split_ratio
          a.info.constraints b.info.constraints
        .split { i with rectangle := rect, split_ratio := r.2.2 }
          (apply_layout lay a r.1) (apply_layout lay b r.2.1)

/-- The extent of a rectangle along a split axis (vertical splits divide the
width). -/
def axis_extent (st : SplitType) (r : XRect) : Nat :=
  match st with
  | .vertical => r.width
  | .horizontal => r.height

/-- The minimum of a constraint along a split axis. -/
def axis_min (st : SplitType) (c : Constraints) : Nat :=
  match st with
  | .vertical => c.min_width
  | .horizontal => c.min_height

/-! ## stack.c: the global stacking list (claim C7) -/

/-- An entry of the global stacking list (`stacking_list_t`): the node it
points to, reduced to the node's id and client.  The list is ordered bottom
(head) to top (tail). -/
structure SNode where
  id : Nat
  client : Option Client
deriving DecidableEq, Repr

/-- The stack level of an entry (`stack_level` accepts a null client and
returns 0 for it). -/
def SNode.lvl (e : SNode) : Nat :=
  match e.client with
  | none => 0
  | some c => stack_level c

/-- `stack_cmp` from stack.c. -/
def stack_cmp (c1 c2 : Option Client) : Int :=
  match c1, c2 with
  | none, none => 0
  | none, some _ => -1
  | some _, none => 1
  | some a, some b => (stack_level a : Int) - (stack_level b : Int)

/-- The while-loops of `limit_above`/`limit_below`: walk the list and return
the first element that fails the continuation predicate (`NULL` when the walk
runs off the end). -/
def scan_first_not (p : SNode → Bool) : List SNode → Option SNode
  | [] => none
  | e :: rest => if p e then scan_first_not p rest else some e

/-- The continuation predicate of `limit_above`'s loop:
`s->node->client && stack_cmp(n->client, s->node->client) >= 0`. -/
def above_cont (f : SNode) (e : SNode) : Bool :=
  e.client.isSome && decide (0 ≤ stack_cmp f.client e.client)

/-- The continuation predicate of `limit_below`'s loop:
`s->node->client && stack_cmp(n->client, s->node->client) <= 0`. -/
def below_cont (f : SNode) (e : SNode) : Bool :=
  e.client.isSome && decide (stack_cmp f.client e.client ≤ 0)

/-- The element immediately before the first element with the given id
(`s->prev` in the pointer list). -/
def prevOf : List SNode → Nat → Option SNode
  | [], _ => none
  | [_], _ => none
  | e :: e2 :: rest, i =>
      if e.id = i then none
      else if e2.id = i then some e
      else prevOf (e2 :: rest) i

/-- The element immediately after the first element with the given id
(`s->next` in the pointer list). -/
def nextOf : List SNode → Nat → Option SNode
  | [], _ => none
  | e :: rest, i => if e.id = i then rest.head? else nextOf rest i

/-- `limit_above` from stack.c: walk up from the bottom past every entry
whose level is at most the node's; fall back to the tail when the walk runs
off; step down once when the found entry is the node itself. -/
def limit_above (f : SNode) (l : List SNode) : Option SNode :=
  match f.client with
  | none => none
  | some _ =>
      let s1 :=
        match scan_first_not (above_cont f) l with
        | some e => some e
        | none => l.getLast?
      match s1 with
      | none => none
      | some e => if e.id = f.id then prevOf l e.id else some e

/-- `limit_below` from stack.c: the mirror image of `limit_above`, walking
down from the top. -/
def limit_below (f : SNode) (l : List SNode) : Option SNode :=
  match f.client with
  | none => none
  | some _ =>
      let s1 :=
        match scan_first_not (below_cont f) l.reverse with
        | some e => some e
        | none => l.head?
      match s1 with
      | none => none
      | some e => if e.id = f.id then nextOf l e.id else some e

/-- `remove_stack_node` for a single leaf: delete the first stacking-list
entry whose node is the leaf. -/
def removeById : List SNode → Nat → List SNode
  | [], _ => []
  | e :: rest, i => if e.id = i then rest else e :: removeById rest i

/-- Splice a new entry right after the first element with the given id. -/
def insertAfterId : List SNode → Nat → SNode → List SNode
  | [], _, _ => []
  | e :: rest, i, f => if e.id = i then e :: f :: rest else e :: insertAfterId rest i f

/-- Splice a new entry right before the first element with the given id. -/
def insertBeforeId : List SNode → Nat → SNode → List SNode
  | [], _, _ => []
  | e :: rest, i, f => if e.id = i then f :: e :: rest else e :: insertBeforeId rest i f

/-- `stack_insert_after` from stack.c: a `NULL` anchor makes the new entry
the whole list (the caller only does this when the list is empty); an anchor
holding the node itself is a no-op; otherwise the node's old entry is removed
and a fresh one spliced after the anchor. -/
def stack_insert_after (l : List SNode) (a : Option SNode) (f : SNode) : List SNode :=
  match a with
  | none => [f]
  | some a =>
      if a.id = f.id then l
      else insertAfterId (removeById l f.id) a.id f

/-- `stack_insert_before` from stack.c. -/
def stack_insert_before (l : List SNode) (a : Option SNode) (f : SNode) : List SNode :=
  match a with
  | none => [f]
  | some a =>
      if a.id = f.id then l
      else insertBeforeId (removeById l f.id) a.id f

/-- The body of the leaf loop in `stack` (stack.c): skip clientless leaves
and floating leaves when `auto_raise` is off; start the list when it is
empty; otherwise find the boundary with `limit_above` (focused) or
`limit_below` and insert before or after it according to `stack_cmp`. -/
def stack1 (auto_raise focused : Bool) (l : List SNode) (f : SNode) : List SNode :=
  match f.client with
  | none => l
  | some fc =>
      if IS_FLOATING fc ∧ auto_raise = false then l
      else if l.isEmpty then stack_insert_after l none f
      else
        match if focused then limit_above f l else limit_below f l with
        | none => l
        | some s =>
            if s.client.isNone then l
            else
              let i := stack_cmp f.client s.client
              if i < 0 ∨ (i = 0 ∧ focused = false) then stack_insert_before l (some s) f
              else stack_insert_after l (some s) f

/-- The leaves of a subtree as stacking candidates (the
`first_extrema`/`next_leaf` iteration of `stack`). -/
def leavesSN (t : NTree) : List SNode :=
  t.leaves.map fun i => ⟨i.id, i.client⟩

/-- `stack(d, n, focused)` from stack.c, restricted to its effect on the
stacking list: insert every managed leaf under `n` at the boundary found by
`limit_above`/`limit_below`.  (The `window_above`/`window_below` calls, the
EWMH client-list update and the presel-feedback restacking drive the window
backend and do not alter the list.) -/
def stack_fn (auto_raise focused : Bool) (t : NTree) (l : List SNode) : List SNode :=
  (leavesSN t).foldl (stack1 auto_raise focused) l

/-- The stacking-list invariant of the spec: entries are sorted bottom-to-top
by non-decreasing stack level, no node appears twice, and every entry has a
client. -/
def StackInv (l : List SNode) : Prop :=
  l.Pairwise (fun a b => a.lvl ≤ b.lvl) ∧
  (l.map SNode.id).Nodup ∧
  ∀ e ∈ l, e.client.isSome

/-! ## Paths into the tree

The C code navigates with `parent`/`first_child`/`second_child` pointers; the
embedding identifies a node by the list of child directions from the root,
and pointer surgery becomes path-indexed functional update. -/

/-- Which child pointer to follow. -/
inductive ChildDir where
  | first
  | second
deriving DecidableEq, Repr

/-- A path from the root to a node. -/
abbrev TPath := List ChildDir

namespace NTree

/-- The subtree at a path, when the path stays inside the tree. -/
def subtreeAt : NTree → TPath → Option NTree
  | t, [] => some t
  | .leaf _, _ :: _ => none
  | .split _ a _, .first :: ρ => a.subtreeAt ρ
  | .split _ _ b, .second :: ρ => b.subtreeAt ρ

/-- Replace the subtree at a path (the identity off the tree). -/
def replaceAt : NTree → TPath → NTree → NTree
  | _, [], u => u
  | .leaf i, _ :: _, _ => .leaf i
  | .split i a b, .first :: ρ, u => .split i (a.replaceAt ρ u) b
  | .split i a b, .second :: ρ, u => .split i a (b.replaceAt ρ u)

/-- Update the payload of the node at a path (the identity off the tree). -/
def updateAt : NTree → TPath → (NodeInfo → NodeInfo) → NTree
  | .leaf i, [], g => .leaf (g i)
  | .split i a b, [], g => .split (g i) a b
  | .leaf i, _ :: _, _ => .leaf i
  | .split i a b, .first :: ρ, g => .split i (a.updateAt ρ g) b
  | .split i a b, .second :: ρ, g => .split i a (b.updateAt ρ g)

/-- All node ids of a tree, in pre-order. -/
def treeIds : NTree → List Nat
  | .leaf i => [i.id]
  | .split i a b => i.id :: (a.treeIds ++ b.treeIds)

/-- Whether a node with the given id occurs in the tree (the id-level
counterpart of walking `parent` pointers in `is_descendant`). -/
def containsId : NTree → Nat → Bool
  | .leaf i, x => i.id = x
  | .split i a b, x => i.id = x ∨ a.containsId x ∨ b.containsId x

/-- The first subtree (in pre-order) whose root has the given id. -/
def findSubtreeById : NTree → Nat → Option NTree
  | .leaf i, x => if i.id = x then some (.leaf i) else none
  | .split i a b, x =>
      if i.id = x then some (.split i a b)
      else
        match a.findSubtreeById x with
        | some u => some u
        | none => b.findSubtreeById x

/-- The id of the parent of the (first, in pre-order) node with the given id
(`n->parent` at the id level). -/
def parentIdOf : NTree → Nat → Option Nat
  | .leaf _, _ => none
  | .split i a b, x =>
      if a.info.id = x ∨ b.info.id = x then some i.id
      else
        match a.parentIdOf x with
        | some p => some p
        | none => b.parentIdOf x

/-- The path to the first (pre-order) node with the given id. -/
def findPathById : NTree → Nat → Option TPath
  | .leaf i, x => if i.id = x then some [] else none
  | .split i a b, x =>
      if i.id = x then some []
      else
        match a.findPathById x with
        | some ρ => some (ChildDir.first :: ρ)
        | none =>
            match b.findPathById x with
            | some ρ => some (ChildDir.second :: ρ)
            | none => none

end NTree

/-- `find_by_id_in_bounded` from tree.c: pre-order search with the depth
guard. -/
def find_by_id_in_bounded : Option NTree → Nat → Nat → Option NTree
  | none, _, _ => none
  | some t, id, depth =>
      if MAX_TREE_DEPTH < depth then none
      else if t.info.id = id then some t
      else
        match t with
        | .leaf _ => none
        | .split _ a b =>
            match find_by_id_in_bounded (some a) id (depth + 1) with
            | some u => some u
            | none => find_by_id_in_bounded (some b) id (depth + 1)

/-- `find_by_id_in` from tree.c. -/
def find_by_id_in (r : Option NTree) (id : Nat) : Option NTree :=
  find_by_id_in_bounded r id 0

/-- The `DEF_FLAG_COUNT` recursions of tree.c (`sticky_count`,
`private_count`, `locked_count`): count set flags with the depth guard. -/
def flag_count_bounded (g : NodeInfo → Bool) : NTree → Nat → Nat
  | t, depth =>
      if MAX_TREE_DEPTH < depth then 0
      else
        match t with
        | .leaf i => if g i then 1 else 0
        | .split i a b =>
            (if g i then 1 else 0) +
              flag_count_bounded g a (depth + 1) + flag_count_bounded g b (depth + 1)

/-- `sticky_count` on a subtree. -/
def sticky_count_in (t : NTree) : Nat :=
  flag_count_bounded (fun i => i.sticky) t 0

/-- `private_count` on an optional subtree (`private_count(f->parent)` is
invoked on a possibly null parent, returning 0). -/
def private_count (t : Option NTree) : Nat :=
  match t with
  | none => 0
  | some u => flag_count_bounded (fun i => i.priv) u 0

/-! ## Flag propagation (claims C8, and used by the mutations) -/

/-- `set_vacant_local` from tree.c, at the payload level: assign the vacant
flag when it differs, cancelling the presel when a node becomes vacant. -/
def set_vacant_local_info (i : NodeInfo) (value : Bool) : NodeInfo :=
  if i.vacant = value then i
  else
    let j := { i with vacant := value }
    if value then { j with presel := none } else j

/-- The hidden-flag assignment of `set_hidden_local` (the clauses guarded by
`n->client` — visibility, the vacancy coupling for tiled clients, WM flags —
are handled at the call sites that can reach them; ancestors updated by the
upward propagations are internal nodes and carry no client). -/
def set_hidden_assign (i : NodeInfo) (value : Bool) : NodeInfo :=
  if i.hidden = value then i else { i with hidden := value }

/-- The body of `propagate_flags_upward` at one ancestor: vacant and hidden
from the children's conjunction, constraints from `update_constraints`. -/
def propagate_step (i : NodeInfo) (a b : NTree) : NodeInfo :=
  let i1 := set_vacant_local_info i (a.info.vacant && b.info.vacant)
  let i2 := set_hidden_assign i1 (a.info.hidden && b.info.hidden)
  { i2 with constraints :=
      update_constraints_calc i2.split_type a.info.constraints b.info.constraints }

/-- The body of `propagate_vacant_upward` at one ancestor. -/
def vacant_step (i : NodeInfo) (a b : NTree) : NodeInfo :=
  set_vacant_local_info i (a.info.vacant && b.info.vacant)

/-- The body of `propagate_hidden_upward` at one ancestor. -/
def hidden_step (i : NodeInfo) (a b : NTree) : NodeInfo :=
  set_hidden_assign i (a.info.hidden && b.info.hidden)

/-- The parent walk shared by the upward propagations of tree.c: refresh the
payload of every proper ancestor of the node at the path, deepest first, with
the depth guard (the walk stops after `MAX_TREE_DEPTH + 1` ancestors). -/
def propagate_along (u : NodeInfo → NTree → NTree → NodeInfo) : NTree → TPath → NTree
  | t, [] => t
  | .leaf i, _ :: _ => .leaf i
  | .split i a b, .first :: ρ =>
      let a' := propagate_along u a ρ
      .split (if ρ.length + 1 ≤ MAX_TREE_DEPTH + 1 then u i a' b else i) a' b
  | .split i a b, .second :: ρ =>
      let b' := propagate_along u b ρ
      .split (if ρ.length + 1 ≤ MAX_TREE_DEPTH + 1 then u i a b' else i) a b'

/-- `propagate_flags_upward` from tree.c, as a path recomputation. -/
def propagate_flags_at (t : NTree) (π : TPath) : NTree :=
  propagate_along propagate_step t π

/-- `propagate_vacant_upward` from tree.c. -/
def propagate_vacant_at (t : NTree) (π : TPath) : NTree :=
  propagate_along vacant_step t π

/-- `propagate_hidden_upward` from tree.c. -/
def propagate_hidden_at (t : NTree) (π : TPath) : NTree :=
  propagate_along hidden_step t π

/-- `propagate_vacant_downward` from tree.c. -/
def propagate_vacant_downward_b : NTree → Bool → Nat → NTree
  | t, value, depth =>
      if MAX_TREE_DEPTH < depth then t
      else
        match t with
        | .leaf i => .leaf (set_vacant_local_info i value)
        | .split i a b =>
            .split (set_vacant_local_info i value)
              (propagate_vacant_downward_b a value (depth + 1))
              (propagate_vacant_downward_b b value (depth + 1))

/-- `set_vacant` from tree.c: a no-op when the flag already has the value,
otherwise assign it on the whole subtree and reconcile the ancestors. -/
def set_vacant_at (t : NTree) (π : TPath) (value : Bool) : NTree :=
  match t.subtreeAt π with
  | none => t
  | some u =>
      if u.info.vacant = value then t
      else propagate_vacant_at (t.replaceAt π (propagate_vacant_downward_b u value 0)) π

/-- The node visit order (relative paths) of `propagate_hidden_downward`:
pre-order with the depth guard. -/
def nodePathsPre : NTree → Nat → List TPath
  | t, depth =>
      if MAX_TREE_DEPTH < depth then []
      else
        match t with
        | .leaf _ => [[]]
        | .split _ a b =>
            [] :: ((nodePathsPre a (depth + 1)).map (ChildDir.first :: ·) ++
              (nodePathsPre b (depth + 1)).map (ChildDir.second :: ·))

/-- `set_hidden_local` from tree.c at a path of the whole tree: assign the
hidden flag; a tiled client additionally couples the node's vacancy via
`set_vacant`, which reconciles the ancestors. -/
def set_hidden_local_at (t : NTree) (π : TPath) (value : Bool) : NTree :=
  match t.subtreeAt π with
  | none => t
  | some u =>
      if u.info.hidden = value then t
      else
        let t1 := t.updateAt π fun i => { i with hidden := value }
        match u.info.client with
        | some c => if IS_TILED c then set_vacant_at t1 π value else t1
        | none => t1

/-- `propagate_hidden_downward` from tree.c: apply `set_hidden_local` to
every node of the subtree in pre-order (the flag updates do not change the
structure, so the visit order can be computed up front). -/
def propagate_hidden_downward_at (t : NTree) (π : TPath) (value : Bool) : NTree :=
  match t.subtreeAt π with
  | none => t
  | some u =>
      ((nodePathsPre u 0).map (π ++ ·)).foldl
        (fun acc ρ => set_hidden_local_at acc ρ value) t

/-- The flag portion of `set_hidden` from tree.c (the focus re-resolution and
`single_monocle` adjustment concern desktop state, not the tree's flags). -/
def set_hidden_at (t : NTree) (π : TPath) (value : Bool) : NTree :=
  match t.subtreeAt π with
  | none => t
  | some u =>
      if u.info.hidden = value then t
      else propagate_hidden_at (propagate_hidden_downward_at t π value) π

/-- The vacant invariant of the spec (§3): an internal node is vacant exactly
when both children are. -/
def vacantOkB : NTree → Bool
  | .leaf _ => true
  | .split i a b =>
      (i.vacant = (a.info.vacant && b.info.vacant)) && vacantOkB a && vacantOkB b

/-- The vacant invariant everywhere except on the proper ancestors of the
node at the path (the region a pending upward propagation will repair). -/
def vacantOkExceptB : NTree → TPath → Bool
  | t, [] => vacantOkB t
  | .leaf _, _ :: _ => true
  | .split _ a b, .first :: ρ => vacantOkExceptB a ρ && vacantOkB b
  | .split _ a b, .second :: ρ => vacantOkB a && vacantOkExceptB b ρ

/-- The vacant invariant everywhere except on the proper ancestors of two
nodes (used for the in-place subtree exchange of `swap_nodes`). -/
def vacantOkExcept2B : NTree → TPath → TPath → Bool
  | t, [], π2 => vacantOkExceptB t π2
  | t, π1, [] => vacantOkExceptB t π1
  | .leaf _, _ :: _, _ :: _ => true
  | .split _ a b, .first :: ρ1, .first :: ρ2 => vacantOkExcept2B a ρ1 ρ2 && vacantOkB b
  | .split _ a b, .second :: ρ1, .second :: ρ2 => vacantOkB a && vacantOkExcept2B b ρ1 ρ2
  | .split _ a b, .first :: ρ1, .second :: ρ2 => vacantOkExceptB a ρ1 && vacantOkExceptB b ρ2
  | .split _ a b, .second :: ρ1, .first :: ρ2 => vacantOkExceptB b ρ1 && vacantOkExceptB a ρ2

/-- The vacancy skeleton of a tree: the structure together with each node's
vacant flag.  Operations that do not touch structure or vacant flags leave it
unchanged, and the vacant invariant only reads it. -/
inductive VTree where
  | leaf (v : Bool)
  | split (v : Bool) (a b : VTree)
deriving DecidableEq, Repr

/-- Project a tree to its vacancy skeleton. -/
def vproj : NTree → VTree
  | .leaf i => .leaf i.vacant
  | .split i a b => .split i.vacant (vproj a) (vproj b)

/-- The root flag of a skeleton. -/
def VTree.rootv : VTree → Bool
  | .leaf v => v
  | .split v _ _ => v

/-- The vacant invariant on the skeleton. -/
def vOkB : VTree → Bool
  | .leaf _ => true
  | .split v a b => (v = (a.rootv && b.rootv)) && vOkB a && vOkB b

/-- The excused-ancestors variant on the skeleton. -/
def vExceptB : VTree → TPath → Bool
  | t, [] => vOkB t
  | .leaf _, _ :: _ => true
  | .split _ a b, .first :: ρ => vExceptB a ρ && vOkB b
  | .split _ a b, .second :: ρ => vOkB a && vExceptB b ρ

/-- The height of a skeleton. -/
def vheight : VTree → Nat
  | .leaf _ => 0
  | .split _ a b => max (vheight a) (vheight b) + 1

/-- Two paths diverge: they first differ at a fork, so neither names an
ancestor of the other. -/
def diverge : TPath → TPath → Bool
  | d1 :: ρ1, d2 :: ρ2 => if d1 = d2 then diverge ρ1 ρ2 else true
  | _, _ => false

/-! ## Desktop model and tree mutations (claims C5, C8) -/

/-- `initial_polarity`. -/
inductive Polarity where
  | first_child
  | second_child
deriving DecidableEq, Repr

/-- `automatic_scheme`. -/
inductive Scheme where
  | longest_side
  | alternate
  | spiral
deriving DecidableEq, Repr

/-- The process-wide settings the verified operations read. `MIN_WIDTH` and
`MIN_HEIGHT` live in the missing types header, so their values are carried
here. -/
structure Settings where
  split_ratio : ℚ
  initial_polarity : Polarity
  automatic_scheme : Scheme
  removal_adjustment : Bool
  gapless_monocle : Bool
  single_monocle : Bool
  hide_sticky : Bool
  min_width : Nat
  min_height : Nat
deriving DecidableEq, Repr

/-- The per-desktop state the verified operations read and write. -/
structure DesktopT where
  id : Nat
  root : Option NTree
  focus : Option Nat
  layout : Layout
  user_layout : Layout
  window_gap : Nat
  tile_limit_enabled : Bool
  max_tiles_per_desktop : Nat
deriving DecidableEq, Repr

/-- `valid_rect` from desktop.c. -/
def valid_rect (r : XRect) : Bool :=
  0 < r.width ∧ 0 < r.height ∧
    r.x ≤ 32767 - (r.width : Int) ∧ r.y ≤ 32767 - (r.height : Int)

/-- `area` from desktop.c (saturating at `UINT_MAX`). -/
def area (r : XRect) : Nat :=
  if valid_rect r then
    if 4294967295 / r.height < r.width then 4294967295 else r.width * r.height
  else 0

/-- `get_rectangle` from tree.c for a non-null node: a floating client's
floating rectangle, another client's tiled rectangle, and for a client-less
node its stored rectangle shrunk by the window gap. -/
def get_rectangle_node (s : Settings) (d : DesktopT) (t : NTree) : XRect :=
  match t.info.client with
  | some c => if IS_FLOATING c then c.floating_rectangle else c.tiled_rectangle
  | none =>
      let wg := if s.gapless_monocle ∧ d.layout = Layout.monocle then 0 else d.window_gap
      { t.info.rectangle with
          width := safe_sub t.info.rectangle.width wg,
          height := safe_sub t.info.rectangle.height wg }

/-- `node_area` from tree.c. -/
def node_area (s : Settings) (d : DesktopT) (t : NTree) : Nat :=
  area (get_rectangle_node s d t)

/-- `count_tiled_windows` from tree.c: the number of clients that are not
floating.  (The C walks with an explicit 1024-slot stack; the recursion here
is the same count for trees within that bound.) -/
def count_tiled_windows_in : NTree → Nat
  | .leaf i =>
      match i.client with
      | some c => if IS_FLOATING c then 0 else 1
      | none => 0
  | .split i a b =>
      (match i.client with
       | some c => if IS_FLOATING c then 0 else 1
       | none => 0) + count_tiled_windows_in a + count_tiled_windows_in b

/-- `count_tiled_windows` on a desktop. -/
def count_tiled_windows (d : DesktopT) : Nat :=
  match d.root with
  | none => 0
  | some t => count_tiled_windows_in t

/-- `tiled_count` from tree.c: leaves that are not hidden and either hold a
tiled client or (when receptacles are included) no client. -/
def tiled_count (t : NTree) (include_receptacles : Bool) : Nat :=
  (t.leaves.filter fun i =>
    !i.hidden && ((include_receptacles && i.client.isNone) ||
      (match i.client with | some c => IS_TILED c | none => false))).length

/-- `is_focusable` from tree.c: some leaf of the subtree has a non-hidden
client. -/
def is_focusable (t : NTree) : Bool :=
  t.leaves.any fun i => i.client.isSome ∧ ¬i.hidden

/-- `make_node` from tree.c (calloc zeroes every field not assigned). -/
def make_node_info (s : Settings) (id : Nat) : NodeInfo :=
  { id := id
    split_type := SplitType.vertical
    split_ratio := s.split_ratio
    vacant := false, hidden := false, sticky := false, priv := false, marked := false
    rectangle := ⟨0, 0, 0, 0⟩
    constraints := ⟨s.min_width, s.min_height⟩
    presel := none
    client := none }

/-- `make_presel` from tree.c. -/
def make_presel_info (s : Settings) : Presel :=
  ⟨Direction.east, s.split_ratio, 0⟩

/-- `presel_dir` from tree.c at the payload level: create the presel if
needed and set its direction. -/
def presel_dir_info (s : Settings) (i : NodeInfo) (dir : Direction) : NodeInfo :=
  match i.presel with
  | none => { i with presel := some { make_presel_info s with split_dir := dir } }
  | some p => { i with presel := some { p with split_dir := dir } }

/-- The leaves of a tree together with their absolute path and parent
subtree, in `first_extrema`/`next_leaf` order (the iteration of
`find_public`). -/
def leavesCtx : NTree → TPath → Option NTree → List (TPath × NodeInfo × Option NTree)
  | .leaf i, π, p => [(π, i, p)]
  | .split i a b, π, p =>
      leavesCtx a (π ++ [ChildDir.first]) (some (.split i a b)) ++
        leavesCtx b (π ++ [ChildDir.second]) (some (.split i a b))

/-- The loop body of `find_public`: fold one leaf into the running
best-manual/best-automatic accumulator. -/
def find_public_step (s : Settings) (d : DesktopT)
    (acc : (Nat × Option TPath) × (Nat × Option TPath))
    (e : TPath × NodeInfo × Option NTree) :
    (Nat × Option TPath) × (Nat × Option TPath) :=
  let (π, i, p) := e
  if i.vacant then acc
  else
    let n_area := node_area s d (.leaf i)
    let acc1 :=
      if acc.1.1 < n_area ∧ (i.presel.isSome ∨ ¬i.priv) then
        ((n_area, some π), acc.2)
      else acc
    if acc1.2.1 < n_area ∧ i.presel = none ∧ ¬i.priv ∧ private_count p = 0 then
      (acc1.1, (n_area, some π))
    else acc1

/-- `find_public` from tree.c: scan the leaves keeping the biggest
"automatic" candidate (no presel, not private, no private nodes under the
parent) and the biggest "manual" one (a presel or not private); prefer the
automatic one.  Returns the chosen leaf's path. -/
def find_public (s : Settings) (d : DesktopT) (t : NTree) : Option TPath :=
  let r := (leavesCtx t [] none).foldl (find_public_step s d) ((0, none), (0, none))
  match r.2.2 with
  | some π => some π
  | none => r.1.2

/-- The `q` scan of `insert_node`'s alternate scheme: from the parent of the
new internal node walk up to the first ancestor with no vacant child,
falling back to the parent; the new split is the opposite of that node's. -/
def alternate_ancestor_type (t : NTree) (πp : TPath) : SplitType :=
  let candidates := ((List.range (πp.length + 1)).reverse.map
    fun k => t.subtreeAt (πp.take k)).reduceOption
  let q := candidates.find? fun u =>
    match u with
    | .split _ a b => ¬a.info.vacant ∧ ¬b.info.vacant
    | .leaf _ => false
  match q with
  | some u => u.info.split_type
  | none =>
      match candidates.head? with
      | some u => u.info.split_type
      | none => SplitType.vertical

/-- `cancel_presel` at the payload level (the feedback window destruction is
a backend call). -/
def cancel_presel_info (i : NodeInfo) : NodeInfo :=
  { i with presel := none }

/-- The arm of `insert_node` that splices the new leaf next to the (possibly
redirected, possibly presel-forced) receiving node: the preselection splice,
the automatic schemes and the spiral case, each followed by
`propagate_flags_upward` from the new leaf. -/
def insert_node_splice (s : Settings) (d : DesktopT) (t : NTree) (n : NodeInfo)
    (π : TPath) (ft : NTree) (fresh_id : Nat) : NTree :=
  match ft.info.presel with
    | none =>
        let single_tiled : Bool :=
          (match ft.info.client with | some c => IS_TILED c | none => false) &&
            tiled_count t true == 1
        if π = [] ∨ s.automatic_scheme ≠ Scheme.spiral ∨ single_tiled then
          let ci := make_node_info s fresh_id
          let arm : NTree × NTree × ChildDir :=
            if s.initial_polarity = Polarity.first_child then
              (.leaf n, ft, ChildDir.first)
            else (ft, .leaf n, ChildDir.second)
          let t1 := t.replaceAt π (.split ci arm.1 arm.2.1)
          let st :=
            if π = [] ∨ s.automatic_scheme = Scheme.longest_side ∨ single_tiled then
              if ft.info.rectangle.height < ft.info.rectangle.width then
                SplitType.vertical
              else SplitType.horizontal
            else
              match alternate_ancestor_type t1 π.dropLast with
              | SplitType.horizontal => SplitType.vertical
              | SplitType.vertical => SplitType.horizontal
          let t2 := t1.updateAt π fun i => { i with split_type := st }
          propagate_flags_at t2 (π ++ [arm.2.2])
        else
          -- spiral: the new internal node replaces the old parent, which
          -- becomes the sibling of the new leaf and is rotated
          let πp := π.dropLast
          match t.subtreeAt πp with
          | none => t
          | some P =>
              let ci0 := make_node_info s fresh_id
              let ci := { ci0 with split_type := P.info.split_type,
                                   split_ratio := P.info.split_ratio }
              let arm : NTree × NTree × ChildDir × Nat :=
                if π.getLast?.getD ChildDir.first = ChildDir.first then
                  (.leaf n, P, ChildDir.first, 90)
                else (P, .leaf n, ChildDir.second, 270)
              let rotated :=
                if ¬n.vacant then rotate_tree (if arm.2.2.1 = ChildDir.first then arm.2.1 else arm.1) arm.2.2.2
                else (if arm.2.2.1 = ChildDir.first then arm.2.1 else arm.1)
              let pair : NTree × NTree :=
                if arm.2.2.1 = ChildDir.first then (arm.1, rotated) else (rotated, arm.2.1)
              let t1 := t.replaceAt πp (.split ci pair.1 pair.2)
              propagate_flags_at t1 (πp ++ [arm.2.2.1])
    | some ps =>
        let ci0 := make_node_info s fresh_id
        let n' := { n with marked := false }
        let ftc := ft.withInfo (cancel_presel_info ft.info)
        let arm : SplitType × NTree × NTree × ChildDir :=
          match ps.split_dir with
          | Direction.west => (SplitType.vertical, .leaf n', ftc, ChildDir.first)
          | Direction.east => (SplitType.vertical, ftc, .leaf n', ChildDir.second)
          | Direction.north => (SplitType.horizontal, .leaf n', ftc, ChildDir.first)
          | Direction.south => (SplitType.horizontal, ftc, .leaf n', ChildDir.second)
        let ci := { ci0 with split_ratio := ps.split_ratio, split_type := arm.1 }
        let t1 := t.replaceAt π (.split ci arm.2.1 arm.2.2.1)
        propagate_flags_at t1 (π ++ [arm.2.2.2])

/-- The splice of `insert_node` once the receiving node `ft` at path `π` and
the (possibly tile-limited) new leaf `n` are fixed: the receptacle
replacement, the presel splice, the automatic schemes and the spiral case,
each followed by `propagate_flags_upward` from the new leaf.  Returns the new
root tree. -/
def insert_node_tree (s : Settings) (d : DesktopT) (t : NTree) (n : NodeInfo)
    (π : TPath) (ft : NTree) (fresh_id : Nat) : NTree :=
  if IS_RECEPTACLE ft ∧ ft.info.presel = none then
    propagate_flags_at (t.replaceAt π (.leaf n)) π
  else
    -- private target: try to redirect to a public one, else force a presel
    let redirected : TPath × NTree :=
      if ft.info.presel = none ∧
          (ft.info.priv ∨ 0 < private_count (t.subtreeAt π.dropLast |>.filter fun _ => π ≠ [])) then
        match find_public s d t with
        | some πk => (πk, (t.subtreeAt πk).getD ft)
        | none => (π, ft)
      else (π, ft)
    let π := redirected.1
    let ft := redirected.2
    let forced : NTree × NTree :=
      if ft.info.presel = none ∧
          (ft.info.priv ∨ 0 < private_count (t.subtreeAt π.dropLast |>.filter fun _ => π ≠ [])) then
        let rect := get_rectangle_node s d ft
        let dir := if rect.height ≤ rect.width then Direction.east else Direction.south
        (t.updateAt π fun i => presel_dir_info s i dir,
         ft.withInfo (presel_dir_info s ft.info dir))
      else (t, ft)
    insert_node_splice s d forced.1 n redirected.1 forced.2 fresh_id

/-- The tile-limit check at the top of `insert_node`: a tiled client beyond
the desktop's limit is forced to the floating state. -/
def tiled_limit_adjust (d : DesktopT) (n0 : NodeInfo)
    (ignores_tile_limits : Bool) : NodeInfo :=
  let limited : Bool :=
    match n0.client with
    | none => false
    | some c =>
        d.tile_limit_enabled ∧ ¬IS_FLOATING c ∧ ¬ignores_tile_limits ∧
          d.max_tiles_per_desktop ≤ count_tiled_windows d
  if limited then
    { n0 with client := n0.client.map fun c => { c with state := ClientState.floating } }
  else n0

/-- `insert_node` from tree.c at the desktop level.  `fpath?` stands for the
`f` argument (`none` = `NULL`, resolved to the root), `ignores_tile_limits`
for the X property query `window_ignores_tile_limits(n->id)`, and `fresh_id`
for the backend id `make_node` would generate for the splicing internal
node.  The status notifications and the history update of the caller are
outside the desktop state. -/
def insert_node (s : Settings) (d : DesktopT) (n0 : NodeInfo)
    (fpath? : Option TPath) (ignores_tile_limits : Bool) (fresh_id : Nat) :
    DesktopT :=
  let n : NodeInfo := tiled_limit_adjust d n0 ignores_tile_limits
  match d.root with
  | none =>
      let d' := { d with root := some (.leaf n) }
      if d'.focus = none ∧ is_focusable (.leaf n) then
        { d' with focus := some n.id }
      else d'
  | some t =>
      let π := fpath?.getD []
      match t.subtreeAt π with
      | none => d
      | some ft =>
          let t' := insert_node_tree s d t n π ft fresh_id
          let d' := { d with root := some t' }
          if d'.focus = none ∧ is_focusable (.leaf n) then
            { d' with focus := some n.id }
          else d'

/-- `unlink_node` from tree.c at the desktop level: collapse the parent onto
the sibling, apply the removal adjustment, and re-propagate the flags.  (The
history scrub, presel-feedback destruction and the monitor sticky counter
live outside the desktop state.) -/
def unlink_node (s : Settings) (d : DesktopT) (π : TPath) : DesktopT :=
  match d.root with
  | none => d
  | some t =>
      if π = [] then { d with root := none, focus := none }
      else
        match t.subtreeAt π with
        | none => d
        | some nSub =>
            let πp := π.dropLast
            match t.subtreeAt πp with
            | none => d
            | some P =>
                match P with
                | .leaf _ => d
                | .split _ pa pb =>
                    let lastd := π.getLast?.getD ChildDir.first
                    let b := if lastd = ChildDir.first then pb else pa
                    let focus' :=
                      if d.focus = some P.info.id ∨
                          d.focus.elim false (fun fid => nSub.containsId fid) then none
                      else d.focus
                    let b' :=
                      if ¬nSub.info.vacant ∧ s.removal_adjustment then
                        match s.automatic_scheme with
                        | Scheme.spiral =>
                            rotate_tree b (if lastd = ChildDir.first then 270 else 90)
                        | Scheme.longest_side =>
                            b.withInfo { b.info with split_type :=
                              if P.info.rectangle.height < P.info.rectangle.width then
                                SplitType.vertical
                              else SplitType.horizontal }
                        | Scheme.alternate =>
                            if πp = [] then
                              b.withInfo { b.info with split_type :=
                                if P.info.rectangle.height < P.info.rectangle.width then
                                  SplitType.vertical
                                else SplitType.horizontal }
                            else
                              match t.subtreeAt πp.dropLast with
                              | some g =>
                                  b.withInfo { b.info with split_type :=
                                    match g.info.split_type with
                                    | SplitType.horizontal => SplitType.vertical
                                    | SplitType.vertical => SplitType.horizontal }
                              | none => b
                      else b
                    { d with root := some (propagate_flags_at (t.replaceAt πp b') πp),
                             focus := focus' }

/-! ## World model and `swap_nodes` (claims C6, C8) -/

/-- The per-monitor state the verified operations read and write.
`desk_idx` stands for the `m->desk` pointer. -/
structure MonitorT where
  id : Nat
  rectangle : XRect
  sticky_count : Nat
  desk_idx : Nat
  desktops : List DesktopT
deriving DecidableEq, Repr

/-- The notifications `swap_nodes` can emit. -/
inductive WmEvent where
  | node_swap (m1 d1 n1 m2 d2 n2 : Nat)
deriving DecidableEq, Repr

/-- The world: the monitors (with `mon_idx` standing for the globally
focused monitor `mon`), the stacking list, the history (desktop id, node id
pairs, most recent last) and the emitted notifications. -/
structure World where
  mons : List MonitorT
  mon_idx : Nat
  stack : List Nat
  history : List (Nat × Nat)
  events : List WmEvent
deriving DecidableEq, Repr

/-- Every tree of the world. -/
def worldTrees (w : World) : List NTree :=
  ((w.mons.map fun m => m.desktops.filterMap DesktopT.root)).join

/-- `is_descendant(n1, n2)` at the id level: within some tree of the world,
the subtree rooted at `i2` contains `i1` (the C walks `n1`'s parent chain;
under globally unique ids the two coincide). -/
def is_descendant_w (w : World) (i1 i2 : Nat) : Bool :=
  (worldTrees w).any fun t =>
    match t.findSubtreeById i2 with
    | some u => u.containsId i1
    | none => false

/-- `sticky_count(n)` resolved through the world: the sticky count of the
subtree rooted at the node with the given id. -/
def sticky_count_w (w : World) (i : Nat) : Nat :=
  match ((worldTrees w).filterMap fun t => t.findSubtreeById i).head? with
  | some u => sticky_count_in u
  | none => 0

/-- `find_by_id` from tree.c (bounded pre-order search over every desktop),
reduced to the presence test the focus reassignment of `swap_nodes` needs. -/
def find_by_id_w (w : World) (i : Nat) : Bool :=
  (w.mons.any fun m => m.desktops.any fun d => (find_by_id_in d.root i).isSome)

/-- Clear a presel's feedback handle (`swap_nodes` destroys the feedback
windows of both nodes before rewiring). -/
def clear_feedback (i : NodeInfo) : NodeInfo :=
  { i with presel := i.presel.map fun p => { p with feedback := 0 } }

/-- `hide_node` from tree.c, restricted to the tree state: clear the `shown`
flag of every client in the subtree, stopping at sticky nodes when
`hide_sticky` is off (the `window_hide` calls drive the backend). -/
def hide_node_map : Settings → NTree → Nat → NTree
  | s, t, depth =>
      if MAX_TREE_DEPTH < depth then t
      else if ¬s.hide_sticky ∧ t.info.sticky then t
      else
        match t with
        | .leaf i =>
            .leaf { i with client := i.client.map fun c => { c with shown := false } }
        | .split i a b =>
            .split { i with client := i.client.map fun c => { c with shown := false } }
              (hide_node_map s a (depth + 1)) (hide_node_map s b (depth + 1))

/-- `show_node` from tree.c, restricted to the tree state. -/
def show_node_map : NTree → Nat → NTree
  | t, depth =>
      if MAX_TREE_DEPTH < depth then t
      else
        match t with
        | .leaf i =>
            .leaf { i with client := i.client.map fun c => { c with shown := true } }
        | .split i a b =>
            .split { i with client := i.client.map fun c => { c with shown := true } }
              (show_node_map a (depth + 1)) (show_node_map b (depth + 1))

/-- Apply `hide_node`/`show_node` to the subtree at a path. -/
def mapSubtreeAt (t : NTree) (π : TPath) (g : NTree → NTree) : NTree :=
  match t.subtreeAt π with
  | none => t
  | some u => t.replaceAt π (g u)

/-- Modelled from the spec: `history_remove(d, n, true)` (history.c is not
part of the sources; §3 describes the history as an ordered sequence of
(monitor, desktop, node) triples).  Deep removal drops every entry of the
desktop that lies in the removed subtree. -/
def history_remove_deep (h : List (Nat × Nat)) (did : Nat) (sub : NTree) :
    List (Nat × Nat) :=
  h.filter fun e => ¬(e.1 = did ∧ sub.containsId e.2)

/-- Update the desktop at an index of a monitor list. -/
def setDesk (mons : List MonitorT) (mi di : Nat) (d : DesktopT) : List MonitorT :=
  match mons[mi]? with
  | none => mons
  | some m => mons.set mi { m with desktops := m.desktops.set di d }

/-- The `single_monocle` reconciliation `swap_nodes` performs on a desktop
(`set_layout` reduced to the layout field). -/
def single_monocle_layout (d : DesktopT) : DesktopT :=
  let tiled := match d.root with | some t => tiled_count t true | none => 0
  { d with layout := if tiled ≤ 1 then Layout.monocle else d.user_layout }

/-- The committed (post-guard) portion of `swap_nodes`, for arguments the
guards accepted: clear the presel feedbacks, exchange the two subtrees,
re-propagate the flags from both new positions, fix the roots, reassign the
focus of both desktops, adapt visibility, scrub the history and reconcile
`single_monocle`.  Backend-facing effects (geometry adaptation of floating
rectangles, EWMH desktops, border drawing, the final `focus_node` /
`activate_node` normalisation, `arrange` and pointer centering) act outside
this state.  Returns the world unchanged if a lookup fails (unreachable
after the guards). -/
def swap_nodes_commit (s : Settings) (w : World) (mi1 di1 i1 mi2 di2 i2 : Nat)
    (follow : Bool) : World :=
  match w.mons[mi1]?, w.mons[mi2]? with
  | some m1, some m2 =>
    match m1.desktops[di1]?, m2.desktops[di2]? with
    | some d1, some d2 =>
      match d1.root, d2.root with
      | some t1, some t2 =>
        match t1.findPathById i1, t2.findPathById i2 with
        | some π1, some π2 =>
          let n1_held_focus := d1.focus.elim false fun fid =>
            ((t1.subtreeAt π1).getD t1).containsId fid
          let n2_held_focus := d2.focus.elim false fun fid =>
            ((t2.subtreeAt π2).getD t2).containsId fid
          let s1 := ((t1.subtreeAt π1).getD t1).updateAt [] clear_feedback
          let s2 := ((t2.subtreeAt π2).getD t2).updateAt [] clear_feedback
          if (mi1, di1) = (mi2, di2) then
            -- same desktop: exchange in place, then propagate from both
            -- positions (n1 now sits at π2, n2 at π1)
            let tA := (t1.replaceAt π1 s2).replaceAt π2 s1
            let tB := propagate_flags_at (propagate_flags_at tA π2) π1
            { w with mons := setDesk w.mons mi1 di1 { d1 with root := some tB } }
          else
            let t1' := propagate_flags_at (t1.replaceAt π1 s2) π1
            let t2' := propagate_flags_at (t2.replaceAt π2 s1) π2
            let d1a := { d1 with root := some t1' }
            let d2a := { d2 with root := some t2' }
            let wA := { w with mons := setDesk (setDesk w.mons mi1 di1 d1a) mi2 di2 d2a }
            -- focus reassignment (the stale-pointer re-validation of the C
            -- becomes a world-wide id search)
            let f1 :=
              if n1_held_focus then
                if n2_held_focus ∧ d2.focus.isSome ∧
                    find_by_id_w wA (d2.focus.getD 0) then d2.focus
                else some i2
              else d1a.focus
            let f2 :=
              if n2_held_focus then
                if n1_held_focus ∧ d1.focus.isSome ∧
                    find_by_id_w wA (d1.focus.getD 0) then d1.focus
                else some i1
              else d2a.focus
            let d1b := { d1a with focus := f1 }
            let d2b := { d2a with focus := f2 }
            -- visibility when exactly one side is displayed
            let d2_was_focused := w.mon_idx = mi2 ∧ m2.desk_idx = di2
            let d1_was_focused := w.mon_idx = mi1 ∧ m1.desk_idx = di1
            let d1c :=
              if m1.desk_idx ≠ di1 ∧ m2.desk_idx = di2 then d1b
              else if m1.desk_idx = di1 ∧ m2.desk_idx ≠ di2 then
                { d1b with root := d1b.root.map fun t =>
                    let t := if ¬follow ∨ ¬d1_was_focused ∨ ¬n1_held_focus then
                        mapSubtreeAt t π1 (hide_node_map s · 0)
                      else t
                    mapSubtreeAt t π1 (show_node_map · 0) }
              else d1b
            let d2c :=
              if m1.desk_idx ≠ di1 ∧ m2.desk_idx = di2 then
                { d2b with root := d2b.root.map fun t =>
                    let t := mapSubtreeAt t π2 (show_node_map · 0)
                    if ¬follow ∨ ¬d2_was_focused ∨ ¬n2_held_focus then
                      mapSubtreeAt t π2 (hide_node_map s · 0)
                    else t }
              else d2b
            let d1d := if s.single_monocle then single_monocle_layout d1c else d1c
            let d2d := if s.single_monocle then single_monocle_layout d2c else d2c
            let hist := history_remove_deep
              (history_remove_deep w.history d1.id s1) d2.id s2
            { w with
                mons := setDesk (setDesk w.mons mi1 di1 d1d) mi2 di2 d2d,
                history := hist }
        | _, _ => w
      | _, _ => w
    | _, _ => w
  | _, _ => w

/-- `swap_nodes` from tree.c at the world level.  The node arguments are
optional ids (`none` = `NULL`); monitors and desktops are addressed by index
(an out-of-range index is a `NULL` argument). -/
def swap_nodes (s : Settings) (w : World) (mi1 di1 : Nat) (n1 : Option Nat)
    (mi2 di2 : Nat) (n2 : Option Nat) (follow : Bool) : Bool × World :=
  match n1, n2 with
  | none, _ => (false, w)
  | _, none => (false, w)
  | some i1, some i2 =>
    if i1 = i2 then (false, w)
    else
      match w.mons[mi1]?, w.mons[mi2]? with
      | some m1, some m2 =>
        match m1.desktops[di1]?, m2.desktops[di2]? with
        | some d1, some d2 =>
          if is_descendant_w w i1 i2 ∨ is_descendant_w w i2 i1 then (false, w)
          else if (mi1, di1) ≠ (mi2, di2) ∧
              ((0 < m1.sticky_count ∧ 0 < sticky_count_w w i1) ∨
               (0 < m2.sticky_count ∧ 0 < sticky_count_w w i2)) then (false, w)
          else if (find_by_id_in d1.root i1).isNone ∨
              (find_by_id_in d2.root i2).isNone then (false, w)
          else
            let w1 := { w with events :=
              w.events ++ [WmEvent.node_swap m1.id d1.id i1 m2.id d2.id i2] }
            if d1.root.elim none (fun t => t.parentIdOf i1) = some i2 ∨
                d2.root.elim none (fun t => t.parentIdOf i2) = some i1 then
              (false, w1)
            else (true, swap_nodes_commit s w1 mi1 di1 i1 mi2 di2 i2 follow)
        | _, _ => (false, w)
      | _, _ => (false, w)

/-- Every tree of the world satisfies the vacant invariant (§8). -/
def WOkVacant (w : World) : Prop :=
  ∀ t ∈ worldTrees w, vacantOkB t = true

/-- Every tree of the world fits under the depth guard. -/
def WHeights (w : World) : Prop :=
  ∀ t ∈ worldTrees w, t.height ≤ MAX_TREE_DEPTH

/-- All node ids of the world are distinct (§3: ids name X entities). -/
def WIdsNodup (w : World) : Prop :=
  (((worldTrees w).map NTree.treeIds).join).Nodup

/-! ## Concrete sample states (used by closed instances) -/

/-- A plain tiled client. -/
def sampleClient : Client :=
  ⟨ClientState.tiled, StackLayer.normal, ⟨0, 0, 100, 100⟩, ⟨0, 0, 100, 100⟩, true⟩

/-- Default-ish settings. -/
def sampleSettings : Settings :=
  ⟨1/2, Polarity.second_child, Scheme.longest_side, false, false, false, true, 32, 32⟩

/-- A receptacle leaf: no client, no preselection. -/
def receptacleInfo : NodeInfo :=
  ⟨1, SplitType.vertical, 1/2, true, false, false, false, false,
   ⟨0, 0, 800, 600⟩, ⟨32, 32⟩, none, none⟩

/-- A leaf holding a tiled client. -/
def filledLeafInfo : NodeInfo :=
  { receptacleInfo with vacant := false, client := some sampleClient }

/-- A fresh leaf payload about to be inserted. -/
def newLeafInfo : NodeInfo :=
  ⟨2, SplitType.vertical, 1/2, false, false, false, false, false,
   ⟨0, 0, 0, 0⟩, ⟨32, 32⟩, none, some sampleClient⟩

/-- A desktop whose tree is a single receptacle leaf. -/
def deskRecep : DesktopT :=
  ⟨10, some (.leaf receptacleInfo), none, Layout.tiled, Layout.tiled, 0, false, 0⟩

/-- A desktop whose tree is a single occupied leaf. -/
def deskLeaf : DesktopT :=
  ⟨11, some (.leaf filledLeafInfo), some 1, Layout.tiled, Layout.tiled, 0, false, 0⟩

/-- A world with one monitor showing one single-leaf desktop. -/
def sampleWorld : World :=
  ⟨[⟨1, ⟨0, 0, 1920, 1080⟩, 0, 0, [deskLeaf]⟩], 0, [], [], []⟩

/-! ## Theorems: claims C9, C2, C10 -/

/-- C9: for every client, `stack_level` returns three times the client's
layer plus the class of its state, where tiled and pseudo-tiled have class 0,
floating has class 1 and fullscreen has class 2. -/
theorem stack_level_eq_three_layer_add_state_class (c : Client) :
    stack_level c = 3 * c.layer.toNat + state_class c.state := by
  cases h : c.state <;>
    simp [stack_level, state_class, ClientState.toNat, h]

/-- C2: on an internal node with both children present, `update_constraints`
computes exactly the spec's aggregation: for a vertical split the minimum
width is the children's sum saturated at `UINT16_MAX` and the minimum height
is the maximum of the children's; a horizontal split is transposed.  The
children's constraints are `uint16_t` values, hence the range hypotheses. -/
theorem update_constraints_matches_spec (st : SplitType) (c1 c2 : Constraints)
    (hw1 : c1.min_width ≤ UINT16_MAX) (hw2 : c2.min_width ≤ UINT16_MAX)
    (hh1 : c1.min_height ≤ UINT16_MAX) (hh2 : c2.min_height ≤ UINT16_MAX) :
    update_constraints_calc st c1 c2 = constraints_spec_agg st c1 c2 := by
  have key : ∀ a b : Nat, a ≤ UINT16_MAX → b ≤ UINT16_MAX →
      safe_add a b UINT16_MAX = min (a + b) UINT16_MAX := by
    intro a b ha hb
    unfold safe_add UINT16_MAX at *
    split
    · omega
    · omega
  cases st <;>
    simp [update_constraints_calc, constraints_spec_agg,
      key _ _ hw1 hw2, key _ _ hh1 hh2]

/-- Witness for `update_constraints_matches_spec` at concrete constraints. -/
theorem update_constraints_matches_spec_witness :
    update_constraints_calc SplitType.vertical ⟨32, 32⟩ ⟨60000, 7⟩ =
      constraints_spec_agg SplitType.vertical ⟨32, 32⟩ ⟨60000, 7⟩ :=
  update_constraints_matches_spec SplitType.vertical ⟨32, 32⟩ ⟨60000, 7⟩
    (by decide) (by decide) (by decide) (by decide)

/-- The `first_extrema` loop never pushes the depth counter past
`MAX_TREE_DEPTH` when started at or below it. -/
theorem first_extrema_go_depth_le (t : NTree) :
    ∀ d, d ≤ MAX_TREE_DEPTH → (first_extrema_go t d).2 ≤ MAX_TREE_DEPTH := by
  induction t with
  | leaf i => intro d hd; simpa [first_extrema_go] using hd
  | split i a b iha ihb =>
      intro d hd
      by_cases h : d < MAX_TREE_DEPTH
      · rw [first_extrema_go, if_pos h]
        exact iha (d + 1) h
      · rw [first_extrema_go, if_neg h]
        exact hd

/-- The `first_extrema` loop computes `followFirst` with the remaining
fuel. -/
theorem first_extrema_go_eq_followFirst (t : NTree) :
    ∀ d, d ≤ MAX_TREE_DEPTH →
      (first_extrema_go t d).1 = followFirst t (MAX_TREE_DEPTH - d) := by
  induction t with
  | leaf i =>
      intro d _
      cases h : MAX_TREE_DEPTH - d <;> simp [first_extrema_go, followFirst, h]
  | split i a b iha ihb =>
      intro d hd
      by_cases h : d < MAX_TREE_DEPTH
      · rw [first_extrema_go, if_pos h]
        have h1 : MAX_TREE_DEPTH - d = (MAX_TREE_DEPTH - (d + 1)) + 1 := by omega
        rw [iha (d + 1) h, h1, followFirst]
      · rw [first_extrema_go, if_neg h]
        have h1 : MAX_TREE_DEPTH - d = 0 := by omega
        rw [h1, followFirst]

/-- C10: for every (non-null) node, `first_extrema` returns a non-null node:
the loop leaves the depth counter at most `MAX_TREE_DEPTH`, so the branch
returning `NULL` when the depth exceeds `MAX_TREE_DEPTH` is unreachable, and
the returned node is the one reached by following `first_child` pointers for
at most `MAX_TREE_DEPTH` steps. -/
theorem first_extrema_isSome (t : NTree) :
    first_extrema t = some (followFirst t MAX_TREE_DEPTH) := by
  have h1 := first_extrema_go_depth_le t 0 (by omega)
  have h2 := first_extrema_go_eq_followFirst t 0 (by omega)
  unfold first_extrema
  rw [if_neg (by omega)]
  simpa using congrArg some h2

/-- Core bounds of the fence computation: when the children's minima fit the
extent the clamp branch runs and the fence lands in `[min1, extent - min2]`;
when even the saturated minima sum exceeds the extent the stored ratio is
returned unchanged. -/
theorem apply_layout_fence_bounds (extent : Nat) (ratio : ℚ) (m1 m2 : Nat) :
    (m1 + m2 ≤ extent →
      m1 ≤ (apply_layout_fence extent ratio m1 m2).1 ∧
      (apply_layout_fence extent ratio m1 m2).1 ≤ extent - m2) ∧
    (extent < safe_add m1 m2 UINT16_MAX →
      (apply_layout_fence extent ratio m1 m2).2 = ratio) := by
  constructor
  · intro h
    have hms : safe_add m1 m2 UINT16_MAX ≤ extent := by
      unfold safe_add UINT16_MAX
      split
      · omega
      · omega
    simp only [apply_layout_fence]
    rw [if_pos hms]
    split_ifs with h1 h2 <;> constructor <;> omega
  · intro h
    simp only [apply_layout_fence]
    rw [if_neg (by omega)]

/-- C1 (amended): for an internal node processed by `apply_layout` in a tiled
layout with neither child vacant, if the children's minima along the split
axis sum to at most the node's extent on that axis, the computed fence is
clamped so that the first child's slice is at least its minimum and the
second child's slice is at least its minimum; and the stored split ratio is
left unchanged whenever the *saturated* minima sum (`SAFE_ADD` at
`UINT16_MAX`) exceeds the extent — in particular whenever the plain sum
exceeds an extent that is below `UINT16_MAX`.  (When the plain sum exceeds
both `UINT16_MAX` and the extent while the extent equals `UINT16_MAX`, the
clamp still runs and may overwrite the ratio; see
`apply_layout_split_ratio_counterexample`.) -/
theorem apply_layout_split_minima (st : SplitType) (rect : XRect) (ratio : ℚ)
    (c1 c2 : Constraints) :
    (axis_min st c1 + axis_min st c2 ≤ axis_extent st rect →
      axis_min st c1 ≤ axis_extent st (apply_layout_split st rect ratio c1 c2).1 ∧
      axis_extent st (apply_layout_split st rect ratio c1 c2).1 ≤
        axis_extent st rect - axis_min st c2 ∧
      axis_min st c2 ≤ axis_extent st (apply_layout_split st rect ratio c1 c2).2.1) ∧
    (axis_extent st rect < safe_add (axis_min st c1) (axis_min st c2) UINT16_MAX →
      (apply_layout_split st rect ratio c1 c2).2.2 = ratio) := by
  cases st with
  | vertical =>
      have hb := apply_layout_fence_bounds rect.width ratio c1.min_width c2.min_width
      constructor
      · intro h
        have h1 := hb.1 (by simpa [axis_min, axis_extent] using h)
        simp only [apply_layout_split, axis_extent, axis_min] at *
        exact ⟨h1.1, h1.2, by omega⟩
      · intro h
        have h2 := hb.2 (by simpa [axis_min, axis_extent] using h)
        simpa [apply_layout_split, axis_extent, axis_min] using h2
  | horizontal =>
      have hb := apply_layout_fence_bounds rect.height ratio c1.min_height c2.min_height
      constructor
      · intro h
        have h1 := hb.1 (by simpa [axis_min, axis_extent] using h)
        simp only [apply_layout_split, axis_extent, axis_min] at *
        exact ⟨h1.1, h1.2, by omega⟩
      · intro h
        have h2 := hb.2 (by simpa [axis_min, axis_extent] using h)
        simpa [apply_layout_split, axis_extent, axis_min] using h2

/-- Witness for `apply_layout_split_minima`: a vertical split of a
1000-wide rectangle with minima 300 and 200 keeps both slices above their
minima, and a 100-wide rectangle with the same minima keeps its ratio. -/
theorem apply_layout_split_minima_witness :
    (300 ≤ axis_extent SplitType.vertical
        (apply_layout_split SplitType.vertical ⟨0, 0, 1000, 600⟩ (1/2) ⟨300, 32⟩ ⟨200, 32⟩).1 ∧
      axis_extent SplitType.vertical
        (apply_layout_split SplitType.vertical ⟨0, 0, 1000, 600⟩ (1/2) ⟨300, 32⟩ ⟨200, 32⟩).1 ≤
        1000 - 200 ∧
      200 ≤ axis_extent SplitType.vertical
        (apply_layout_split SplitType.vertical ⟨0, 0, 1000, 600⟩ (1/2) ⟨300, 32⟩ ⟨200, 32⟩).2.1) ∧
    (apply_layout_split SplitType.vertical ⟨0, 0, 100, 600⟩ (1/2) ⟨300, 32⟩ ⟨200, 32⟩).2.2 =
      (1/2 : ℚ) :=
  ⟨(apply_layout_split_minima SplitType.vertical ⟨0, 0, 1000, 600⟩ (1/2) ⟨300, 32⟩
      ⟨200, 32⟩).1 (by decide),
   (apply_layout_split_minima SplitType.vertical ⟨0, 0, 100, 600⟩ (1/2) ⟨300, 32⟩
      ⟨200, 32⟩).2 (by decide)⟩

/-- Counterexample to C1 as stated: with an extent of `UINT16_MAX` (65535)
and child minima of 60000 each, the combined minima exceed the extent, yet
`apply_layout` still overwrites the stored split ratio, because the
`SAFE_ADD`-saturated minima sum (65535) passes the `min_sum <= extent`
test. -/
theorem apply_layout_split_ratio_counterexample :
    60000 + 60000 > axis_extent SplitType.vertical ⟨0, 0, 65535, 100⟩ ∧
    (apply_layout_split SplitType.vertical ⟨0, 0, 65535, 100⟩ (1/2)
        ⟨60000, 32⟩ ⟨60000, 32⟩).2.2 ≠ (1/2 : ℚ) := by
  constructor
  · decide
  · have hfloor : (⌊((65535 : Nat) : ℚ) * (1/2 : ℚ)⌋₊ : Nat) < 60000 := by
      rw [Nat.floor_lt (by positivity)]
      push_cast
      norm_num
    have hsat : safe_add 60000 60000 UINT16_MAX ≤ 65535 := by decide
    simp only [apply_layout_split, apply_layout_fence]
    rw [if_pos hsat, if_pos hfloor]
    norm_num

/-- Nodes past the depth guard are returned unchanged by the rotation
recursion. -/
theorem rotate_tree_rec_bounded_of_gt (t : NTree) (deg depth : Nat)
    (h : MAX_TREE_DEPTH < depth) : rotate_tree_rec_bounded t deg depth = t := by
  cases t with
  | leaf i => rfl
  | split i a b => rw [rotate_tree_rec_bounded, if_pos (Or.inr h)]

/-- Rotating by 90° then by 270° restores every node's children order, split
type and split ratio (the recursion core, at any starting depth). -/
theorem rotate_rec_90_270 (t : NTree) :
    ∀ depth, rotate_tree_rec_bounded (rotate_tree_rec_bounded t 90 depth) 270 depth = t := by
  induction t with
  | leaf i => intro depth; rfl
  | split i a b iha ihb =>
    intro depth
    by_cases hd : MAX_TREE_DEPTH < depth
    · rw [rotate_tree_rec_bounded_of_gt _ _ _ hd, rotate_tree_rec_bounded_of_gt _ _ _ hd]
    · have hguard90 : ¬(90 = 0 ∨ MAX_TREE_DEPTH < depth) := by
        exact not_or.mpr ⟨by decide, hd⟩
      have hguard270 : ¬(270 = 0 ∨ MAX_TREE_DEPTH < depth) := by
        exact not_or.mpr ⟨by decide, hd⟩
      cases hst : i.split_type with
      | horizontal =>
        rw [rotate_tree_rec_bounded, if_neg hguard90,
          if_pos (Or.inl ⟨rfl, hst⟩)]
        dsimp only
        rw [if_pos (by decide : (90 : Nat) ≠ 180)]
        rw [rotate_tree_rec_bounded, if_neg hguard270]
        rw [if_pos (by exact Or.inr (Or.inl ⟨rfl, by simp [hst]⟩))]
        dsimp only
        rw [if_pos (by decide : (270 : Nat) ≠ 180)]
        by_cases hlt : depth < MAX_TREE_DEPTH
        · rw [if_pos hlt, if_pos hlt, iha, ihb]
          cases i
          simp_all [sub_sub_cancel]
        · have hup : MAX_TREE_DEPTH < depth + 1 := by omega
          rw [if_neg hlt, if_neg hlt,
            rotate_tree_rec_bounded_of_gt _ _ _ hup,
            rotate_tree_rec_bounded_of_gt _ _ _ hup]
          cases i
          simp_all [sub_sub_cancel]
      | vertical =>
        rw [rotate_tree_rec_bounded, if_neg hguard90,
          if_neg (by simp [hst])]
        dsimp only
        rw [if_pos (by decide : (90 : Nat) ≠ 180)]
        rw [rotate_tree_rec_bounded, if_neg hguard270,
          if_neg (by simp [hst])]
        dsimp only
        rw [if_pos (by decide : (270 : Nat) ≠ 180)]
        by_cases hlt : depth < MAX_TREE_DEPTH
        · rw [if_pos hlt, if_pos hlt, iha, ihb]
          cases i
          simp_all
        · have hup : MAX_TREE_DEPTH < depth + 1 := by omega
          rw [if_neg hlt, if_neg hlt,
            rotate_tree_rec_bounded_of_gt _ _ _ hup,
            rotate_tree_rec_bounded_of_gt _ _ _ hup]
          cases i
          simp_all

/-- The constraint rebuild changes only constraints fields. -/
theorem eraseConstraints_rebuild_bounded (t : NTree) :
    ∀ depth, (rebuild_constraints_from_leaves_bounded t depth).eraseConstraints =
      t.eraseConstraints := by
  induction t with
  | leaf i => intro depth; rfl
  | split i a b iha ihb =>
    intro depth
    rw [rebuild_constraints_from_leaves_bounded]
    by_cases hd : MAX_TREE_DEPTH < depth
    · rw [if_pos hd]
    · rw [if_neg hd]
      dsimp only [NTree.eraseConstraints]
      rw [iha, ihb]
      cases i
      simp [NodeInfo.eraseConstraints]

/-- The rotation recursion commutes with erasing constraints: its behaviour
never depends on a constraints field. -/
theorem eraseConstraints_rotate_rec_bounded (t : NTree) :
    ∀ deg depth, (rotate_tree_rec_bounded t deg depth).eraseConstraints =
      rotate_tree_rec_bounded t.eraseConstraints deg depth := by
  induction t with
  | leaf i => intro deg depth; rfl
  | split i a b iha ihb =>
    intro deg depth
    rw [rotate_tree_rec_bounded]
    conv_rhs => rw [NTree.eraseConstraints, rotate_tree_rec_bounded]
    by_cases hguard : deg = 0 ∨ MAX_TREE_DEPTH < depth
    · rw [if_pos hguard, if_pos hguard]
      rfl
    · rw [if_neg hguard, if_neg hguard]
      by_cases hsw : (deg = 90 ∧ i.split_type = SplitType.horizontal) ∨
          (deg = 270 ∧ i.split_type = SplitType.vertical) ∨ deg = 180
      · have hsw' : (deg = 90 ∧ i.eraseConstraints.split_type = SplitType.horizontal) ∨
            (deg = 270 ∧ i.eraseConstraints.split_type = SplitType.vertical) ∨ deg = 180 := by
          simpa [NodeInfo.eraseConstraints] using hsw
        rw [if_pos hsw, if_pos hsw']
        dsimp only
        by_cases h180 : deg ≠ 180
        · rw [if_pos h180, if_pos h180]
          by_cases hlt : depth < MAX_TREE_DEPTH
          · rw [if_pos hlt, if_pos hlt]
            dsimp only [NTree.eraseConstraints]
            rw [iha, ihb]
            cases i
            rfl
          · rw [if_neg hlt, if_neg hlt]
            dsimp only [NTree.eraseConstraints]
            rw [iha]
            cases i
            rfl
        · rw [if_neg h180, if_neg h180]
          by_cases hlt : depth < MAX_TREE_DEPTH
          · rw [if_pos hlt, if_pos hlt]
            dsimp only [NTree.eraseConstraints]
            rw [iha, ihb]
            cases i
            rfl
          · rw [if_neg hlt, if_neg hlt]
            dsimp only [NTree.eraseConstraints]
            rw [iha]
            cases i
            rfl
      · have hsw' : ¬((deg = 90 ∧ i.eraseConstraints.split_type = SplitType.horizontal) ∨
            (deg = 270 ∧ i.eraseConstraints.split_type = SplitType.vertical) ∨ deg = 180) := by
          simpa [NodeInfo.eraseConstraints] using hsw
        rw [if_neg hsw, if_neg hsw']
        dsimp only
        by_cases h180 : deg ≠ 180
        · rw [if_pos h180, if_pos h180]
          by_cases hlt : depth < MAX_TREE_DEPTH
          · rw [if_pos hlt, if_pos hlt]
            dsimp only [NTree.eraseConstraints]
            rw [iha, ihb]
            cases i
            rfl
          · rw [if_neg hlt, if_neg hlt]
            dsimp only [NTree.eraseConstraints]
            rw [ihb]
            cases i
            rfl
        · rw [if_neg h180, if_neg h180]
          by_cases hlt : depth < MAX_TREE_DEPTH
          · rw [if_pos hlt, if_pos hlt]
            dsimp only [NTree.eraseConstraints]
            rw [iha, ihb]
          · rw [if_neg hlt, if_neg hlt]
            dsimp only [NTree.eraseConstraints]
            rw [ihb]

/-- C3: rotating a tree by 90° and then by 270° with `rotate_tree` is the
identity on the tree's structure: every node ends with its original
first/second child arrangement, its original split type and its original
split ratio (only the constraints fields, which `rotate_tree` rebuilds, are
quotiented out by `eraseConstraints`). -/
theorem rotate_tree_90_270_identity (t : NTree) :
    (rotate_tree (rotate_tree t 90) 270).eraseConstraints = t.eraseConstraints := by
  unfold rotate_tree rotate_tree_rec rebuild_constraints_from_leaves
  rw [eraseConstraints_rebuild_bounded, eraseConstraints_rotate_rec_bounded,
    eraseConstraints_rebuild_bounded, eraseConstraints_rotate_rec_bounded,
    rotate_rec_90_270]

/-- Nodes past the depth guard are returned unchanged by the flip
recursion. -/
theorem flip_tree_bounded_of_gt (t : NTree) (flp : Flip) (depth : Nat)
    (h : MAX_TREE_DEPTH < depth) : flip_tree_bounded t flp depth = t := by
  cases t with
  | leaf i => rfl
  | split i a b => rw [flip_tree_bounded, if_pos h]

/-- Flipping twice along the same axis restores every node (the recursion
core, at any starting depth). -/
theorem flip_rec_involutive (t : NTree) :
    ∀ flp depth, flip_tree_bounded (flip_tree_bounded t flp depth) flp depth = t := by
  induction t with
  | leaf i => intro flp depth; rfl
  | split i a b iha ihb =>
    intro flp depth
    by_cases hd : MAX_TREE_DEPTH < depth
    · rw [flip_tree_bounded_of_gt _ _ _ hd, flip_tree_bounded_of_gt _ _ _ hd]
    · by_cases hm : (flp = Flip.horizontal ∧ i.split_type = SplitType.horizontal) ∨
          (flp = Flip.vertical ∧ i.split_type = SplitType.vertical)
      · rw [flip_tree_bounded, if_neg hd, if_pos hm]
        rw [flip_tree_bounded, if_neg hd, if_pos (by simpa using hm)]
        rw [iha, ihb]
        cases i
        simp [sub_sub_cancel]
      · rw [flip_tree_bounded, if_neg hd, if_neg hm]
        rw [flip_tree_bounded, if_neg hd, if_neg (by simpa using hm)]
        rw [iha, ihb]

/-- C4: for every tree and every flip axis, applying `flip_tree` twice with
the same axis is the identity: nodes on the matching axis have their children
swapped and their ratio replaced by one minus the ratio on each application,
and the second application undoes the first exactly. -/
theorem flip_tree_involutive (t : NTree) (flp : Flip) :
    flip_tree (flip_tree t flp) flp = t := by
  unfold flip_tree
  exact flip_rec_involutive t flp 0

/-! ### Stacking-list lemmas (claim C7) -/

/-- The loop of `limit_above`/`limit_below` either traverses the whole list
(every element satisfies the continuation predicate) or stops at the first
element that fails it. -/
theorem scan_first_not_spec (p : SNode → Bool) (l : List SNode) :
    (scan_first_not p l = none ∧ ∀ e ∈ l, p e = true) ∨
    ∃ X e Y, l = X ++ e :: Y ∧ (∀ x ∈ X, p x = true) ∧ p e = false ∧
      scan_first_not p l = some e := by
  induction l with
  | nil => exact Or.inl ⟨rfl, by simp⟩
  | cons a rest ih =>
    by_cases hp : p a
    · rcases ih with ⟨h1, h2⟩ | ⟨X, e, Y, hXY, hX, he, hs⟩
      · refine Or.inl ⟨by simp [scan_first_not, hp, h1], ?_⟩
        intro e he'
        rcases List.mem_cons.mp he' with rfl | h
        · exact hp
        · exact h2 _ h
      · refine Or.inr ⟨a :: X, e, Y, by rw [hXY]; rfl, ?_, he, ?_⟩
        · intro x hx
          rcases List.mem_cons.mp hx with rfl | h
          · exact hp
          · exact hX _ h
        · simpa [scan_first_not, hp] using hs
    · exact Or.inr ⟨[], a, rest, rfl, by simp, by simpa using hp,
        by simp [scan_first_not, hp]⟩

/-- Removing an entry yields a sublist. -/
theorem removeById_sublist (l : List SNode) (i : Nat) :
    List.Sublist (removeById l i) l := by
  induction l with
  | nil => simp [removeById]
  | cons a rest ih =>
    by_cases h : a.id = i
    · rw [removeById, if_pos h]
      exact List.sublist_cons_self a rest
    · rw [removeById, if_neg h]
      exact List.Sublist.cons₂ a ih

/-- After removing the unique entry with an id, the id is gone. -/
theorem not_mem_removeById (l : List SNode) (i : Nat)
    (h : (l.map SNode.id).Nodup) : i ∉ (removeById l i).map SNode.id := by
  induction l with
  | nil => simp [removeById]
  | cons a rest ih =>
    rw [List.map_cons, List.nodup_cons] at h
    by_cases ha : a.id = i
    · rw [removeById, if_pos ha]
      exact ha ▸ h.1
    · rw [removeById, if_neg ha, List.map_cons]
      intro hmem
      rcases List.mem_cons.mp hmem with h1 | h2
      · exact ha h1.symm
      · exact ih h.2 h2

/-- Entries with a different id survive the removal. -/
theorem mem_removeById_of_ne (l : List SNode) (i : Nat) (e : SNode)
    (he : e ∈ l) (hne : e.id ≠ i) : e ∈ removeById l i := by
  induction l with
  | nil => simp at he
  | cons a rest ih =>
    rcases List.mem_cons.mp he with rfl | h
    · rw [removeById, if_neg hne]
      exact List.mem_cons_self _ _
    · by_cases ha : a.id = i
      · rw [removeById, if_pos ha]
        exact h
      · rw [removeById, if_neg ha]
        exact List.mem_cons_of_mem a (ih h)

/-- Removal passes over a prefix free of the id. -/
theorem removeById_append_of_not_mem (X Y : List SNode) (i : Nat)
    (h : i ∉ X.map SNode.id) : removeById (X ++ Y) i = X ++ removeById Y i := by
  induction X with
  | nil => simp
  | cons a rest ih =>
    rw [List.map_cons] at h
    have ha : ¬a.id = i := fun he => h (he ▸ List.mem_cons_self _ _)
    have h2 : i ∉ rest.map SNode.id := fun hm => h (List.mem_cons_of_mem _ hm)
    rw [List.cons_append, removeById, if_neg ha, ih h2, List.cons_append]

/-- Removal confined to a prefix containing the id. -/
theorem removeById_append_of_mem (X Y : List SNode) (i : Nat)
    (h : i ∈ X.map SNode.id) : removeById (X ++ Y) i = removeById X i ++ Y := by
  induction X with
  | nil => simp at h
  | cons a rest ih =>
    by_cases ha : a.id = i
    · rw [List.cons_append, removeById, if_pos ha, removeById, if_pos ha]
    · rw [List.map_cons] at h
      rcases List.mem_cons.mp h with h1 | h1
      · exact absurd h1.symm ha
      · rw [List.cons_append, removeById, if_neg ha, removeById, if_neg ha,
          ih h1, List.cons_append]

/-- Splicing after an anchor whose id does not occur earlier. -/
theorem insertAfterId_decomp (X : List SNode) (a : SNode) (Y : List SNode) (f : SNode)
    (h : a.id ∉ X.map SNode.id) :
    insertAfterId (X ++ a :: Y) a.id f = X ++ a :: f :: Y := by
  induction X with
  | nil => simp [insertAfterId]
  | cons x rest ih =>
    rw [List.map_cons] at h
    have hx : ¬x.id = a.id := fun he => h (he ▸ List.mem_cons_self _ _)
    have h2 : a.id ∉ rest.map SNode.id := fun hm => h (List.mem_cons_of_mem _ hm)
    rw [List.cons_append, insertAfterId, if_neg hx, ih h2, List.cons_append]

/-- Splicing before an anchor whose id does not occur earlier. -/
theorem insertBeforeId_decomp (X : List SNode) (a : SNode) (Y : List SNode) (f : SNode)
    (h : a.id ∉ X.map SNode.id) :
    insertBeforeId (X ++ a :: Y) a.id f = X ++ f :: a :: Y := by
  induction X with
  | nil => simp [insertBeforeId]
  | cons x rest ih =>
    rw [List.map_cons] at h
    have hx : ¬x.id = a.id := fun he => h (he ▸ List.mem_cons_self _ _)
    have h2 : a.id ∉ rest.map SNode.id := fun hm => h (List.mem_cons_of_mem _ hm)
    rw [List.cons_append, insertBeforeId, if_neg hx, ih h2, List.cons_append]

/-- `prevOf` finds the element before the unique entry with the id. -/
theorem prevOf_decomp (X : List SNode) (a : SNode) (Y : List SNode) (i : Nat)
    (ha : a.id = i) (hX : i ∉ X.map SNode.id) :
    prevOf (X ++ a :: Y) i = X.getLast? := by
  induction X with
  | nil =>
    cases Y with
    | nil => simp [prevOf]
    | cons y Y' => simp [prevOf, ha]
  | cons x rest ih =>
    rw [List.map_cons] at hX
    have hxne : ¬x.id = i := fun hx => hX (hx ▸ List.mem_cons_self _ _)
    have hX2 : i ∉ rest.map SNode.id := fun hm => hX (List.mem_cons_of_mem _ hm)
    cases rest with
    | nil =>
      simp [prevOf, hxne, ha]
    | cons x2 rest2 =>
      have h2 : ¬x2.id = i := by
        intro hx2
        exact hX2 (by simp [hx2])
      have hrec := ih hX2
      rw [List.cons_append] at hrec
      rw [List.cons_append, List.cons_append, prevOf, if_neg hxne, if_neg h2,
        hrec, List.getLast?_cons_cons]

/-- Removing an id other than the anchor's keeps the anchor's position
structure. -/
theorem removeById_middle_decomp (X : List SNode) (a : SNode) (Y : List SNode)
    (i : Nat) (hne : a.id ≠ i) :
    ∃ X2 Y2, removeById (X ++ a :: Y) i = X2 ++ a :: Y2 ∧
      List.Sublist X2 X ∧ List.Sublist Y2 Y := by
  by_cases hx : i ∈ X.map SNode.id
  · exact ⟨removeById X i, Y, removeById_append_of_mem X (a :: Y) i hx,
      removeById_sublist X i, List.Sublist.refl Y⟩
  · refine ⟨X, removeById Y i, ?_, List.Sublist.refl X, removeById_sublist Y i⟩
    rw [removeById_append_of_not_mem X (a :: Y) i hx, removeById, if_neg hne]

/-- Inserting before an anchor that dominates the new entry's level, in a
position where everything earlier is dominated by it, preserves the stacking
invariant and the membership accounting. -/
theorem stack_insert_before_spec (l X : List SNode) (a : SNode) (Y : List SNode)
    (f : SNode) (hdec : l = X ++ a :: Y)
    (hinv : StackInv l) (hfc : f.client.isSome)
    (hne : a.id ≠ f.id)
    (hX : ∀ x ∈ X, x.id ≠ f.id → x.lvl ≤ f.lvl)
    (hY : ∀ y ∈ a :: Y, y.id ≠ f.id → f.lvl ≤ y.lvl) :
    StackInv (stack_insert_before l (some a) f) ∧
    f ∈ stack_insert_before l (some a) f ∧
    (∀ e ∈ stack_insert_before l (some a) f, e ∈ l ∨ e = f) ∧
    (∀ e ∈ l, e.id ≠ f.id → e ∈ stack_insert_before l (some a) f) := by
  subst hdec
  obtain ⟨hpw, hnd, hcl⟩ := hinv
  obtain ⟨X2, Y2, hrm, hsX, hsY⟩ := removeById_middle_decomp X a Y f.id hne
  have hrm_sub : List.Sublist (removeById (X ++ a :: Y) f.id) (X ++ a :: Y) :=
    removeById_sublist _ f.id
  have hfid : f.id ∉ (removeById (X ++ a :: Y) f.id).map SNode.id :=
    not_mem_removeById _ f.id hnd
  have hfid' : f.id ∉ (X2 ++ a :: Y2).map SNode.id := hrm ▸ hfid
  have haX : a.id ∉ X.map SNode.id := by
    intro hmem
    have h2 := hnd
    rw [List.map_append, List.map_cons, List.nodup_append] at h2
    exact h2.2.2 hmem (List.mem_cons_self _ _)
  have haX2 : a.id ∉ X2.map SNode.id :=
    fun h => haX ((hsX.map SNode.id).subset h)
  have hins : stack_insert_before (X ++ a :: Y) (some a) f = X2 ++ f :: a :: Y2 := by
    rw [stack_insert_before, if_neg hne, hrm, insertBeforeId_decomp X2 a Y2 f haX2]
  have hfX2 : ∀ x ∈ X2, x.id ≠ f.id := by
    intro x hx he
    exact hfid' (by
      rw [List.map_append]
      exact List.mem_append_left _ (he ▸ List.mem_map_of_mem SNode.id hx))
  have hfY2 : ∀ y ∈ Y2, y.id ≠ f.id := by
    intro y hy he
    exact hfid' (by
      rw [List.map_append, List.map_cons]
      exact List.mem_append_right _
        (List.mem_cons_of_mem _ (he ▸ List.mem_map_of_mem SNode.id hy)))
  have hpw2 : (X2 ++ a :: Y2).Pairwise (fun x y => SNode.lvl x ≤ SNode.lvl y) :=
    hrm ▸ (hpw.sublist hrm_sub)
  obtain ⟨hpwX2, hpwaY2, hcross2⟩ := List.pairwise_append.mp hpw2
  have hfa := hY a (List.mem_cons_self _ _) hne
  have hfle : ∀ y ∈ a :: Y2, SNode.lvl f ≤ SNode.lvl y := by
    intro y hy
    rcases List.mem_cons.mp hy with rfl | hy2
    · exact hfa
    · exact hY y (List.mem_cons_of_mem _ (hsY.subset hy2)) (hfY2 y hy2)
  rw [hins]
  refine ⟨⟨?_, ?_, ?_⟩, ?_, ?_, ?_⟩
  · rw [List.pairwise_append]
    refine ⟨hpwX2, ?_, ?_⟩
    · rw [List.pairwise_cons]
      exact ⟨hfle, hpwaY2⟩
    · intro x hx y hy
      have hxf : SNode.lvl x ≤ SNode.lvl f :=
        hX x (hsX.subset hx) (hfX2 x hx)
      rcases List.mem_cons.mp hy with rfl | hy2
      · exact hxf
      · exact le_trans hxf (hfle y hy2)
  · have hnd2 : ((X2 ++ a :: Y2).map SNode.id).Nodup :=
      (hrm ▸ (hrm_sub.map SNode.id)).nodup hnd
    have : (X2 ++ f :: a :: Y2).map SNode.id =
        X2.map SNode.id ++ f.id :: (a.id :: Y2.map SNode.id) := by
      simp [List.map_append]
    rw [this, List.nodup_middle, List.nodup_cons]
    constructor
    · intro hmem
      exact hfid' (by rw [List.map_append, List.map_cons]; exact hmem)
    · have : X2.map SNode.id ++ a.id :: Y2.map SNode.id =
          (X2 ++ a :: Y2).map SNode.id := by simp [List.map_append]
      rw [this]
      exact hnd2
  · intro e he
    rcases List.mem_append.mp he with h1 | h1
    · exact hcl e ((hrm ▸ hrm_sub).subset (List.mem_append_left _ h1))
    · rcases List.mem_cons.mp h1 with rfl | h2
      · exact hfc
      · rcases List.mem_cons.mp h2 with rfl | h3
        · exact hcl e (List.mem_append_right _ (List.mem_cons_self _ _))
        · exact hcl e ((hrm ▸ hrm_sub).subset
            (List.mem_append_right _ (List.mem_cons_of_mem _ h3)))
  · exact List.mem_append_right _ (List.mem_cons_self _ _)
  · intro e he
    rcases List.mem_append.mp he with h1 | h1
    · exact Or.inl ((hrm ▸ hrm_sub).subset (List.mem_append_left _ h1))
    · rcases List.mem_cons.mp h1 with rfl | h2
      · exact Or.inr rfl
      · rcases List.mem_cons.mp h2 with rfl | h3
        · exact Or.inl (List.mem_append_right _ (List.mem_cons_self _ _))
        · exact Or.inl ((hrm ▸ hrm_sub).subset
            (List.mem_append_right _ (List.mem_cons_of_mem _ h3)))
  · intro e he hene
    have : e ∈ removeById (X ++ a :: Y) f.id := mem_removeById_of_ne _ _ _ he hene
    rw [hrm] at this
    rcases List.mem_append.mp this with h1 | h1
    · exact List.mem_append_left _ h1
    · rcases List.mem_cons.mp h1 with rfl | h2
      · exact List.mem_append_right _ (List.mem_cons_of_mem _ (List.mem_cons_self _ _))
      · exact List.mem_append_right _
          (List.mem_cons_of_mem _ (List.mem_cons_of_mem _ h2))

/-- Inserting after an anchor dominated by the new entry's level, in a
position where everything later dominates it, preserves the stacking
invariant and the membership accounting. -/
theorem stack_insert_after_spec (l X : List SNode) (a : SNode) (Y : List SNode)
    (f : SNode) (hdec : l = X ++ a :: Y)
    (hinv : StackInv l) (hfc : f.client.isSome)
    (hne : a.id ≠ f.id)
    (hX : ∀ x ∈ X, x.id ≠ f.id → x.lvl ≤ f.lvl)
    (ha : SNode.lvl a ≤ SNode.lvl f)
    (hY : ∀ y ∈ Y, y.id ≠ f.id → f.lvl ≤ y.lvl) :
    StackInv (stack_insert_after l (some a) f) ∧
    f ∈ stack_insert_after l (some a) f ∧
    (∀ e ∈ stack_insert_after l (some a) f, e ∈ l ∨ e = f) ∧
    (∀ e ∈ l, e.id ≠ f.id → e ∈ stack_insert_after l (some a) f) := by
  subst hdec
  obtain ⟨hpw, hnd, hcl⟩ := hinv
  obtain ⟨X2, Y2, hrm, hsX, hsY⟩ := removeById_middle_decomp X a Y f.id hne
  have hrm_sub : List.Sublist (removeById (X ++ a :: Y) f.id) (X ++ a :: Y) :=
    removeById_sublist _ f.id
  have hfid : f.id ∉ (removeById (X ++ a :: Y) f.id).map SNode.id :=
    not_mem_removeById _ f.id hnd
  have hfid' : f.id ∉ (X2 ++ a :: Y2).map SNode.id := hrm ▸ hfid
  have haX : a.id ∉ X.map SNode.id := by
    intro hmem
    have h2 := hnd
    rw [List.map_append, List.map_cons, List.nodup_append] at h2
    exact h2.2.2 hmem (List.mem_cons_self _ _)
  have haX2 : a.id ∉ X2.map SNode.id :=
    fun h => haX ((hsX.map SNode.id).subset h)
  have hins : stack_insert_after (X ++ a :: Y) (some a) f = X2 ++ a :: f :: Y2 := by
    rw [stack_insert_after, if_neg hne, hrm, insertAfterId_decomp X2 a Y2 f haX2]
  have hfX2 : ∀ x ∈ X2, x.id ≠ f.id := by
    intro x hx he
    exact hfid' (by
      rw [List.map_append]
      exact List.mem_append_left _ (he ▸ List.mem_map_of_mem SNode.id hx))
  have hfY2 : ∀ y ∈ Y2, y.id ≠ f.id := by
    intro y hy he
    exact hfid' (by
      rw [List.map_append, List.map_cons]
      exact List.mem_append_right _
        (List.mem_cons_of_mem _ (he ▸ List.mem_map_of_mem SNode.id hy)))
  have hpw2 : (X2 ++ a :: Y2).Pairwise (fun x y => SNode.lvl x ≤ SNode.lvl y) :=
    hrm ▸ (hpw.sublist hrm_sub)
  obtain ⟨hpwX2, hpwaY2, hcross2⟩ := List.pairwise_append.mp hpw2
  have hfle : ∀ y ∈ Y2, SNode.lvl f ≤ SNode.lvl y := by
    intro y hy
    exact hY y (hsY.subset hy) (hfY2 y hy)
  rw [hins]
  refine ⟨⟨?_, ?_, ?_⟩, ?_, ?_, ?_⟩
  · rw [List.pairwise_append]
    refine ⟨hpwX2, ?_, ?_⟩
    · rw [List.pairwise_cons]
      refine ⟨?_, ?_⟩
      · intro y hy
        rcases List.mem_cons.mp hy with rfl | hy2
        · exact ha
        · exact le_trans ha (hfle y hy2)
      · rw [List.pairwise_cons]
        exact ⟨hfle, (List.pairwise_cons.mp hpwaY2).2⟩
    · intro x hx y hy
      have hxa : SNode.lvl x ≤ SNode.lvl a :=
        hcross2 x hx a (List.mem_cons_self _ _)
      rcases List.mem_cons.mp hy with rfl | hy2
      · exact hxa
      · rcases List.mem_cons.mp hy2 with rfl | hy3
        · exact le_trans hxa ha
        · exact le_trans hxa (le_trans ha (hfle y hy3))
  · have hnd2 : ((X2 ++ a :: Y2).map SNode.id).Nodup :=
      (hrm ▸ (hrm_sub.map SNode.id)).nodup hnd
    have : (X2 ++ a :: f :: Y2).map SNode.id =
        (X2.map SNode.id ++ [a.id]) ++ f.id :: Y2.map SNode.id := by
      simp [List.map_append]
    rw [this, List.nodup_middle, List.nodup_cons]
    constructor
    · intro hmem
      refine hfid' ?_
      rw [List.map_append, List.map_cons]
      rcases List.mem_append.mp hmem with h1 | h1
      · rcases List.mem_append.mp h1 with h2 | h2
        · exact List.mem_append_left _ h2
        · exact List.mem_append_right _ (by
            simpa using Or.inl (List.mem_singleton.mp h2))
      · exact List.mem_append_right _ (List.mem_cons_of_mem _ h1)
    · have : (X2.map SNode.id ++ [a.id]) ++ Y2.map SNode.id =
          (X2 ++ a :: Y2).map SNode.id := by simp [List.map_append]
      rw [this]
      exact hnd2
  · intro e he
    rcases List.mem_append.mp he with h1 | h1
    · exact hcl e ((hrm ▸ hrm_sub).subset (List.mem_append_left _ h1))
    · rcases List.mem_cons.mp h1 with rfl | h2
      · exact hcl e (List.mem_append_right _ (List.mem_cons_self _ _))
      · rcases List.mem_cons.mp h2 with rfl | h3
        · exact hfc
        · exact hcl e ((hrm ▸ hrm_sub).subset
            (List.mem_append_right _ (List.mem_cons_of_mem _ h3)))
  · exact List.mem_append_right _ (List.mem_cons_of_mem _ (List.mem_cons_self _ _))
  · intro e he
    rcases List.mem_append.mp he with h1 | h1
    · exact Or.inl ((hrm ▸ hrm_sub).subset (List.mem_append_left _ h1))
    · rcases List.mem_cons.mp h1 with rfl | h2
      · exact Or.inl (List.mem_append_right _ (List.mem_cons_self _ _))
      · rcases List.mem_cons.mp h2 with rfl | h3
        · exact Or.inr rfl
        · exact Or.inl ((hrm ▸ hrm_sub).subset
            (List.mem_append_right _ (List.mem_cons_of_mem _ h3)))
  · intro e he hene
    have : e ∈ removeById (X ++ a :: Y) f.id := mem_removeById_of_ne _ _ _ he hene
    rw [hrm] at this
    rcases List.mem_append.mp this with h1 | h1
    · exact List.mem_append_left _ h1
    · rcases List.mem_cons.mp h1 with rfl | h2
      · exact List.mem_append_right _ (List.mem_cons_self _ _)
      · exact List.mem_append_right _
          (List.mem_cons_of_mem _ (List.mem_cons_of_mem _ h2))

/-- An entry's level when its client is known. -/
theorem SNode.lvl_eq (e : SNode) (c : Client) (h : e.client = some c) :
    e.lvl = stack_level c := by
  rw [SNode.lvl, h]

/-- The `limit_above` continuation test, in terms of levels. -/
theorem above_cont_iff (f e : SNode) (cf : Client) (hf : f.client = some cf) :
    above_cont f e = true ↔ e.client.isSome ∧ e.lvl ≤ f.lvl := by
  cases hc : e.client with
  | none => simp [above_cont, hc]
  | some ce =>
      simp only [above_cont, hc, hf, Option.isSome_some, Bool.true_and,
        decide_eq_true_eq, stack_cmp, true_and]
      rw [SNode.lvl_eq e ce hc, SNode.lvl_eq f cf hf]
      omega

/-- The `limit_below` continuation test, in terms of levels. -/
theorem below_cont_iff (f e : SNode) (cf : Client) (hf : f.client = some cf) :
    below_cont f e = true ↔ e.client.isSome ∧ f.lvl ≤ e.lvl := by
  cases hc : e.client with
  | none => simp [below_cont, hc]
  | some ce =>
      simp only [below_cont, hc, hf, Option.isSome_some, Bool.true_and,
        decide_eq_true_eq, stack_cmp, true_and]
      rw [SNode.lvl_eq e ce hc, SNode.lvl_eq f cf hf]
      omega

/-- `stack1` skips a clientless leaf. -/
theorem stack1_none (auto_raise focused : Bool) (l : List SNode) (f : SNode)
    (h : f.client = none) : stack1 auto_raise focused l f = l := by
  unfold stack1
  rw [h]

/-- `stack1` skips a floating leaf when `auto_raise` is off. -/
theorem stack1_skip (auto_raise focused : Bool) (l : List SNode) (f : SNode)
    (fc : Client) (h : f.client = some fc)
    (hskip : IS_FLOATING fc ∧ auto_raise = false) :
    stack1 auto_raise focused l f = l := by
  unfold stack1
  rw [h]
  exact if_pos hskip

/-- `stack1` starts the list when it is empty. -/
theorem stack1_empty (auto_raise focused : Bool) (f : SNode) (fc : Client)
    (h : f.client = some fc) (hskip : ¬(IS_FLOATING fc ∧ auto_raise = false)) :
    stack1 auto_raise focused [] f = [f] := by
  unfold stack1
  rw [h]
  dsimp only
  rw [if_neg hskip]
  rfl

/-- `stack1` is a no-op when the limit search yields nothing. -/
theorem stack1_limit_none (auto_raise focused : Bool) (l : List SNode) (f : SNode)
    (fc : Client) (h : f.client = some fc)
    (hskip : ¬(IS_FLOATING fc ∧ auto_raise = false)) (hle : l.isEmpty = false)
    (hlim : (if focused then limit_above f l else limit_below f l) = none) :
    stack1 auto_raise focused l f = l := by
  unfold stack1
  rw [h]
  dsimp only
  rw [if_neg hskip, hle]
  simp only [Bool.false_eq_true, if_false]
  rw [hlim]

/-- `stack1` inserts before the anchor when the node compares below it (or
ties while unfocused). -/
theorem stack1_eq_insert_before (auto_raise focused : Bool) (l : List SNode)
    (f : SNode) (fc : Client) (s : SNode) (cs : Client)
    (h : f.client = some fc)
    (hskip : ¬(IS_FLOATING fc ∧ auto_raise = false)) (hle : l.isEmpty = false)
    (hlim : (if focused then limit_above f l else limit_below f l) = some s)
    (hcs : s.client = some cs)
    (hcond : stack_cmp (some fc) (some cs) < 0 ∨
      (stack_cmp (some fc) (some cs) = 0 ∧ focused = false)) :
    stack1 auto_raise focused l f = stack_insert_before l (some s) f := by
  unfold stack1
  rw [h]
  dsimp only
  rw [if_neg hskip, hle]
  simp only [Bool.false_eq_true, if_false]
  rw [hlim]
  dsimp only
  rw [hcs]
  simp only [Option.isNone_some, Bool.false_eq_true, if_false]
  rw [if_pos hcond]

/-- `stack1` inserts after the anchor otherwise. -/
theorem stack1_eq_insert_after (auto_raise focused : Bool) (l : List SNode)
    (f : SNode) (fc : Client) (s : SNode) (cs : Client)
    (h : f.client = some fc)
    (hskip : ¬(IS_FLOATING fc ∧ auto_raise = false)) (hle : l.isEmpty = false)
    (hlim : (if focused then limit_above f l else limit_below f l) = some s)
    (hcs : s.client = some cs)
    (hcond : ¬(stack_cmp (some fc) (some cs) < 0 ∨
      (stack_cmp (some fc) (some cs) = 0 ∧ focused = false))) :
    stack1 auto_raise focused l f = stack_insert_after l (some s) f := by
  unfold stack1
  rw [h]
  dsimp only
  rw [if_neg hskip, hle]
  simp only [Bool.false_eq_true, if_false]
  rw [hlim]
  dsimp only
  rw [hcs]
  simp only [Option.isNone_some, Bool.false_eq_true, if_false]
  rw [if_neg hcond]


/-- One pass of the leaf loop of `stack` preserves the stacking invariant,
removes nothing but the leaf's old entry, and ends with the leaf present
whenever it is managed (has a client and is not an unraisable floating
window). -/
theorem stack1_spec (auto_raise focused : Bool) (l : List SNode) (f : SNode)
    (hinv : StackInv l) (hcons : ∀ e ∈ l, e.id = f.id → e = f) :
    StackInv (stack1 auto_raise focused l f) ∧
    (∀ e ∈ stack1 auto_raise focused l f, e ∈ l ∨ e = f) ∧
    (∀ e ∈ l, e.id ≠ f.id → e ∈ stack1 auto_raise focused l f) ∧
    (∀ fc, f.client = some fc → (IS_FLOATING fc = false ∨ auto_raise = true) →
      f ∈ stack1 auto_raise focused l f) := by
  cases hfc : f.client with
  | none =>
      rw [stack1_none auto_raise focused l f hfc]
      exact ⟨hinv, fun e he => Or.inl he, fun e he _ => he,
        fun fc h _ => by simp at h⟩
  | some fc =>
    by_cases hskip : IS_FLOATING fc ∧ auto_raise = false
    · rw [stack1_skip auto_raise focused l f fc hfc hskip]
      refine ⟨hinv, fun e he => Or.inl he, fun e he _ => he, ?_⟩
      intro fc' h hok
      injection h with h
      subst h
      rcases hok with h1 | h1
      · exact Bool.noConfusion (h1 ▸ hskip.1)
      · exact Bool.noConfusion (h1 ▸ hskip.2)
    · by_cases hle : l.isEmpty = true
      · have hnil : l = [] := List.isEmpty_iff.mp hle
        subst hnil
        rw [stack1_empty auto_raise focused f fc hfc hskip]
        refine ⟨⟨List.pairwise_singleton _ _, by simp, ?_⟩, ?_, ?_, ?_⟩
        · intro e he
          rw [List.mem_singleton.mp he, hfc]
          rfl
        · intro e he
          exact Or.inr (List.mem_singleton.mp he)
        · intro e he
          exact absurd he (List.not_mem_nil e)
        · intro _ _ _
          exact List.mem_singleton_self f
      · have hleF : l.isEmpty = false := Bool.eq_false_iff.mpr hle
        have hlne : l ≠ [] := fun hn => hle (by rw [hn]; rfl)
        have hfcS : f.client.isSome := by rw [hfc]; rfl
        cases focused with
        | true =>
          rcases scan_first_not_spec (above_cont f) l with ⟨hscan, hall⟩ |
            ⟨X, e, Y, hdec, hXp, hep, hscan⟩
          · -- the walk ran off the top: every entry is at or below f's level
            have hall' : ∀ x ∈ l, x.client.isSome ∧ x.lvl ≤ f.lvl :=
              fun x hx => (above_cont_iff f x fc hfc).mp (hall x hx)
            have hgl : l.getLast? = some (l.getLast hlne) :=
              List.getLast?_eq_getLast l hlne
            have hamem : l.getLast hlne ∈ l := List.getLast_mem hlne
            have hsplit : l.dropLast ++ [l.getLast hlne] = l :=
              List.dropLast_append_getLast hlne
            by_cases haid : (l.getLast hlne).id = f.id
            · -- the tail is f itself: step to its predecessor
              have haf : l.getLast hlne = f := hcons _ hamem haid
              have hndl : f.id ∉ l.dropLast.map SNode.id := by
                have h2 := hinv.2.1
                rw [← hsplit, List.map_append, List.nodup_append] at h2
                intro hmem
                exact h2.2.2 hmem (by simp [← haid])
              have hprev : prevOf l f.id = l.dropLast.getLast? := by
                conv_lhs => rw [← hsplit]
                exact prevOf_decomp l.dropLast (l.getLast hlne) [] f.id haid hndl
              have hlimA : limit_above f l = prevOf l f.id := by
                unfold limit_above
                rw [hfc]
                dsimp only
                rw [hscan]
                dsimp only
                rw [hgl]
                dsimp only
                rw [if_pos haid, haid]
              cases hdl : l.dropLast with
              | nil =>
                have hlimN : (if (true : Bool) then limit_above f l
                    else limit_below f l) = none := by
                  show limit_above f l = none
                  rw [hlimA, hprev, hdl]
                  rfl
                rw [stack1_limit_none auto_raise true l f fc hfc hskip hleF hlimN]
                refine ⟨hinv, fun e he => Or.inl he, fun e he _ => he, ?_⟩
                intro _ _ _
                exact haf ▸ hamem
              | cons d0 d1 =>
                have hdlne : l.dropLast ≠ [] := by rw [hdl]; exact List.cons_ne_nil _ _
                have hglc : l.dropLast.getLast? = some (l.dropLast.getLast hdlne) :=
                  List.getLast?_eq_getLast _ hdlne
                have hcmem : l.dropLast.getLast hdlne ∈ l.dropLast :=
                  List.getLast_mem hdlne
                have hcid : (l.dropLast.getLast hdlne).id ≠ f.id :=
                  fun h => hndl (h ▸ List.mem_map_of_mem SNode.id hcmem)
                have hcmeml : l.dropLast.getLast hdlne ∈ l := by
                  have h1 : l.dropLast.getLast hdlne ∈
                      l.dropLast ++ [l.getLast hlne] := List.mem_append_left _ hcmem
                  rwa [hsplit] at h1
                obtain ⟨cc, hcc⟩ := Option.isSome_iff_exists.mp (hall' _ hcmeml).1
                have hlimc : (if (true : Bool) then limit_above f l
                    else limit_below f l) = some (l.dropLast.getLast hdlne) := by
                  show limit_above f l = some (l.dropLast.getLast hdlne)
                  rw [hlimA, hprev, hglc]
                have hclvl := (hall' _ hcmeml).2
                have he1 := SNode.lvl_eq _ cc hcc
                have he2 := SNode.lvl_eq f fc hfc
                have hcmp : ¬(stack_cmp (some fc) (some cc) < 0 ∨
                    (stack_cmp (some fc) (some cc) = 0 ∧ (true : Bool) = false)) := by
                  rintro (hlt | ⟨_, hff⟩)
                  · simp only [stack_cmp] at hlt
                    omega
                  · exact Bool.noConfusion hff
                rw [stack1_eq_insert_after auto_raise true l f fc _ cc hfc hskip
                  hleF hlimc hcc hcmp]
                have hsplit2 : l.dropLast.dropLast ++ [l.dropLast.getLast hdlne] =
                    l.dropLast := List.dropLast_append_getLast hdlne
                have hldec : l = l.dropLast.dropLast ++
                    (l.dropLast.getLast hdlne) :: [l.getLast hlne] := by
                  conv_lhs => rw [← hsplit, ← hsplit2]
                  rw [List.append_assoc]
                  rfl
                obtain ⟨hI, hF, hM, hP⟩ := stack_insert_after_spec l _ _ _ f hldec
                  hinv hfcS hcid
                  (fun x hx _ => by
                    have hx1 : x ∈ l.dropLast := by
                      rw [← hsplit2]
                      exact List.mem_append_left _ hx
                    have hx' : x ∈ l := by
                      rw [← hsplit]
                      exact List.mem_append_left _ hx1
                    exact (hall' x hx').2)
                  (hall' _ hcmeml).2
                  (fun y hy hne => by
                    have hya : y = l.getLast hlne := List.mem_singleton.mp hy
                    exact absurd (hya ▸ haid) hne)
                exact ⟨hI, hM, hP, fun _ _ _ => hF⟩
            · -- the tail is another node: append after it
              obtain ⟨ca, hca⟩ := Option.isSome_iff_exists.mp (hall' _ hamem).1
              have hlimc : (if (true : Bool) then limit_above f l
                  else limit_below f l) = some (l.getLast hlne) := by
                show limit_above f l = some (l.getLast hlne)
                unfold limit_above
                rw [hfc]
                dsimp only
                rw [hscan]
                dsimp only
                rw [hgl]
                dsimp only
                rw [if_neg haid]
              have halvl := (hall' _ hamem).2
              have he1 := SNode.lvl_eq _ ca hca
              have he2 := SNode.lvl_eq f fc hfc
              have hcmp : ¬(stack_cmp (some fc) (some ca) < 0 ∨
                  (stack_cmp (some fc) (some ca) = 0 ∧ (true : Bool) = false)) := by
                rintro (hlt | ⟨_, hff⟩)
                · simp only [stack_cmp] at hlt
                  omega
                · exact Bool.noConfusion hff
              rw [stack1_eq_insert_after auto_raise true l f fc _ ca hfc hskip
                hleF hlimc hca hcmp]
              have hldec : l = l.dropLast ++ (l.getLast hlne) :: [] := by
                conv_lhs => rw [← hsplit]
              obtain ⟨hI, hF, hM, hP⟩ := stack_insert_after_spec l _ _ _ f hldec
                hinv hfcS haid
                (fun x hx _ => by
                  have hx' : x ∈ l := by
                    rw [← hsplit]
                    exact List.mem_append_left _ hx
                  exact (hall' x hx').2)
                (hall' _ hamem).2
                (fun y hy _ => absurd hy (List.not_mem_nil y))
              exact ⟨hI, hM, hP, fun _ _ _ => hF⟩
          · -- the walk stopped at the first entry strictly above f's level
            have hemem : e ∈ l := by
              rw [hdec]
              exact List.mem_append_right _ (List.mem_cons_self _ _)
            have hecl : e.client.isSome := hinv.2.2 e hemem
            obtain ⟨ce, hce⟩ := Option.isSome_iff_exists.mp hecl
            have helvl : f.lvl < e.lvl := by
              by_contra hnot
              push_neg at hnot
              rw [(above_cont_iff f e fc hfc).mpr ⟨hecl, hnot⟩] at hep
              exact Bool.noConfusion hep
            have heid : e.id ≠ f.id := by
              intro h
              have hef := hcons e hemem h
              rw [hef] at helvl
              exact lt_irrefl _ helvl
            have hlimc : (if (true : Bool) then limit_above f l
                else limit_below f l) = some e := by
              show limit_above f l = some e
              unfold limit_above
              rw [hfc]
              dsimp only
              rw [hscan]
              dsimp only
              rw [if_neg heid]
            have he1 := SNode.lvl_eq e ce hce
            have he2 := SNode.lvl_eq f fc hfc
            have hcmp : stack_cmp (some fc) (some ce) < 0 ∨
                (stack_cmp (some fc) (some ce) = 0 ∧ (true : Bool) = false) := by
              left
              simp only [stack_cmp]
              omega
            rw [stack1_eq_insert_before auto_raise true l f fc e ce hfc hskip
              hleF hlimc hce hcmp]
            have hpwparts := List.pairwise_append.mp (hdec ▸ hinv.1)
            obtain ⟨hI, hF, hM, hP⟩ := stack_insert_before_spec l X e Y f hdec
              hinv hfcS heid
              (fun x hx _ => ((above_cont_iff f x fc hfc).mp (hXp x hx)).2)
              (fun y hy _ => by
                rcases List.mem_cons.mp hy with rfl | hy2
                · exact le_of_lt helvl
                · exact le_trans (le_of_lt helvl)
                    ((List.pairwise_cons.mp hpwparts.2.1).1 y hy2))
            exact ⟨hI, hM, hP, fun _ _ _ => hF⟩
        | false =>
          rcases scan_first_not_spec (below_cont f) l.reverse with ⟨hscan, hall⟩ |
            ⟨X, e, Y, hdec, hXp, hep, hscan⟩
          · -- the walk ran off the bottom: every entry is at or above f's level
            have hall' : ∀ x ∈ l, x.client.isSome ∧ f.lvl ≤ x.lvl :=
              fun x hx => (below_cont_iff f x fc hfc).mp
                (hall x (List.mem_reverse.mpr hx))
            cases l with
            | nil => exact absurd rfl hlne
            | cons h0 t0 =>
              have hlimB : limit_below f (h0 :: t0) =
                  if h0.id = f.id then nextOf (h0 :: t0) h0.id else some h0 := by
                unfold limit_below
                rw [hfc]
                dsimp only
                rw [hscan]
                dsimp only
                simp only [List.head?_cons]
              by_cases h0id : h0.id = f.id
              · have h0f : h0 = f := hcons h0 (List.mem_cons_self _ _) h0id
                have hnext : nextOf (h0 :: t0) h0.id = t0.head? := by
                  simp [nextOf]
                cases t0 with
                | nil =>
                  have hlimN : (if (false : Bool) then limit_above f [h0]
                      else limit_below f [h0]) = none := by
                    show limit_below f [h0] = none
                    rw [hlimB, if_pos h0id, hnext]
                    rfl
                  rw [stack1_limit_none auto_raise false [h0] f fc hfc hskip
                    hleF hlimN]
                  refine ⟨hinv, fun e he => Or.inl he, fun e he _ => he, ?_⟩
                  intro _ _ _
                  exact h0f ▸ List.mem_cons_self _ _
                | cons e2 r2 =>
                  have he2mem : e2 ∈ h0 :: e2 :: r2 :=
                    List.mem_cons_of_mem _ (List.mem_cons_self _ _)
                  have he2id : e2.id ≠ f.id := by
                    intro h
                    have hnd2 := hinv.2.1
                    rw [List.map_cons, List.nodup_cons] at hnd2
                    exact hnd2.1 (by
                      rw [h0id, ← h]
                      exact List.mem_map_of_mem SNode.id (List.mem_cons_self _ _))
                  obtain ⟨c2, hc2⟩ := Option.isSome_iff_exists.mp
                    (hall' e2 he2mem).1
                  have hlimc : (if (false : Bool) then limit_above f (h0 :: e2 :: r2)
                      else limit_below f (h0 :: e2 :: r2)) = some e2 := by
                    show limit_below f (h0 :: e2 :: r2) = some e2
                    rw [hlimB, if_pos h0id, hnext]
                    rfl
                  have he2lvl := (hall' e2 he2mem).2
                  have he1 := SNode.lvl_eq e2 c2 hc2
                  have he2 := SNode.lvl_eq f fc hfc
                  have hcmp : stack_cmp (some fc) (some c2) < 0 ∨
                      (stack_cmp (some fc) (some c2) = 0 ∧ (false : Bool) = false) := by
                    rcases lt_or_eq_of_le he2lvl with hlt | heq
                    · left
                      simp only [stack_cmp]
                      omega
                    · right
                      refine ⟨?_, rfl⟩
                      simp only [stack_cmp]
                      omega
                  rw [stack1_eq_insert_before auto_raise false _ f fc e2 c2 hfc
                    hskip hleF hlimc hc2 hcmp]
                  obtain ⟨hI, hF, hM, hP⟩ := stack_insert_before_spec _ [h0] e2 r2 f
                    rfl hinv hfcS he2id
                    (fun x hx hne =>
                      absurd (List.mem_singleton.mp hx ▸ h0id) hne)
                    (fun y hy _ => (hall' y (List.mem_cons_of_mem _ hy)).2)
                  exact ⟨hI, hM, hP, fun _ _ _ => hF⟩
              · obtain ⟨c0, hc0⟩ := Option.isSome_iff_exists.mp
                  (hall' h0 (List.mem_cons_self _ _)).1
                have hlimc : (if (false : Bool) then limit_above f (h0 :: t0)
                    else limit_below f (h0 :: t0)) = some h0 := by
                  show limit_below f (h0 :: t0) = some h0
                  rw [hlimB, if_neg h0id]
                have h0lvl := (hall' h0 (List.mem_cons_self _ _)).2
                have he1 := SNode.lvl_eq h0 c0 hc0
                have he2 := SNode.lvl_eq f fc hfc
                have hcmp : stack_cmp (some fc) (some c0) < 0 ∨
                    (stack_cmp (some fc) (some c0) = 0 ∧ (false : Bool) = false) := by
                  rcases lt_or_eq_of_le h0lvl with hlt | heq
                  · left
                    simp only [stack_cmp]
                    omega
                  · right
                    refine ⟨?_, rfl⟩
                    simp only [stack_cmp]
                    omega
                rw [stack1_eq_insert_before auto_raise false _ f fc h0 c0 hfc
                  hskip hleF hlimc hc0 hcmp]
                obtain ⟨hI, hF, hM, hP⟩ := stack_insert_before_spec _ [] h0 t0 f
                  rfl hinv hfcS h0id
                  (fun x hx _ => absurd hx (List.not_mem_nil x))
                  (fun y hy _ => (hall' y hy).2)
                exact ⟨hI, hM, hP, fun _ _ _ => hF⟩
          · -- the walk stopped at the first entry strictly below f's level
            have hdec' : l = Y.reverse ++ e :: X.reverse := by
              rw [← List.reverse_reverse l, hdec]
              simp
            have hemem : e ∈ l := by
              rw [hdec']
              exact List.mem_append_right _ (List.mem_cons_self _ _)
            have hecl : e.client.isSome := hinv.2.2 e hemem
            obtain ⟨ce, hce⟩ := Option.isSome_iff_exists.mp hecl
            have helvl : e.lvl < f.lvl := by
              by_contra hnot
              push_neg at hnot
              rw [(below_cont_iff f e fc hfc).mpr ⟨hecl, hnot⟩] at hep
              exact Bool.noConfusion hep
            have heid : e.id ≠ f.id := by
              intro h
              have hef := hcons e hemem h
              rw [hef] at helvl
              exact lt_irrefl _ helvl
            have hlimc : (if (false : Bool) then limit_above f l
                else limit_below f l) = some e := by
              show limit_below f l = some e
              unfold limit_below
              rw [hfc]
              dsimp only
              rw [hscan]
              dsimp only
              rw [if_neg heid]
            have he1 := SNode.lvl_eq e ce hce
            have he2 := SNode.lvl_eq f fc hfc
            have hcmp : ¬(stack_cmp (some fc) (some ce) < 0 ∨
                (stack_cmp (some fc) (some ce) = 0 ∧ (false : Bool) = false)) := by
              rintro (hlt | ⟨heq, _⟩)
              · simp only [stack_cmp] at hlt
                omega
              · simp only [stack_cmp] at heq
                omega
            rw [stack1_eq_insert_after auto_raise false l f fc e ce hfc hskip
              hleF hlimc hce hcmp]
            have hpwparts := List.pairwise_append.mp (hdec' ▸ hinv.1)
            obtain ⟨hI, hF, hM, hP⟩ := stack_insert_after_spec l Y.reverse e
              X.reverse f hdec' hinv hfcS heid
              (fun x hx _ => le_trans
                (hpwparts.2.2 x hx e (List.mem_cons_self _ _)) (le_of_lt helvl))
              (le_of_lt helvl)
              (fun y hy _ => ((below_cont_iff f y fc hfc).mp
                (hXp y (List.mem_reverse.mp hy))).2)
            exact ⟨hI, hM, hP, fun _ _ _ => hF⟩

/-- The leaf loop of `stack`, folded over any list of leaves with distinct
ids that is consistent with the stacking list. -/
theorem stack_fold_spec (auto_raise focused : Bool) (fs : List SNode) :
    ∀ l : List SNode, StackInv l → (fs.map SNode.id).Nodup →
    (∀ f ∈ fs, ∀ e ∈ l, e.id = f.id → e = f) →
    StackInv (fs.foldl (stack1 auto_raise focused) l) ∧
    (∀ e ∈ fs.foldl (stack1 auto_raise focused) l, e ∈ l ∨ e ∈ fs) ∧
    (∀ e ∈ l, (∀ g ∈ fs, e.id ≠ g.id) → e ∈ fs.foldl (stack1 auto_raise focused) l) ∧
    (∀ f ∈ fs, ∀ fc, f.client = some fc →
      (IS_FLOATING fc = false ∨ auto_raise = true) →
      f ∈ fs.foldl (stack1 auto_raise focused) l) := by
  induction fs with
  | nil =>
      intro l hinv _ _
      exact ⟨hinv, fun e he => Or.inl he, fun e he _ => he,
        fun f hf => absurd hf (List.not_mem_nil f)⟩
  | cons f fs' ih =>
      intro l hinv hids hcons
      rw [List.map_cons, List.nodup_cons] at hids
      obtain ⟨hI1, hM1, hS1, hP1⟩ := stack1_spec auto_raise focused l f hinv
        (hcons f (List.mem_cons_self _ _))
      have hfid : f.id ∉ fs'.map SNode.id := hids.1
      have hcons' : ∀ g ∈ fs', ∀ e ∈ stack1 auto_raise focused l f,
          e.id = g.id → e = g := by
        intro g hg e he heid
        rcases hM1 e he with h1 | rfl
        · exact hcons g (List.mem_cons_of_mem _ hg) e h1 heid
        · exact absurd (heid ▸ List.mem_map_of_mem SNode.id hg) hfid
      obtain ⟨hI2, hM2, hS2, hP2⟩ := ih (stack1 auto_raise focused l f)
        hI1 hids.2 hcons'
      rw [List.foldl_cons]
      refine ⟨hI2, ?_, ?_, ?_⟩
      · intro e he
        rcases hM2 e he with h1 | h1
        · rcases hM1 e h1 with h2 | rfl
          · exact Or.inl h2
          · exact Or.inr (List.mem_cons_self _ _)
        · exact Or.inr (List.mem_cons_of_mem _ h1)
      · intro e he hdiff
        exact hS2 e (hS1 e he (hdiff f (List.mem_cons_self _ _)))
          (fun g hg => hdiff g (List.mem_cons_of_mem _ hg))
      · intro g hg fc hfc hok
        rcases List.mem_cons.mp hg with rfl | hg2
        · refine hS2 g (hP1 fc hfc hok) ?_
          intro g2 hg2 heq
          exact hfid (heq ▸ List.mem_map_of_mem SNode.id hg2)
        · exact hP2 g hg2 fc hfc hok

/-- C7: the stacking invariant of the spec — every entry of the global
stacking list is a leaf holding a client, no node appears twice, and the
list is sorted bottom-to-top by non-decreasing stack level — is preserved by
the `stack` function, and `stack` inserts every managed leaf under the given
node (every leaf with a client, floating ones only when `auto_raise` is on)
into the list at a position that preserves this order; entries of other
nodes are never dropped. -/
theorem stack_preserves_stacking_invariant (auto_raise focused : Bool)
    (t : NTree) (l : List SNode) (hinv : StackInv l)
    (hids : ((leavesSN t).map SNode.id).Nodup)
    (hcons : ∀ f ∈ leavesSN t, ∀ e ∈ l, e.id = f.id → e = f) :
    StackInv (stack_fn auto_raise focused t l) ∧
    (∀ e ∈ stack_fn auto_raise focused t l, e ∈ l ∨ e ∈ leavesSN t) ∧
    (∀ e ∈ l, (∀ g ∈ leavesSN t, e.id ≠ g.id) →
      e ∈ stack_fn auto_raise focused t l) ∧
    (∀ f ∈ leavesSN t, ∀ fc, f.client = some fc →
      (IS_FLOATING fc = false ∨ auto_raise = true) →
      f ∈ stack_fn auto_raise focused t l) :=
  stack_fold_spec auto_raise focused (leavesSN t) l hinv hids hcons

/-- Witness for `stack_preserves_stacking_invariant`: stacking a single
tiled leaf into the empty list keeps the invariant and inserts the leaf. -/
theorem stack_preserves_stacking_invariant_witness :
    StackInv (stack_fn false true
      (NTree.leaf ⟨7, SplitType.vertical, 0, false, false, false, false, false,
        ⟨0, 0, 100, 100⟩, ⟨32, 32⟩, none,
        some ⟨ClientState.tiled, StackLayer.normal,
          ⟨0, 0, 50, 50⟩, ⟨0, 0, 50, 50⟩, true⟩⟩) []) ∧
    (⟨7, some ⟨ClientState.tiled, StackLayer.normal,
        ⟨0, 0, 50, 50⟩, ⟨0, 0, 50, 50⟩, true⟩⟩ : SNode) ∈
      stack_fn false true
        (NTree.leaf ⟨7, SplitType.vertical, 0, false, false, false, false, false,
          ⟨0, 0, 100, 100⟩, ⟨32, 32⟩, none,
          some ⟨ClientState.tiled, StackLayer.normal,
            ⟨0, 0, 50, 50⟩, ⟨0, 0, 50, 50⟩, true⟩⟩) [] := by
  have h := stack_preserves_stacking_invariant false true
    (NTree.leaf ⟨7, SplitType.vertical, 0, false, false, false, false, false,
      ⟨0, 0, 100, 100⟩, ⟨32, 32⟩, none,
      some ⟨ClientState.tiled, StackLayer.normal,
        ⟨0, 0, 50, 50⟩, ⟨0, 0, 50, 50⟩, true⟩⟩) []
    ⟨List.Pairwise.nil, List.nodup_nil, fun e he => absurd he (List.not_mem_nil e)⟩
    (by simp [leavesSN, NTree.leaves])
    (fun f _ e he => absurd he (List.not_mem_nil e))
  refine ⟨h.1, ?_⟩
  refine h.2.2.2 _ ?_ _ rfl (Or.inl rfl)
  simp [leavesSN, NTree.leaves]

/-! ### Insertion into a single-leaf desktop (claim C5) -/

/-- Payload ids survive `set_vacant_local`. -/
theorem set_vacant_local_info_id (i : NodeInfo) (v : Bool) :
    (set_vacant_local_info i v).id = i.id := by
  unfold set_vacant_local_info
  split_ifs <;> rfl

/-- Payload ids survive the hidden-flag assignment. -/
theorem set_hidden_assign_id (i : NodeInfo) (v : Bool) :
    (set_hidden_assign i v).id = i.id := by
  unfold set_hidden_assign
  split_ifs <;> rfl

/-- Payload ids survive `propagate_flags_upward`'s per-ancestor step. -/
theorem propagate_step_id (i : NodeInfo) (a b : NTree) :
    (propagate_step i a b).id = i.id := by
  show (set_hidden_assign (set_vacant_local_info i (a.info.vacant && b.info.vacant))
      (a.info.hidden && b.info.hidden)).id = i.id
  rw [set_hidden_assign_id, set_vacant_local_info_id]

/-- `propagate_flags_upward` above a fresh split of two leaves refreshes only
the split's payload. -/
theorem propagate_flags_split_pair (ci a b : NodeInfo) (dd : ChildDir) :
    propagate_flags_at (.split ci (.leaf a) (.leaf b)) [dd] =
      .split (propagate_step ci (.leaf a) (.leaf b)) (.leaf a) (.leaf b) := by
  cases dd <;> rfl

/-- `find_public` on a single-leaf tree returns the root path or nothing. -/
theorem find_public_leaf (s : Settings) (d : DesktopT) (i : NodeInfo) :
    find_public s d (.leaf i) = none ∨ find_public s d (.leaf i) = some [] := by
  unfold find_public leavesCtx find_public_step
  simp only [List.foldl_cons, List.foldl_nil]
  split_ifs <;> simp

/-- `insert_node`'s splice on a single-leaf tree whose leaf is not a bare
receptacle: the result is one fresh internal node over the old leaf and the
new one. -/
theorem insert_node_tree_leaf_shape (s : Settings) (d : DesktopT)
    (fi n : NodeInfo) (fid : Nat)
    (hnr : ¬(fi.client = none ∧ fi.presel = none)) :
    ∃ ci a b,
      insert_node_tree s d (.leaf fi) n [] (.leaf fi) fid =
        NTree.split ci (.leaf a) (.leaf b) ∧
      ci.id = fid ∧
      ((a.id = n.id ∧ b.id = fi.id) ∨ (a.id = fi.id ∧ b.id = n.id)) := by
  obtain ⟨i0, st0, sr0, v0, h0, sk0, pv0, mk0, r0, c0, ps0, cl0⟩ := fi
  unfold insert_node_tree insert_node_splice
  rcases ps0 with _ | p
  · rcases cl0 with _ | c
    · exact absurd ⟨rfl, rfl⟩ hnr
    · rcases pv0 with _ | _
      · simp only [IS_RECEPTACLE, NTree.info, List.dropLast_nil, NTree.subtreeAt,
          Option.filter, private_count, List.nil_append, decide_eq_true_eq, ne_eq,
          not_true_eq_false, decide_False, if_false, Bool.false_eq_true, false_or,
          and_true, true_and, Nat.lt_irrefl, if_false, reduceCtorEq, false_and, if_true]
        rw [if_pos (Or.inl trivial)]
        rcases hpol : s.initial_polarity with _ | _ <;>
          simp only [hpol, reduceCtorEq, if_true, if_false, reduceIte,
            NTree.replaceAt, NTree.updateAt, List.nil_append]
        · rw [propagate_flags_split_pair]
          exact ⟨_, _, _, rfl, by rw [propagate_step_id]; rfl, Or.inl ⟨rfl, rfl⟩⟩
        · rw [propagate_flags_split_pair]
          exact ⟨_, _, _, rfl, by rw [propagate_step_id]; rfl, Or.inr ⟨rfl, rfl⟩⟩
      · simp only [IS_RECEPTACLE, NTree.info, List.dropLast_nil, NTree.subtreeAt,
          Option.filter, private_count, List.nil_append, decide_eq_true_eq, ne_eq,
          not_true_eq_false, decide_False, if_false, Bool.false_eq_true, false_or,
          and_true, true_and, Nat.lt_irrefl, reduceCtorEq, false_and, if_true, true_or,
          or_true]
        rcases find_public_leaf s d _ with hfp | hfp <;> rw [hfp] <;>
          simp only [NTree.subtreeAt, Option.getD_some, NTree.info, List.dropLast_nil,
            Option.filter, private_count, List.nil_append, decide_eq_true_eq, ne_eq,
            not_true_eq_false, decide_False, if_false, Bool.false_eq_true, false_or,
            and_true, true_and, Nat.lt_irrefl, reduceCtorEq, false_and, if_true, true_or,
            or_true, eq_self_iff_true, not_true, presel_dir_info, NTree.updateAt,
            NTree.withInfo] <;>
          split <;>
          simp only [NTree.replaceAt, List.nil_append] <;>
          rw [propagate_flags_split_pair] <;>
          exact ⟨_, _, _, rfl, by rw [propagate_step_id]; rfl, Or.inr ⟨rfl, rfl⟩⟩
  · obtain ⟨pd, pr, pf⟩ := p
    rcases pd with _ | _ | _ | _ <;>
      simp only [IS_RECEPTACLE, NTree.info, List.dropLast_nil, NTree.subtreeAt,
        Option.filter, private_count, List.nil_append, decide_eq_true_eq, ne_eq,
        not_true_eq_false, decide_False, if_false, Bool.false_eq_true, false_or,
        and_true, true_and, and_false, false_and, Nat.lt_irrefl, reduceCtorEq,
        if_true, true_or, or_true, eq_self_iff_true, not_true, NTree.withInfo,
        NTree.replaceAt] <;>
      rw [propagate_flags_split_pair] <;>
      first
        | exact ⟨_, _, _, rfl, by rw [propagate_step_id]; rfl, Or.inl ⟨rfl, rfl⟩⟩
        | exact ⟨_, _, _, rfl, by rw [propagate_step_id]; rfl, Or.inr ⟨rfl, rfl⟩⟩

/-- The tile-limit adjustment never changes the payload's id. -/
theorem tiled_limit_adjust_id (d : DesktopT) (n0 : NodeInfo) (ign : Bool) :
    (tiled_limit_adjust d n0 ign).id = n0.id := by
  unfold tiled_limit_adjust
  split <;> dsimp only <;> split <;> rfl

/-- C5: on a desktop whose tree is exactly one leaf, provided that leaf is
not a bare receptacle (client-less with no preselection), `insert_node`
creates exactly one new internal node: afterwards the tree is two leaves —
the old one and the new one — under one freshly created internal parent. -/
theorem insert_node_second_leaf_one_internal (s : Settings) (d : DesktopT)
    (fi n0 : NodeInfo) (ign : Bool) (fid : Nat)
    (hroot : d.root = some (.leaf fi))
    (hnr : ¬(fi.client = none ∧ fi.presel = none)) :
    ∃ ci a b,
      (insert_node s d n0 none ign fid).root =
        some (NTree.split ci (.leaf a) (.leaf b)) ∧
      ci.id = fid ∧
      ((a.id = n0.id ∧ b.id = fi.id) ∨ (a.id = fi.id ∧ b.id = n0.id)) := by
  obtain ⟨ci, a, b, heq, hcid, hids⟩ :=
    insert_node_tree_leaf_shape s d fi (tiled_limit_adjust d n0 ign) fid hnr
  rw [tiled_limit_adjust_id] at hids
  refine ⟨ci, a, b, ?_, hcid, hids⟩
  unfold insert_node
  rw [hroot]
  simp only [Option.getD_none, NTree.subtreeAt, heq]
  split <;> rfl

/-- Witness for `insert_node_second_leaf_one_internal` at a concrete
occupied single-leaf desktop. -/
theorem insert_node_second_leaf_one_internal_witness :
    ∃ ci a b,
      (insert_node sampleSettings deskLeaf newLeafInfo none false 7).root =
        some (NTree.split ci (.leaf a) (.leaf b)) ∧
      ci.id = 7 ∧
      ((a.id = newLeafInfo.id ∧ b.id = filledLeafInfo.id) ∨
        (a.id = filledLeafInfo.id ∧ b.id = newLeafInfo.id)) :=
  insert_node_second_leaf_one_internal sampleSettings deskLeaf filledLeafInfo
    newLeafInfo false 7 rfl (fun h => Option.noConfusion h.1)

/-- Counterexample to the unconditional reading of C5: when the single leaf
is a receptacle without a preselection, `insert_node` replaces it in place
and creates no internal node — the tree stays a single leaf. -/
theorem insert_node_receptacle_no_internal :
    deskRecep.root = some (.leaf receptacleInfo) ∧
    receptacleInfo.client = none ∧ receptacleInfo.presel = none ∧
    (insert_node sampleSettings deskRecep newLeafInfo none false 99).root =
      some (.leaf newLeafInfo) :=
  ⟨rfl, rfl, rfl, rfl⟩

/-! ### The vacant invariant: skeleton projections (claim C8) -/

theorem vproj_rootv (t : NTree) : (vproj t).rootv = t.info.vacant := by
  cases t <;> rfl

theorem vOkB_proj (t : NTree) : vacantOkB t = vOkB (vproj t) := by
  induction t with
  | leaf i => rfl
  | split i a b iha ihb =>
      simp [vacantOkB, vproj, vOkB, iha, ihb, vproj_rootv]

theorem vExceptB_proj (t : NTree) (π : TPath) :
    vacantOkExceptB t π = vExceptB (vproj t) π := by
  induction t generalizing π with
  | leaf i => cases π <;> rfl
  | split i a b iha ihb =>
      cases π with
      | nil => simpa [vacantOkExceptB, vExceptB] using vOkB_proj (.split i a b)
      | cons dd ρ =>
          cases dd <;>
            simp [vacantOkExceptB, vExceptB, vproj, iha, ihb, vOkB_proj]

theorem height_proj (t : NTree) : t.height = vheight (vproj t) := by
  induction t with
  | leaf i => rfl
  | split i a b iha ihb => simp [NTree.height, vproj, vheight, iha, ihb]

theorem vproj_withInfo (t : NTree) (j : NodeInfo) (h : j.vacant = t.info.vacant) :
    vproj (t.withInfo j) = vproj t := by
  cases t <;> simp_all [vproj, NTree.withInfo, NTree.info]

theorem vproj_updateAt (t : NTree) (π : TPath) (g : NodeInfo → NodeInfo)
    (hg : ∀ i, (g i).vacant = i.vacant) :
    vproj (t.updateAt π g) = vproj t := by
  induction t generalizing π with
  | leaf i => cases π <;> simp [NTree.updateAt, vproj, hg]
  | split i a b iha ihb =>
      cases π with
      | nil => simp [NTree.updateAt, vproj, hg]
      | cons dd ρ => cases dd <;> simp [NTree.updateAt, vproj, iha, ihb]

theorem vproj_hide_node_map (s : Settings) (t : NTree) (k : Nat) :
    vproj (hide_node_map s t k) = vproj t := by
  induction t generalizing k with
  | leaf i => rw [hide_node_map]; split_ifs <;> rfl
  | split i a b iha ihb =>
      rw [hide_node_map]; split_ifs <;> simp [vproj, iha, ihb]

theorem vproj_show_node_map (t : NTree) (k : Nat) :
    vproj (show_node_map t k) = vproj t := by
  induction t generalizing k with
  | leaf i => rw [show_node_map]; split_ifs <;> rfl
  | split i a b iha ihb =>
      rw [show_node_map]; split_ifs <;> simp [vproj, iha, ihb]

theorem vproj_rebuild_constraints (t : NTree) (k : Nat) :
    vproj (rebuild_constraints_from_leaves_bounded t k) = vproj t := by
  induction t generalizing k with
  | leaf i => rfl
  | split i a b iha ihb =>
      rw [rebuild_constraints_from_leaves_bounded]
      split_ifs <;> simp [vproj, iha, ihb]

/-! ### Subtree and replacement lemmas (claim C8) -/

theorem subtreeAt_length_height (t : NTree) (π : TPath) (u : NTree)
    (h : t.subtreeAt π = some u) : π.length + u.height ≤ t.height := by
  induction t generalizing π with
  | leaf i =>
      cases π with
      | nil => cases h; simp
      | cons dd ρ => exact absurd h (by simp [NTree.subtreeAt])
  | split i a b iha ihb =>
      cases π with
      | nil => cases h; simp
      | cons dd ρ =>
          cases dd with
          | first =>
              have := iha ρ h
              have hm := Nat.le_max_left a.height b.height
              simp only [NTree.height, List.length_cons]; omega
          | second =>
              have := ihb ρ h
              have hm := Nat.le_max_right a.height b.height
              simp only [NTree.height, List.length_cons]; omega

theorem vacantOkB_subtreeAt (t : NTree) (π : TPath) (u : NTree)
    (hok : vacantOkB t = true) (h : t.subtreeAt π = some u) :
    vacantOkB u = true := by
  induction t generalizing π with
  | leaf i =>
      cases π with
      | nil => cases h; exact hok
      | cons dd ρ => exact absurd h (by simp [NTree.subtreeAt])
  | split i a b iha ihb =>
      simp only [vacantOkB, Bool.and_eq_true] at hok
      cases π with
      | nil => cases h; simp [vacantOkB, hok]
      | cons dd ρ =>
          cases dd with
          | first => exact iha ρ hok.1.2 h
          | second => exact ihb ρ hok.2 h

theorem vacantOkB_child_first (i : NodeInfo) (a b : NTree)
    (h : vacantOkB (.split i a b) = true) : vacantOkB a = true := by
  simp only [vacantOkB, Bool.and_eq_true] at h; exact h.1.2

theorem vacantOkB_child_second (i : NodeInfo) (a b : NTree)
    (h : vacantOkB (.split i a b) = true) : vacantOkB b = true := by
  simp only [vacantOkB, Bool.and_eq_true] at h; exact h.2

theorem vacantOkB_exceptB (t : NTree) (π : TPath)
    (h : vacantOkB t = true) : vacantOkExceptB t π = true := by
  induction t generalizing π with
  | leaf i => cases π <;> simp [vacantOkExceptB, *]
  | split i a b iha ihb =>
      cases π with
      | nil => exact h
      | cons dd ρ =>
          simp only [vacantOkB, Bool.and_eq_true] at h
          cases dd <;> simp [vacantOkExceptB, iha, ihb, h.1.2, h.2, vacantOkB, h.1.1]

theorem exceptB_append (t : NTree) (π δ : TPath)
    (h : vacantOkExceptB t π = true) : vacantOkExceptB t (π ++ δ) = true := by
  induction t generalizing π with
  | leaf i =>
      cases π with
      | nil => exact vacantOkB_exceptB _ _ h
      | cons dd ρ => simp [vacantOkExceptB]
  | split i a b iha ihb =>
      cases π with
      | nil => exact vacantOkB_exceptB _ _ h
      | cons dd ρ =>
          cases dd <;>
            (simp only [vacantOkExceptB, Bool.and_eq_true] at h
             simp [vacantOkExceptB, iha, ihb, h.1, h.2])

theorem exceptB_replaceAt (t : NTree) (π δ : TPath) (u : NTree)
    (ht : vacantOkB t = true) (hu : vacantOkExceptB u δ = true) :
    vacantOkExceptB (t.replaceAt π u) (π ++ δ) = true := by
  induction t generalizing π with
  | leaf i =>
      cases π with
      | nil => simpa [NTree.replaceAt] using hu
      | cons dd ρ => simp [NTree.replaceAt, vacantOkExceptB]
  | split i a b iha ihb =>
      cases π with
      | nil => simpa [NTree.replaceAt] using hu
      | cons dd ρ =>
          simp only [vacantOkB, Bool.and_eq_true] at ht
          cases dd <;>
            simp [NTree.replaceAt, vacantOkExceptB, iha, ihb, ht.1.2, ht.2,
              vacantOkB_exceptB]

theorem vacantOkB_replace_exceptB (t : NTree) (π : TPath) (u : NTree)
    (ht : vacantOkB t = true) (hu : vacantOkB u = true) :
    vacantOkExceptB (t.replaceAt π u) π = true := by
  have h := exceptB_replaceAt t π [] u ht (by simpa [vacantOkExceptB] using hu)
  simpa using h

theorem except2B_replaceAt (t : NTree) (π1 π2 : TPath) (u : NTree)
    (h1 : vacantOkExceptB t π1 = true) (hu : vacantOkB u = true)
    (hd : diverge π1 π2 = true) :
    vacantOkExcept2B (t.replaceAt π2 u) π1 π2 = true := by
  induction t generalizing π1 π2 with
  | leaf i =>
      cases π1 with
      | nil => simp [diverge] at hd
      | cons d1 ρ1 =>
          cases π2 with
          | nil => simp [diverge] at hd
          | cons d2 ρ2 => simp [NTree.replaceAt, vacantOkExcept2B]
  | split i a b iha ihb =>
      cases π1 with
      | nil => simp [diverge] at hd
      | cons d1 ρ1 =>
          cases π2 with
          | nil => simp [diverge] at hd
          | cons d2 ρ2 =>
              cases d1 <;> cases d2 <;>
                (simp only [vacantOkExceptB, Bool.and_eq_true] at h1
                 simp only [diverge, reduceCtorEq, if_true, if_false, reduceIte] at hd
                 simp [NTree.replaceAt, vacantOkExcept2B, iha, ihb, h1.1, h1.2, hd, hu,
                   vacantOkB_replace_exceptB])

/-! ### Upward propagation repairs the invariant (claim C8) -/

theorem set_vacant_local_info_vacant (i : NodeInfo) (v : Bool) :
    (set_vacant_local_info i v).vacant = v := by
  unfold set_vacant_local_info
  split_ifs with h1 h2 <;> first | exact h1 | rfl

theorem set_hidden_assign_vacant (i : NodeInfo) (v : Bool) :
    (set_hidden_assign i v).vacant = i.vacant := by
  unfold set_hidden_assign
  split_ifs <;> rfl

theorem propagate_step_vacant (i : NodeInfo) (a b : NTree) :
    (propagate_step i a b).vacant = (a.info.vacant && b.info.vacant) := by
  show (set_hidden_assign (set_vacant_local_info i (a.info.vacant && b.info.vacant))
      (a.info.hidden && b.info.hidden)).vacant = _
  rw [set_hidden_assign_vacant, set_vacant_local_info_vacant]

theorem vacant_step_vacant (i : NodeInfo) (a b : NTree) :
    (vacant_step i a b).vacant = (a.info.vacant && b.info.vacant) :=
  set_vacant_local_info_vacant i _

theorem propagate_along_repairs (u : NodeInfo → NTree → NTree → NodeInfo)
    (hu : ∀ i a b, (u i a b).vacant = (a.info.vacant && b.info.vacant))
    (t : NTree) (π : TPath) (hlen : π.length ≤ MAX_TREE_DEPTH + 1)
    (h : vacantOkExceptB t π = true) :
    vacantOkB (propagate_along u t π) = true := by
  induction t generalizing π with
  | leaf i =>
      cases π with
      | nil => exact h
      | cons dd ρ => simp [propagate_along, vacantOkB]
  | split i a b iha ihb =>
      cases π with
      | nil => exact h
      | cons dd ρ =>
          have hρ : ρ.length + 1 ≤ MAX_TREE_DEPTH + 1 := by
            simpa using hlen
          cases dd with
          | first =>
              simp only [vacantOkExceptB, Bool.and_eq_true] at h
              simp [propagate_along, hρ, vacantOkB, hu, NTree.info,
                iha ρ (by omega) h.1, h.2]
          | second =>
              simp only [vacantOkExceptB, Bool.and_eq_true] at h
              simp [propagate_along, hρ, vacantOkB, hu, NTree.info,
                ihb ρ (by omega) h.2, h.1]

theorem propagate_along_except2 (u : NodeInfo → NTree → NTree → NodeInfo)
    (hu : ∀ i a b, (u i a b).vacant = (a.info.vacant && b.info.vacant))
    (t : NTree) (π1 π2 : TPath) (hlen : π2.length ≤ MAX_TREE_DEPTH + 1)
    (h : vacantOkExcept2B t π1 π2 = true) :
    vacantOkExceptB (propagate_along u t π2) π1 = true := by
  induction t generalizing π1 π2 with
  | leaf i =>
      cases π2 with
      | nil => cases π1 <;> simpa [vacantOkExcept2B] using h
      | cons d2 ρ2 =>
          cases π1 <;> simp [propagate_along, vacantOkExceptB, vacantOkB]
  | split i a b iha ihb =>
      cases π2 with
      | nil => cases π1 <;> simpa [vacantOkExcept2B, propagate_along] using h
      | cons d2 ρ2 =>
          have hρ : ρ2.length + 1 ≤ MAX_TREE_DEPTH + 1 := by
            simpa using hlen
          cases π1 with
          | nil =>
              have h' : vacantOkExceptB (.split i a b) (d2 :: ρ2) = true := by
                simpa [vacantOkExcept2B] using h
              have := propagate_along_repairs u hu (.split i a b) (d2 :: ρ2)
                (by simpa using hρ) h'
              simpa [vacantOkExceptB] using this
          | cons d1 ρ1 =>
              cases d1 with
              | first =>
                  cases d2 with
                  | first =>
                      simp only [vacantOkExcept2B, Bool.and_eq_true] at h
                      simp [propagate_along, hρ, vacantOkExceptB,
                        iha ρ1 ρ2 (by omega) h.1, h.2]
                  | second =>
                      simp only [vacantOkExcept2B, Bool.and_eq_true] at h
                      simp [propagate_along, hρ, vacantOkExceptB,
                        propagate_along_repairs u hu b ρ2 (by omega) h.2, h.1]
              | second =>
                  cases d2 with
                  | first =>
                      simp only [vacantOkExcept2B, Bool.and_eq_true] at h
                      simp [propagate_along, hρ, vacantOkExceptB,
                        propagate_along_repairs u hu a ρ2 (by omega) h.2, h.1]
                  | second =>
                      simp only [vacantOkExcept2B, Bool.and_eq_true] at h
                      simp [propagate_along, hρ, vacantOkExceptB,
                        ihb ρ1 ρ2 (by omega) h.2, h.1]

theorem hidden_step_vacant (i : NodeInfo) (a b : NTree) :
    (hidden_step i a b).vacant = i.vacant :=
  set_hidden_assign_vacant i _

theorem vproj_propagate_along (u : NodeInfo → NTree → NTree → NodeInfo)
    (hu : ∀ i a b, (u i a b).vacant = i.vacant) (t : NTree) (π : TPath) :
    vproj (propagate_along u t π) = vproj t := by
  induction t generalizing π with
  | leaf i => cases π <;> rfl
  | split i a b iha ihb =>
      cases π with
      | nil => rfl
      | cons dd ρ =>
          cases dd <;>
            (simp only [propagate_along, vproj, iha, ihb]
             split <;> simp [hu])

theorem rotate_rec_bounded_vacant (t : NTree) (deg depth : Nat) :
    (rotate_tree_rec_bounded t deg depth).info.vacant = t.info.vacant := by
  cases t with
  | leaf i => rfl
  | split i a b =>
      rw [rotate_tree_rec_bounded]
      split_ifs <;> rfl

theorem rotate_rec_bounded_okB (t : NTree) (deg depth : Nat)
    (h : vacantOkB t = true) :
    vacantOkB (rotate_tree_rec_bounded t deg depth) = true := by
  induction t generalizing depth with
  | leaf i => simpa [rotate_tree_rec_bounded] using h
  | split i a b iha ihb =>
      simp only [vacantOkB, Bool.and_eq_true, decide_eq_true_eq] at h
      rw [rotate_tree_rec_bounded]
      split_ifs <;>
        simp [vacantOkB, h.1.1, h.1.2, h.2, iha _ h.1.2, ihb _ h.2,
          rotate_rec_bounded_vacant, Bool.and_comm, decide_eq_true_eq]

theorem rotate_tree_okB (t : NTree) (deg : Nat) (h : vacantOkB t = true) :
    vacantOkB (rotate_tree t deg) = true := by
  unfold rotate_tree rebuild_constraints_from_leaves rotate_tree_rec
  rw [vOkB_proj, vproj_rebuild_constraints, ← vOkB_proj]
  exact rotate_rec_bounded_okB t deg 0 h

/-! ### Structure preservation (claim C8) -/

theorem height_propagate_along (u : NodeInfo → NTree → NTree → NodeInfo)
    (t : NTree) (π : TPath) :
    (propagate_along u t π).height = t.height := by
  induction t generalizing π with
  | leaf i => cases π <;> rfl
  | split i a b iha ihb =>
      cases π with
      | nil => rfl
      | cons dd ρ =>
          cases dd <;> simp [propagate_along, NTree.height, iha, ihb]

theorem height_replaceAt (t : NTree) (π : TPath) (u u' : NTree)
    (hsub : t.subtreeAt π = some u) (hh : u'.height = u.height) :
    (t.replaceAt π u').height = t.height := by
  induction t generalizing π with
  | leaf i =>
      cases π with
      | nil => cases hsub; simpa [NTree.replaceAt] using hh
      | cons dd ρ => exact absurd hsub (by simp [NTree.subtreeAt])
  | split i a b iha ihb =>
      cases π with
      | nil => cases hsub; simpa [NTree.replaceAt] using hh
      | cons dd ρ =>
          cases dd with
          | first =>
              simp only [NTree.subtreeAt] at hsub
              simp [NTree.replaceAt, NTree.height, iha ρ hsub]
          | second =>
              simp only [NTree.subtreeAt] at hsub
              simp [NTree.replaceAt, NTree.height, ihb ρ hsub]

theorem height_vacant_downward (t : NTree) (v : Bool) (k : Nat) :
    (propagate_vacant_downward_b t v k).height = t.height := by
  induction t generalizing k with
  | leaf i => rw [propagate_vacant_downward_b]; split_ifs <;> rfl
  | split i a b iha ihb =>
      rw [propagate_vacant_downward_b]
      split_ifs <;> simp [NTree.height, iha, ihb]

theorem vacant_downward_all (t : NTree) (v : Bool) (k : Nat)
    (hd : t.height + k ≤ MAX_TREE_DEPTH) :
    vacantOkB (propagate_vacant_downward_b t v k) = true ∧
    (propagate_vacant_downward_b t v k).info.vacant = v := by
  induction t generalizing k with
  | leaf i =>
      rw [propagate_vacant_downward_b]
      rw [if_neg (by omega)]
      exact ⟨rfl, set_vacant_local_info_vacant i v⟩
  | split i a b iha ihb =>
      simp only [NTree.height] at hd
      rw [propagate_vacant_downward_b]
      rw [if_neg (by omega)]
      have ha := iha (k + 1) (by omega)
      have hb := ihb (k + 1) (by omega)
      refine ⟨?_, set_vacant_local_info_vacant i v⟩
      simp [vacantOkB, ha.1, hb.1, ha.2, hb.2, set_vacant_local_info_vacant]

theorem height_updateAt (t : NTree) (π : TPath) (g : NodeInfo → NodeInfo) :
    (t.updateAt π g).height = t.height := by
  induction t generalizing π with
  | leaf i => cases π <;> rfl
  | split i a b iha ihb =>
      cases π with
      | nil => rfl
      | cons dd ρ => cases dd <;> simp [NTree.updateAt, NTree.height, iha, ihb]

theorem subtreeAt_append (t : NTree) (δ ρ : TPath) :
    t.subtreeAt (δ ++ ρ) = (t.subtreeAt δ).bind (fun u => u.subtreeAt ρ) := by
  induction t generalizing δ with
  | leaf i =>
      cases δ with
      | nil => simp [NTree.subtreeAt]
      | cons dd δ' => cases ρ <;> simp [NTree.subtreeAt]
  | split i a b iha ihb =>
      cases δ with
      | nil => simp [NTree.subtreeAt]
      | cons dd δ' => cases dd <;> simp [NTree.subtreeAt, iha, ihb]

/-! ### `set_vacant` and `set_hidden` preserve the invariant (claim C8) -/

theorem set_vacant_at_ok (t : NTree) (π : TPath) (v : Bool)
    (hok : vacantOkB t = true) (hh : t.height ≤ MAX_TREE_DEPTH) :
    vacantOkB (set_vacant_at t π v) = true := by
  unfold set_vacant_at
  cases hsub : t.subtreeAt π with
  | none => exact hok
  | some u =>
      dsimp only
      split_ifs with h1
      · exact hok
      · have hlen := subtreeAt_length_height t π u hsub
        have hdown := vacant_downward_all u v 0 (by omega)
        exact propagate_along_repairs vacant_step vacant_step_vacant _ π
          (by simp only [MAX_TREE_DEPTH] at hh hlen ⊢; omega)
          (vacantOkB_replace_exceptB t π _ hok hdown.1)

theorem height_set_vacant_at (t : NTree) (π : TPath) (v : Bool) :
    (set_vacant_at t π v).height = t.height := by
  unfold set_vacant_at
  cases hsub : t.subtreeAt π with
  | none => rfl
  | some u =>
      dsimp only
      split_ifs with h1
      · rfl
      · unfold propagate_vacant_at
        rw [height_propagate_along,
          height_replaceAt t π u _ hsub (height_vacant_downward u v 0)]

theorem set_hidden_local_at_ok (t : NTree) (π : TPath) (v : Bool)
    (hok : vacantOkB t = true) (hh : t.height ≤ MAX_TREE_DEPTH) :
    vacantOkB (set_hidden_local_at t π v) = true ∧
    (set_hidden_local_at t π v).height = t.height := by
  unfold set_hidden_local_at
  cases hsub : t.subtreeAt π with
  | none => exact ⟨hok, rfl⟩
  | some u =>
      dsimp only
      split_ifs with h1
      · exact ⟨hok, rfl⟩
      · have hg : ∀ i : NodeInfo, ({ i with hidden := v } : NodeInfo).vacant = i.vacant :=
          fun i => rfl
        have hok1 : vacantOkB (t.updateAt π fun i => { i with hidden := v }) = true := by
          rw [vOkB_proj, vproj_updateAt _ _ _ hg, ← vOkB_proj]; exact hok
        have hh1 : (t.updateAt π fun i => { i with hidden := v }).height = t.height :=
          height_updateAt t π _
        cases u.info.client with
        | none => exact ⟨hok1, hh1⟩
        | some c =>
            dsimp only
            split_ifs with h2
            · refine ⟨set_vacant_at_ok _ π v hok1 (by omega), ?_⟩
              rw [height_set_vacant_at, hh1]
            · exact ⟨hok1, hh1⟩

theorem fold_hidden_ok (v : Bool) (ρs : List TPath) (acc : NTree)
    (hok : vacantOkB acc = true) (hh : acc.height ≤ MAX_TREE_DEPTH) :
    vacantOkB (ρs.foldl (fun acc ρ => set_hidden_local_at acc ρ v) acc) = true ∧
    (ρs.foldl (fun acc ρ => set_hidden_local_at acc ρ v) acc).height = acc.height := by
  induction ρs generalizing acc with
  | nil => exact ⟨hok, rfl⟩
  | cons ρ ρs ih =>
      have hstep := set_hidden_local_at_ok acc ρ v hok hh
      have := ih (set_hidden_local_at acc ρ v) hstep.1 (by omega)
      simp only [List.foldl_cons]
      exact ⟨this.1, by rw [this.2, hstep.2]⟩

theorem propagate_hidden_downward_at_ok (t : NTree) (π : TPath) (v : Bool)
    (hok : vacantOkB t = true) (hh : t.height ≤ MAX_TREE_DEPTH) :
    vacantOkB (propagate_hidden_downward_at t π v) = true ∧
    (propagate_hidden_downward_at t π v).height = t.height := by
  unfold propagate_hidden_downward_at
  cases hsub : t.subtreeAt π with
  | none => exact ⟨hok, rfl⟩
  | some u => exact fold_hidden_ok v _ t hok hh

theorem set_hidden_at_ok (t : NTree) (π : TPath) (v : Bool)
    (hok : vacantOkB t = true) (hh : t.height ≤ MAX_TREE_DEPTH) :
    vacantOkB (set_hidden_at t π v) = true := by
  unfold set_hidden_at
  cases hsub : t.subtreeAt π with
  | none => exact hok
  | some u =>
      dsimp only
      split_ifs with h1
      · exact hok
      · have hdown := propagate_hidden_downward_at_ok t π v hok hh
        unfold propagate_hidden_at
        rw [vOkB_proj, vproj_propagate_along hidden_step hidden_step_vacant,
          ← vOkB_proj]
        exact hdown.1

/-! ### `insert_node` preserves the invariant (claim C8) -/

theorem updateAt_replaceAt (t : NTree) (ρ : TPath) (u : NTree)
    (g : NodeInfo → NodeInfo) :
    (t.replaceAt ρ u).updateAt ρ g = t.replaceAt ρ (u.updateAt [] g) := by
  induction t generalizing ρ with
  | leaf i =>
      cases ρ with
      | nil => rfl
      | cons dd ρ' => rfl
  | split i a b iha ihb =>
      cases ρ with
      | nil => rfl
      | cons dd ρ' => cases dd <;> simp [NTree.replaceAt, NTree.updateAt, iha, ihb]

theorem splice_split_ok (T A B : NTree) (ci : NodeInfo) (ρ : TPath) (dd : ChildDir)
    (hT : vacantOkB T = true) (hA : vacantOkB A = true) (hB : vacantOkB B = true)
    (hρ : ρ.length ≤ MAX_TREE_DEPTH) :
    vacantOkB (propagate_flags_at (T.replaceAt ρ (.split ci A B)) (ρ ++ [dd])) = true := by
  refine propagate_along_repairs propagate_step propagate_step_vacant _ _
    (by simp; omega) (exceptB_replaceAt T ρ [dd] _ hT ?_)
  cases dd <;> simp [vacantOkExceptB, hA, hB]

theorem splice_leaf_ok (T : NTree) (j : NodeInfo) (ρ : TPath)
    (hT : vacantOkB T = true) (hρ : ρ.length ≤ MAX_TREE_DEPTH + 1) :
    vacantOkB (propagate_flags_at (T.replaceAt ρ (.leaf j)) ρ) = true :=
  propagate_along_repairs propagate_step propagate_step_vacant _ _ hρ
    (vacantOkB_replace_exceptB T ρ _ hT rfl)

theorem leavesCtx_mem (t : NTree) (e : TPath × NodeInfo × Option NTree) :
    ∀ (ρ : TPath) (pp : Option NTree), e ∈ leavesCtx t ρ pp →
    ∃ δ i, e.1 = ρ ++ δ ∧ t.subtreeAt δ = some (.leaf i) := by
  induction t with
  | leaf i =>
      intro ρ pp h
      simp only [leavesCtx, List.mem_singleton] at h
      exact ⟨[], i, by simp [h], rfl⟩
  | split i a b iha ihb =>
      intro ρ pp h
      simp only [leavesCtx, List.mem_append] at h
      rcases h with h | h
      · obtain ⟨δ, j, h1, h2⟩ := iha _ _ h
        exact ⟨ChildDir.first :: δ, j, by simp [h1], by simp [NTree.subtreeAt, h2]⟩
      · obtain ⟨δ, j, h1, h2⟩ := ihb _ _ h
        exact ⟨ChildDir.second :: δ, j, by simp [h1], by simp [NTree.subtreeAt, h2]⟩

theorem find_public_step_paths (s : Settings) (d : DesktopT)
    (acc : (Nat × Option TPath) × (Nat × Option TPath))
    (e : TPath × NodeInfo × Option NTree) :
    ((find_public_step s d acc e).1.2 = acc.1.2 ∨
      (find_public_step s d acc e).1.2 = some e.1) ∧
    ((find_public_step s d acc e).2.2 = acc.2.2 ∨
      (find_public_step s d acc e).2.2 = some e.1) := by
  obtain ⟨π, i, p⟩ := e
  unfold find_public_step
  dsimp only
  split_ifs <;> simp

theorem fold_find_public_paths (s : Settings) (d : DesktopT)
    (l : List (TPath × NodeInfo × Option NTree)) :
    ∀ (acc : (Nat × Option TPath) × (Nat × Option TPath)) (π : TPath),
      ((l.foldl (find_public_step s d) acc).1.2 = some π ∨
        (l.foldl (find_public_step s d) acc).2.2 = some π) →
      (acc.1.2 = some π ∨ acc.2.2 = some π ∨ ∃ i p, (π, i, p) ∈ l) := by
  induction l with
  | nil =>
      intro acc π h
      simp only [List.foldl_nil] at h
      exact h.elim Or.inl (fun h' => Or.inr (Or.inl h'))
  | cons e l ih =>
      intro acc π h
      simp only [List.foldl_cons] at h
      rcases ih (find_public_step s d acc e) π h with h' | h' | h'
      · rcases (find_public_step_paths s d acc e).1 with h2 | h2
        · exact Or.inl (h2 ▸ h')
        · rw [h2] at h'
          refine Or.inr (Or.inr ⟨e.2.1, e.2.2, ?_⟩)
          obtain rfl : e.1 = π := Option.some.inj h'
          exact List.mem_cons_self _ _
      · rcases (find_public_step_paths s d acc e).2 with h2 | h2
        · exact Or.inr (Or.inl (h2 ▸ h'))
        · rw [h2] at h'
          refine Or.inr (Or.inr ⟨e.2.1, e.2.2, ?_⟩)
          obtain rfl : e.1 = π := Option.some.inj h'
          exact List.mem_cons_self _ _
      · obtain ⟨i, p, hm⟩ := h'
        exact Or.inr (Or.inr ⟨i, p, List.mem_cons_of_mem _ hm⟩)

theorem find_public_sound (s : Settings) (d : DesktopT) (t : NTree) (π : TPath)
    (h : find_public s d t = some π) :
    ∃ i, t.subtreeAt π = some (.leaf i) := by
  unfold find_public at h
  dsimp only at h
  have hcases :
      ((leavesCtx t [] none).foldl (find_public_step s d) ((0, none), (0, none))).1.2
        = some π ∨
      ((leavesCtx t [] none).foldl (find_public_step s d) ((0, none), (0, none))).2.2
        = some π := by
    rcases hr : ((leavesCtx t [] none).foldl (find_public_step s d)
        ((0, none), (0, none))).2.2 with _ | π'
    · rw [hr] at h
      exact Or.inl h
    · rw [hr] at h
      dsimp only at h
      exact Or.inr h
  rcases fold_find_public_paths s d _ _ _ hcases with h' | h' | h'
  · exact absurd h' (by simp)
  · exact absurd h' (by simp)
  · obtain ⟨i, p, hm⟩ := h'
    obtain ⟨δ, j, h1, h2⟩ := leavesCtx_mem t _ [] none hm
    simp only [List.nil_append] at h1
    exact ⟨j, by rw [show π = δ from h1]; exact h2⟩

theorem presel_dir_info_vacant (s : Settings) (i : NodeInfo) (dir : Direction) :
    (presel_dir_info s i dir).vacant = i.vacant := by
  unfold presel_dir_info
  split <;> rfl

theorem cancel_presel_info_vacant (i : NodeInfo) :
    (cancel_presel_info i).vacant = i.vacant := rfl

theorem insert_node_splice_ok (s : Settings) (d : DesktopT) (T : NTree)
    (n : NodeInfo) (π : TPath) (ft : NTree) (fid : Nat)
    (hT : vacantOkB T = true) (hft : vacantOkB ft = true)
    (hπ : π.length ≤ MAX_TREE_DEPTH) :
    vacantOkB (insert_node_splice s d T n π ft fid) = true := by
  have hftc : vacantOkB (ft.withInfo (cancel_presel_info ft.info)) = true := by
    rw [vOkB_proj, vproj_withInfo _ _ (cancel_presel_info_vacant ft.info),
      ← vOkB_proj]
    exact hft
  unfold insert_node_splice
  split
  · -- no preselection
    dsimp only
    split
    · -- automatic schemes
      rw [updateAt_replaceAt]
      rcases hpol : s.initial_polarity with _ | _ <;>
        simp only [hpol, reduceCtorEq, reduceIte, if_true, if_false]
      · exact splice_split_ok T (.leaf n) ft _ π ChildDir.first hT rfl hft hπ
      · exact splice_split_ok T ft (.leaf n) _ π ChildDir.second hT hft rfl hπ
    · -- spiral
      split
      · exact hT
      · rename_i P hP
        have hPok := vacantOkB_subtreeAt T _ P hT hP
        have hπp : π.dropLast.length ≤ MAX_TREE_DEPTH := by
          have := List.length_dropLast π
          omega
        by_cases hlast : π.getLast?.getD ChildDir.first = ChildDir.first
        · simp only [hlast, reduceCtorEq, reduceIte, if_true, if_false]
          try dsimp only
          split
          · exact splice_split_ok T (.leaf n) _ _ _ _ hT rfl
              (rotate_tree_okB _ _ hPok) hπp
          · exact splice_split_ok T (.leaf n) P _ _ _ hT rfl hPok hπp
        · simp only [hlast, reduceCtorEq, reduceIte, if_true, if_false]
          try dsimp only
          split
          · exact splice_split_ok T _ (.leaf n) _ _ _ hT
              (rotate_tree_okB _ _ hPok) rfl hπp
          · exact splice_split_ok T P (.leaf n) _ _ _ hT hPok rfl hπp
  · -- preselection splice
    rename_i ps hps
    dsimp only
    split <;>
      first
        | exact splice_split_ok T (.leaf _) _ _ π _ hT rfl hftc hπ
        | exact splice_split_ok T _ (.leaf _) _ π _ hT hftc rfl hπ

theorem insert_node_tree_ok (s : Settings) (d : DesktopT) (t : NTree)
    (n : NodeInfo) (π : TPath) (ft : NTree) (fid : Nat)
    (hok : vacantOkB t = true) (hh : t.height ≤ MAX_TREE_DEPTH)
    (hsub : t.subtreeAt π = some ft) :
    vacantOkB (insert_node_tree s d t n π ft fid) = true := by
  have hπ : π.length ≤ MAX_TREE_DEPTH := by
    have := subtreeAt_length_height t π ft hsub; omega
  have hft : vacantOkB ft = true := vacantOkB_subtreeAt t π ft hok hsub
  have hupd : ∀ (ρ : TPath) (dir : Direction),
      vacantOkB (t.updateAt ρ fun i => presel_dir_info s i dir) = true := by
    intro ρ dir
    rw [vOkB_proj, vproj_updateAt _ _ _ (fun i => presel_dir_info_vacant s i dir),
      ← vOkB_proj]
    exact hok
  have hwith : ∀ (u : NTree) (dir : Direction), vacantOkB u = true →
      vacantOkB (u.withInfo (presel_dir_info s u.info dir)) = true := by
    intro u dir hu
    rw [vOkB_proj, vproj_withInfo _ _ (presel_dir_info_vacant s u.info dir),
      ← vOkB_proj]
    exact hu
  unfold insert_node_tree
  split
  · exact splice_leaf_ok t n π hok (by omega)
  · split
    · -- redirect attempted
      split
      · -- find_public found a target
        rename_i πk hfp
        obtain ⟨j, hj⟩ := find_public_sound s d t πk hfp
        have hπk : πk.length ≤ MAX_TREE_DEPTH := by
          have := subtreeAt_length_height t πk _ hj; omega
        rw [hj]
        simp only [Option.getD_some]
        split
        all_goals
          first
            | exact insert_node_splice_ok s d _ n πk _ fid (hupd πk _)
                (hwith (NTree.leaf j) _ rfl) hπk
            | exact insert_node_splice_ok s d t n πk (NTree.leaf j) fid hok rfl hπk
      · -- no public target: splice at the original position
        try dsimp only
        split
        all_goals
          first
            | exact insert_node_splice_ok s d _ n π _ fid (hupd π _)
                (hwith ft _ hft) hπ
            | exact insert_node_splice_ok s d t n π ft fid hok hft hπ
    · -- no redirect
      try dsimp only
      split
      all_goals
        first
          | exact insert_node_splice_ok s d _ n π _ fid (hupd π _)
              (hwith ft _ hft) hπ
          | exact insert_node_splice_ok s d t n π ft fid hok hft hπ

/-- C8, insert part, at the desktop level. -/
theorem insert_node_root_ok (s : Settings) (d : DesktopT) (n0 : NodeInfo)
    (fp : Option TPath) (ign : Bool) (fid : Nat)
    (h : ∀ t, d.root = some t → vacantOkB t = true ∧ t.height ≤ MAX_TREE_DEPTH) :
    ∀ t', (insert_node s d n0 fp ign fid).root = some t' →
      vacantOkB t' = true := by
  intro t' ht'
  unfold insert_node at ht'
  rcases hroot : d.root with _ | t
  · rw [hroot] at ht'
    dsimp only at ht'
    split_ifs at ht' <;>
      (obtain rfl := Option.some.inj ht'
       rfl)
  · obtain ⟨hok, hh⟩ := h t hroot
    rw [hroot] at ht'
    dsimp only at ht'
    rcases hsub : t.subtreeAt (fp.getD []) with _ | ft
    · rw [hsub] at ht'
      dsimp only at ht'
      rw [hroot] at ht'
      obtain rfl := Option.some.inj ht'
      exact hok
    · rw [hsub] at ht'
      dsimp only at ht'
      split_ifs at ht' <;>
        (obtain rfl := Option.some.inj ht'
         exact insert_node_tree_ok s d t _ _ ft fid hok hh hsub)

/-- C8, unlink part, at the desktop level. -/
theorem unlink_node_root_ok (s : Settings) (d : DesktopT) (π : TPath)
    (h : ∀ t, d.root = some t → vacantOkB t = true ∧ t.height ≤ MAX_TREE_DEPTH) :
    ∀ t', (unlink_node s d π).root = some t' → vacantOkB t' = true := by
  intro t' ht'
  unfold unlink_node at ht'
  rcases hroot : d.root with _ | t
  · rw [hroot] at ht'
    dsimp only at ht'
    rw [hroot] at ht'
    exact absurd ht' (by simp)
  · obtain ⟨hok, hh⟩ := h t hroot
    rw [hroot] at ht'
    dsimp only at ht'
    split at ht'
    · simp at ht'
    · rcases hsub : t.subtreeAt π with _ | nSub
      · rw [hsub] at ht'
        dsimp only at ht'
        rw [hroot] at ht'
        obtain rfl := Option.some.inj ht'
        exact hok
      · rw [hsub] at ht'
        dsimp only at ht'
        rcases hsubp : t.subtreeAt π.dropLast with _ | P
        · rw [hsubp] at ht'
          dsimp only at ht'
          rw [hroot] at ht'
          obtain rfl := Option.some.inj ht'
          exact hok
        · rw [hsubp] at ht'
          dsimp only at ht'
          have hπp : π.dropLast.length ≤ MAX_TREE_DEPTH + 1 := by
            have := subtreeAt_length_height t π.dropLast P hsubp; omega
          have hPok := vacantOkB_subtreeAt t _ P hok hsubp
          have hb : ∀ b' : NTree, vacantOkB b' = true →
              vacantOkB (propagate_flags_at (t.replaceAt π.dropLast b')
                π.dropLast) = true := by
            intro b' hb'
            exact propagate_along_repairs propagate_step propagate_step_vacant
              _ _ hπp (vacantOkB_replace_exceptB t _ b' hok hb')
          split at ht'
          · rw [hroot] at ht'
            obtain rfl := Option.some.inj ht'
            exact hok
          · rename_i Pi pa pb
            have hpa := vacantOkB_child_first Pi pa pb hPok
            have hpb := vacantOkB_child_second Pi pa pb hPok
            obtain rfl := Option.some.inj ht'
            refine hb _ ?_
            repeat' split
            all_goals
              try rw [vOkB_proj, vproj_withInfo _ _ (by rfl), ← vOkB_proj]
            all_goals
              first
                | exact hpa
                | exact hpb
                | exact rotate_tree_okB _ _ hpa
                | exact rotate_tree_okB _ _ hpb

/-! ### Ids, paths and world membership (claims C6, C8) -/

theorem findPathById_sound (t : NTree) (x : Nat) :
    ∀ π, t.findPathById x = some π →
      ∃ u, t.subtreeAt π = some u ∧ u.info.id = x := by
  induction t with
  | leaf i =>
      intro π h
      simp only [NTree.findPathById] at h
      split_ifs at h with h1
      cases h
      exact ⟨.leaf i, rfl, h1⟩
  | split i a b iha ihb =>
      intro π h
      simp only [NTree.findPathById] at h
      split_ifs at h with h1
      · cases h
        exact ⟨.split i a b, rfl, h1⟩
      · rcases ha : a.findPathById x with _ | ρ
        · rw [ha] at h
          dsimp only at h
          rcases hb : b.findPathById x with _ | ρ
          · rw [hb] at h
            cases h
          · rw [hb] at h
            dsimp only at h
            cases h
            obtain ⟨u, hu1, hu2⟩ := ihb ρ hb
            exact ⟨u, by simpa [NTree.subtreeAt] using hu1, hu2⟩
        · rw [ha] at h
          dsimp only at h
          cases h
          obtain ⟨u, hu1, hu2⟩ := iha ρ ha
          exact ⟨u, by simpa [NTree.subtreeAt] using hu1, hu2⟩

theorem containsId_of_subtreeAt (t : NTree) (π : TPath) (u : NTree)
    (h : t.subtreeAt π = some u) : t.containsId u.info.id = true := by
  induction t generalizing π with
  | leaf i =>
      cases π with
      | nil => cases h; simp [NTree.containsId, NTree.info]
      | cons dd ρ => exact absurd h (by simp [NTree.subtreeAt])
  | split i a b iha ihb =>
      cases π with
      | nil => cases h; simp [NTree.containsId, NTree.info]
      | cons dd ρ =>
          cases dd with
          | first =>
              simp only [NTree.subtreeAt] at h
              simp [NTree.containsId, iha ρ h]
          | second =>
              simp only [NTree.subtreeAt] at h
              simp [NTree.containsId, ihb ρ h]

theorem mem_treeIds_of_subtreeAt (t : NTree) (π : TPath) (u : NTree)
    (h : t.subtreeAt π = some u) : u.info.id ∈ t.treeIds := by
  induction t generalizing π with
  | leaf i =>
      cases π with
      | nil => cases h; simp [NTree.treeIds, NTree.info]
      | cons dd ρ => exact absurd h (by simp [NTree.subtreeAt])
  | split i a b iha ihb =>
      cases π with
      | nil => cases h; simp [NTree.treeIds, NTree.info]
      | cons dd ρ =>
          cases dd with
          | first =>
              simp only [NTree.subtreeAt] at h
              simp [NTree.treeIds, iha ρ h]
          | second =>
              simp only [NTree.subtreeAt] at h
              simp [NTree.treeIds, ihb ρ h]

theorem findSubtreeById_none_of_not_mem (t : NTree) (x : Nat)
    (h : x ∉ t.treeIds) : t.findSubtreeById x = none := by
  induction t with
  | leaf i =>
      simp only [NTree.treeIds, List.mem_singleton] at h
      rw [NTree.findSubtreeById, if_neg (fun he => h he.symm)]
  | split i a b iha ihb =>
      simp only [NTree.treeIds, List.mem_cons, List.mem_append] at h
      push_neg at h
      have hne : ¬i.id = x := fun he => h.1 he.symm
      simp [NTree.findSubtreeById, hne, iha h.2.1, ihb h.2.2]

theorem findSubtreeById_of_subtreeAt (t : NTree) (π : TPath) (u : NTree)
    (hnd : t.treeIds.Nodup) (h : t.subtreeAt π = some u) :
    t.findSubtreeById u.info.id = some u := by
  induction t generalizing π with
  | leaf i =>
      cases π with
      | nil => cases h; simp [NTree.findSubtreeById, NTree.info]
      | cons dd ρ => exact absurd h (by simp [NTree.subtreeAt])
  | split i a b iha ihb =>
      simp only [NTree.treeIds, List.nodup_cons, List.nodup_append,
        List.mem_cons, List.mem_append] at hnd
      cases π with
      | nil => cases h; simp [NTree.findSubtreeById, NTree.info]
      | cons dd ρ =>
          cases dd with
          | first =>
              have hmem := mem_treeIds_of_subtreeAt a ρ u h
              have hne : ¬i.id = u.info.id := by
                intro he
                exact hnd.1 (Or.inl (he ▸ hmem))
              rw [NTree.findSubtreeById, if_neg hne,
                iha ρ hnd.2.1 h]
          | second =>
              have hmem := mem_treeIds_of_subtreeAt b ρ u h
              have hne : ¬i.id = u.info.id := by
                intro he
                exact hnd.1 (Or.inr (he ▸ hmem))
              have hnab : u.info.id ∉ a.treeIds := fun ha =>
                hnd.2.2.2 ha hmem
              rw [NTree.findSubtreeById, if_neg hne,
                findSubtreeById_none_of_not_mem a _ hnab,
                ihb ρ hnd.2.2.1 h]

theorem diverge_or_ancestor (π1 π2 : TPath) :
    diverge π1 π2 = true ∨ (∃ δ, π2 = π1 ++ δ) ∨ (∃ δ, π1 = π2 ++ δ) := by
  induction π1 generalizing π2 with
  | nil => exact Or.inr (Or.inl ⟨π2, rfl⟩)
  | cons d1 ρ1 ih =>
      cases π2 with
      | nil => exact Or.inr (Or.inr ⟨d1 :: ρ1, rfl⟩)
      | cons d2 ρ2 =>
          by_cases hd : d1 = d2
          · subst hd
            rcases ih ρ2 with h | ⟨δ, h⟩ | ⟨δ, h⟩
            · exact Or.inl (by simp [diverge, h])
            · exact Or.inr (Or.inl ⟨δ, by simp [h]⟩)
            · exact Or.inr (Or.inr ⟨δ, by simp [h]⟩)
          · exact Or.inl (by simp [diverge, hd])

theorem worldTrees_mem (w : World) (mi di : Nat) (m : MonitorT) (d : DesktopT)
    (t : NTree) (hm : w.mons[mi]? = some m) (hd : m.desktops[di]? = some d)
    (ht : d.root = some t) : t ∈ worldTrees w := by
  unfold worldTrees
  rw [List.mem_join]
  refine ⟨m.desktops.filterMap DesktopT.root, List.mem_map_of_mem _ ?_, ?_⟩
  · exact List.getElem?_mem hm
  · rw [List.mem_filterMap]
    exact ⟨d, List.getElem?_mem hd, ht⟩

theorem clear_feedback_vacant (i : NodeInfo) :
    (clear_feedback i).vacant = i.vacant := rfl

theorem okB_updateAt_nil_clear (u : NTree) (h : vacantOkB u = true) :
    vacantOkB (u.updateAt [] clear_feedback) = true := by
  rw [vOkB_proj, vproj_updateAt _ _ _ clear_feedback_vacant, ← vOkB_proj]
  exact h

theorem vproj_replaceAt (t : NTree) (π : TPath) (u u' : NTree)
    (hsub : t.subtreeAt π = some u) (hvp : vproj u' = vproj u) :
    vproj (t.replaceAt π u') = vproj t := by
  induction t generalizing π with
  | leaf i =>
      cases π with
      | nil => cases hsub; simpa [NTree.replaceAt] using hvp
      | cons dd ρ => exact absurd hsub (by simp [NTree.subtreeAt])
  | split i a b iha ihb =>
      cases π with
      | nil => cases hsub; simpa [NTree.replaceAt] using hvp
      | cons dd ρ =>
          cases dd with
          | first =>
              simp only [NTree.subtreeAt] at hsub
              simp [NTree.replaceAt, vproj, iha ρ hsub]
          | second =>
              simp only [NTree.subtreeAt] at hsub
              simp [NTree.replaceAt, vproj, ihb ρ hsub]

theorem vproj_mapSubtreeAt (t : NTree) (π : TPath) (g : NTree → NTree)
    (hg : ∀ u, vproj (g u) = vproj u) :
    vproj (mapSubtreeAt t π g) = vproj t := by
  unfold mapSubtreeAt
  cases hsub : t.subtreeAt π with
  | none => rfl
  | some u => exact vproj_replaceAt t π u (g u) hsub (hg u)

theorem worldTrees_eta (w : World) (mons : List MonitorT) (mon_idx : Nat)
    (stack : List Nat) (history : List (Nat × Nat)) (events : List WmEvent) :
    worldTrees ⟨mons, mon_idx, stack, history, events⟩ =
      (mons.map fun m => m.desktops.filterMap DesktopT.root).join := rfl

theorem trees_setDesk_sub (mons : List MonitorT) (mi di : Nat) (dnew : DesktopT)
    (t' : NTree)
    (h : t' ∈ ((setDesk mons mi di dnew).map fun m =>
        m.desktops.filterMap DesktopT.root).join) :
    t' ∈ ((mons.map fun m => m.desktops.filterMap DesktopT.root)).join ∨
      dnew.root = some t' := by
  unfold setDesk at h
  rcases hm : mons[mi]? with _ | m
  · rw [hm] at h
    exact Or.inl h
  · rw [hm] at h
    dsimp only at h
    rw [List.mem_join] at h
    obtain ⟨l, hl, htl⟩ := h
    rw [List.mem_map] at hl
    obtain ⟨m', hm', rfl⟩ := hl
    rcases List.mem_or_eq_of_mem_set hm' with hold | rfl
    · exact Or.inl (by
        rw [List.mem_join]
        exact ⟨_, List.mem_map_of_mem _ hold, htl⟩)
    · dsimp only at htl
      rw [List.mem_filterMap] at htl
      obtain ⟨dk, hdk, hdroot⟩ := htl
      rcases List.mem_or_eq_of_mem_set hdk with hold | rfl
      · refine Or.inl ?_
        rw [List.mem_join]
        refine ⟨m.desktops.filterMap DesktopT.root,
          List.mem_map_of_mem _ (List.getElem?_mem hm), ?_⟩
        rw [List.mem_filterMap]
        exact ⟨dk, hold, hdroot⟩
      · exact Or.inr hdroot

theorem nodup_of_worldTrees (w : World) (t : NTree) (hw : WIdsNodup w)
    (ht : t ∈ worldTrees w) : t.treeIds.Nodup := by
  unfold WIdsNodup at hw
  exact List.Nodup.sublist (List.sublist_join_of_mem (List.mem_map_of_mem _ ht)) hw

theorem is_descendant_w_of_subtrees (w : World) (t : NTree)
    (ht : t ∈ worldTrees w) (hnd : t.treeIds.Nodup) (π δ : TPath) (u v : NTree)
    (hu : t.subtreeAt π = some u) (hv : t.subtreeAt (π ++ δ) = some v) :
    is_descendant_w w v.info.id u.info.id = true := by
  rw [subtreeAt_append, hu] at hv
  simp only [Option.some_bind] at hv
  unfold is_descendant_w
  rw [List.any_eq_true]
  refine ⟨t, ht, ?_⟩
  rw [findSubtreeById_of_subtreeAt t π u hnd hu]
  exact containsId_of_subtreeAt u δ v hv

theorem diverge_of_no_descendant (w : World) (t : NTree)
    (ht : t ∈ worldTrees w) (hnd : t.treeIds.Nodup) (π1 π2 : TPath)
    (u1 u2 : NTree) (h1 : t.subtreeAt π1 = some u1)
    (h2 : t.subtreeAt π2 = some u2)
    (hno1 : ¬is_descendant_w w u1.info.id u2.info.id = true)
    (hno2 : ¬is_descendant_w w u2.info.id u1.info.id = true) :
    diverge π1 π2 = true := by
  rcases diverge_or_ancestor π1 π2 with h | ⟨δ, rfl⟩ | ⟨δ, rfl⟩
  · exact h
  · exact absurd (is_descendant_w_of_subtrees w t ht hnd π1 δ u1 u2 h1 h2) hno2
  · exact absurd (is_descendant_w_of_subtrees w t ht hnd π2 δ u2 u1 h2 h1) hno1

theorem swap_nodes_commit_ok (s : Settings) (w : World)
    (mi1 di1 i1 mi2 di2 i2 : Nat) (fl : Bool)
    (hv : WOkVacant w) (hh : WHeights w) (hnd : WIdsNodup w)
    (hno1 : ¬is_descendant_w w i1 i2 = true)
    (hno2 : ¬is_descendant_w w i2 i1 = true) :
    WOkVacant (swap_nodes_commit s w mi1 di1 i1 mi2 di2 i2 fl) := by
  unfold swap_nodes_commit
  split <;> try exact hv
  rename_i m1 m2 hm1 hm2
  split <;> try exact hv
  rename_i d1 d2 hd1 hd2
  split <;> try exact hv
  rename_i t1 t2 hr1 hr2
  split <;> try exact hv
  rename_i π1 π2 hπ1 hπ2
  have ht1 : t1 ∈ worldTrees w := worldTrees_mem w mi1 di1 m1 d1 t1 hm1 hd1 hr1
  have ht2 : t2 ∈ worldTrees w := worldTrees_mem w mi2 di2 m2 d2 t2 hm2 hd2 hr2
  have hok1 := hv t1 ht1
  have hok2 := hv t2 ht2
  have hht1 := hh t1 ht1
  have hht2 := hh t2 ht2
  obtain ⟨u1, hu1, hui1⟩ := findPathById_sound t1 i1 π1 hπ1
  obtain ⟨u2, hu2, hui2⟩ := findPathById_sound t2 i2 π2 hπ2
  have hl1 : π1.length ≤ MAX_TREE_DEPTH := by
    have := subtreeAt_length_height t1 π1 u1 hu1; omega
  have hl2 : π2.length ≤ MAX_TREE_DEPTH := by
    have := subtreeAt_length_height t2 π2 u2 hu2; omega
  have hs1 : vacantOkB (((t1.subtreeAt π1).getD t1).updateAt [] clear_feedback)
      = true := by
    rw [hu1, Option.getD_some]
    exact okB_updateAt_nil_clear u1 (vacantOkB_subtreeAt t1 π1 u1 hok1 hu1)
  have hs2 : vacantOkB (((t2.subtreeAt π2).getD t2).updateAt [] clear_feedback)
      = true := by
    rw [hu2, Option.getD_some]
    exact okB_updateAt_nil_clear u2 (vacantOkB_subtreeAt t2 π2 u2 hok2 hu2)
  split
  · -- same desktop: double exchange in place
    rename_i hsame
    have hpair := hsame
    rw [Prod.mk.injEq] at hpair
    obtain ⟨hmi, hdi⟩ := hpair
    subst hmi
    subst hdi
    obtain rfl : m1 = m2 := by rw [hm1] at hm2; exact Option.some.inj hm2
    obtain rfl : d1 = d2 := by rw [hd1] at hd2; exact Option.some.inj hd2
    obtain rfl : t1 = t2 := by rw [hr1] at hr2; exact Option.some.inj hr2
    have hnd1 := nodup_of_worldTrees w t1 hnd ht1
    have hdiv : diverge π1 π2 = true := by
      refine diverge_of_no_descendant w t1 ht1 hnd1 π1 π2 u1 u2 hu1 hu2 ?_ ?_
      · rw [hui1, hui2]; exact hno1
      · rw [hui1, hui2]; exact hno2
    intro t' ht'
    unfold worldTrees at ht'
    dsimp only at ht'
    rcases trees_setDesk_sub w.mons mi1 di1 _ t' ht' with hold | hnew
    · exact hv t' hold
    · obtain rfl := Option.some.inj hnew
      refine propagate_along_repairs propagate_step propagate_step_vacant _ _
        (by omega) ?_
      refine propagate_along_except2 propagate_step propagate_step_vacant _ _ _
        (by omega) ?_
      exact except2B_replaceAt _ π1 π2 _
        (vacantOkB_replace_exceptB t1 π1 _ hok1 hs2) hs1 hdiv
  · -- different desktops
    rename_i hsame
    have hok1' : vacantOkB (propagate_flags_at
        (t1.replaceAt π1 (((t2.subtreeAt π2).getD t2).updateAt [] clear_feedback))
        π1) = true :=
      propagate_along_repairs propagate_step propagate_step_vacant _ _
        (by omega) (vacantOkB_replace_exceptB t1 π1 _ hok1 hs2)
    have hok2' : vacantOkB (propagate_flags_at
        (t2.replaceAt π2 (((t1.subtreeAt π1).getD t1).updateAt [] clear_feedback))
        π2) = true :=
      propagate_along_repairs propagate_step propagate_step_vacant _ _
        (by omega) (vacantOkB_replace_exceptB t2 π2 _ hok2 hs1)
    intro t' ht'
    unfold worldTrees at ht'
    dsimp only at ht'
    rcases trees_setDesk_sub _ mi2 di2 _ t' ht' with hmid | hnew2
    · rcases trees_setDesk_sub _ mi1 di1 _ t' hmid with hold | hnew1
      · exact hv t' hold
      · -- the first desktop's final root
        try unfold single_monocle_layout at hnew1
        try split at hnew1
        all_goals try dsimp only at hnew1
        all_goals try split at hnew1
        all_goals try dsimp only at hnew1
        all_goals try split at hnew1
        all_goals try dsimp only at hnew1
        all_goals try simp only [Option.map_some] at hnew1
        all_goals
          obtain rfl := Option.some.inj hnew1
          first
            | exact hok1'
            | (dsimp only
               rw [vOkB_proj]
               first
                 | (rw [vproj_mapSubtreeAt _ _ _ (fun u => vproj_show_node_map u 0)]
                    first
                      | (rw [vproj_mapSubtreeAt _ _ _
                            (fun u => vproj_hide_node_map s u 0), ← vOkB_proj]
                         exact hok1')
                      | (rw [← vOkB_proj]; exact hok1')
                      | (split
                         · rw [vproj_mapSubtreeAt _ _ _
                             (fun u => vproj_hide_node_map s u 0), ← vOkB_proj]
                           exact hok1'
                         · rw [← vOkB_proj]; exact hok1'))
                 | (split
                    · rw [vproj_mapSubtreeAt _ _ _
                        (fun u => vproj_hide_node_map s u 0),
                        vproj_mapSubtreeAt _ _ _ (fun u => vproj_show_node_map u 0),
                        ← vOkB_proj]
                      exact hok1'
                    · rw [vproj_mapSubtreeAt _ _ _
                        (fun u => vproj_show_node_map u 0), ← vOkB_proj]
                      exact hok1'))
    · -- the second desktop's final root
      try unfold single_monocle_layout at hnew2
      try split at hnew2
      all_goals try dsimp only at hnew2
      all_goals try split at hnew2
      all_goals try dsimp only at hnew2
      all_goals try split at hnew2
      all_goals try dsimp only at hnew2
      all_goals try simp only [Option.map_some] at hnew2
      all_goals
        obtain rfl := Option.some.inj hnew2
        first
          | exact hok2'
          | (dsimp only
             rw [vOkB_proj]
             first
               | (rw [vproj_mapSubtreeAt _ _ _
                     (fun u => vproj_hide_node_map s u 0),
                     vproj_mapSubtreeAt _ _ _ (fun u => vproj_show_node_map u 0),
                     ← vOkB_proj]
                  exact hok2')
               | (rw [vproj_mapSubtreeAt _ _ _ (fun u => vproj_show_node_map u 0)]
                  first
                    | (rw [vproj_mapSubtreeAt _ _ _
                          (fun u => vproj_hide_node_map s u 0), ← vOkB_proj]
                       exact hok2')
                    | (rw [← vOkB_proj]; exact hok2')
                    | (split
                       · rw [vproj_mapSubtreeAt _ _ _
                           (fun u => vproj_hide_node_map s u 0), ← vOkB_proj]
                         exact hok2'
                       · rw [← vOkB_proj]; exact hok2'))
               | (split
                  · rw [vproj_mapSubtreeAt _ _ _
                      (fun u => vproj_hide_node_map s u 0),
                      vproj_mapSubtreeAt _ _ _ (fun u => vproj_show_node_map u 0),
                      ← vOkB_proj]
                    exact hok2'
                  · rw [vproj_mapSubtreeAt _ _ _
                      (fun u => vproj_show_node_map u 0), ← vOkB_proj]
                    exact hok2'))

/-- C8, swap part: whatever `swap_nodes` returns, every tree of the
resulting world still satisfies the vacant invariant. -/
theorem swap_nodes_world_ok (s : Settings) (w : World) (mi1 di1 : Nat)
    (n1 : Option Nat) (mi2 di2 : Nat) (n2 : Option Nat) (fl : Bool)
    (hv : WOkVacant w) (hh : WHeights w) (hnd : WIdsNodup w) :
    WOkVacant (swap_nodes s w mi1 di1 n1 mi2 di2 n2 fl).2 := by
  unfold swap_nodes
  split <;> try exact hv
  rename_i i1 i2
  split
  · exact hv
  · split <;> try exact hv
    rename_i m1 m2 hm1 hm2
    split <;> try exact hv
    rename_i d1 d2 hd1 hd2
    split
    · exact hv
    · rename_i hdesc
      split
      · exact hv
      · split
        · exact hv
        · split
          · exact hv
          · exact swap_nodes_commit_ok s _ mi1 di1 i1 mi2 di2 i2 fl hv hh hnd
              (fun hc => hdesc (Or.inl hc)) (fun hc => hdesc (Or.inr hc))

/-- C8: after every tree mutation — `insert_node`, `unlink_node`,
`swap_nodes`, and the vacant/hidden flag changes (`set_vacant`,
`set_hidden`) — every internal node's vacant flag equals the conjunction of
its two children's vacant flags.  Trees are assumed to fit under the
`MAX_TREE_DEPTH` guard, and for `swap_nodes` the world's node ids are
assumed globally distinct (both invariants of the running window
manager). -/
theorem tree_mutations_preserve_vacant_invariant :
    (∀ (s : Settings) (d : DesktopT) (n0 : NodeInfo) (fp : Option TPath)
        (ign : Bool) (fid : Nat),
      (∀ t, d.root = some t → vacantOkB t = true ∧ t.height ≤ MAX_TREE_DEPTH) →
      ∀ t', (insert_node s d n0 fp ign fid).root = some t' →
        vacantOkB t' = true) ∧
    (∀ (s : Settings) (d : DesktopT) (π : TPath),
      (∀ t, d.root = some t → vacantOkB t = true ∧ t.height ≤ MAX_TREE_DEPTH) →
      ∀ t', (unlink_node s d π).root = some t' → vacantOkB t' = true) ∧
    (∀ (s : Settings) (w : World) (mi1 di1 : Nat) (n1 : Option Nat)
        (mi2 di2 : Nat) (n2 : Option Nat) (fl : Bool),
      WOkVacant w → WHeights w → WIdsNodup w →
      WOkVacant (swap_nodes s w mi1 di1 n1 mi2 di2 n2 fl).2) ∧
    (∀ (t : NTree) (π : TPath) (v : Bool), vacantOkB t = true →
      t.height ≤ MAX_TREE_DEPTH → vacantOkB (set_vacant_at t π v) = true) ∧
    (∀ (t : NTree) (π : TPath) (v : Bool), vacantOkB t = true →
      t.height ≤ MAX_TREE_DEPTH → vacantOkB (set_hidden_at t π v) = true) :=
  ⟨insert_node_root_ok, unlink_node_root_ok, swap_nodes_world_ok,
    set_vacant_at_ok, set_hidden_at_ok⟩

/-- Witness for `tree_mutations_preserve_vacant_invariant` at a concrete
single-leaf desktop and world. -/
theorem tree_mutations_preserve_vacant_invariant_witness :
    (∀ t', (insert_node sampleSettings deskLeaf newLeafInfo none false 7).root
        = some t' → vacantOkB t' = true) ∧
    WOkVacant (swap_nodes sampleSettings sampleWorld 0 0 (some 1) 0 0 (some 2)
      false).2 ∧
    vacantOkB (set_vacant_at (.leaf filledLeafInfo) [] true) = true := by
  have h := tree_mutations_preserve_vacant_invariant
  refine ⟨h.1 sampleSettings deskLeaf newLeafInfo none false 7 ?_,
    h.2.2.1 sampleSettings sampleWorld 0 0 (some 1) 0 0 (some 2) false ?_ ?_ ?_,
    h.2.2.2.1 (.leaf filledLeafInfo) [] true rfl (by decide)⟩
  · intro t ht
    obtain rfl := Option.some.inj ht
    exact ⟨rfl, by decide⟩
  · intro t ht
    have hw : worldTrees sampleWorld = [NTree.leaf filledLeafInfo] := rfl
    rw [hw, List.mem_singleton] at ht
    subst ht
    rfl
  · intro t ht
    have hw : worldTrees sampleWorld = [NTree.leaf filledLeafInfo] := rfl
    rw [hw, List.mem_singleton] at ht
    subst ht
    exact Nat.zero_le _
  · show (((worldTrees sampleWorld).map NTree.treeIds).join).Nodup
    decide

/-! ### `swap_nodes` rejections (claim C6) -/

theorem containsId_self (t : NTree) : t.containsId t.info.id = true := by
  cases t <;> simp [NTree.containsId, NTree.info]

theorem parentIdOf_sound (t : NTree) (x p : Nat) :
    t.parentIdOf x = some p →
    ∃ π i a b, t.subtreeAt π = some (.split i a b) ∧ i.id = p ∧
      (a.info.id = x ∨ b.info.id = x) := by
  induction t with
  | leaf i => intro h; cases h
  | split i a b iha ihb =>
      intro h
      simp only [NTree.parentIdOf] at h
      split_ifs at h with h1
      · cases h
        exact ⟨[], i, a, b, rfl, rfl, h1⟩
      · rcases ha : a.parentIdOf x with _ | q
        · rw [ha] at h
          dsimp only at h
          obtain ⟨π, j, c1, c2, hs, hj, hc⟩ := ihb h
          exact ⟨ChildDir.second :: π, j, c1, c2,
            by simpa [NTree.subtreeAt] using hs, hj, hc⟩
        · rw [ha] at h
          dsimp only at h
          obtain rfl := Option.some.inj h
          obtain ⟨π, j, c1, c2, hs, hj, hc⟩ := iha ha
          exact ⟨ChildDir.first :: π, j, c1, c2,
            by simpa [NTree.subtreeAt] using hs, hj, hc⟩

theorem descendant_of_parentIdOf (w : World) (t : NTree) (ht : t ∈ worldTrees w)
    (hnd : t.treeIds.Nodup) (x p : Nat) (h : t.parentIdOf x = some p) :
    is_descendant_w w x p = true := by
  obtain ⟨π, j, a, b, hs, hj, hc⟩ := parentIdOf_sound t x p h
  unfold is_descendant_w
  rw [List.any_eq_true]
  refine ⟨t, ht, ?_⟩
  have hfind := findSubtreeById_of_subtreeAt t π _ hnd hs
  rw [show (NTree.split j a b).info.id = p from hj] at hfind
  rw [hfind]
  rcases hc with hc | hc
  · simp [NTree.containsId, hc ▸ containsId_self a]
  · simp [NTree.containsId, hc ▸ containsId_self b]

/-- C6: whenever `swap_nodes` rejects its arguments — null references,
identical nodes, one node a descendant of the other, a cross-desktop swap
carrying sticky leaves on monitors with a positive sticky count, or a node
not reachable from its desktop's root — it returns false, the whole world
(trees, desktops, focus, stacking, history) is unchanged, and no
notification is emitted.  The world's node ids are assumed globally
distinct: this makes the post-notification parent check unreachable (a
parent relation is a descendant relation, already rejected). -/
theorem swap_nodes_rejection_silent (s : Settings) (w : World) (mi1 di1 : Nat)
    (n1 : Option Nat) (mi2 di2 : Nat) (n2 : Option Nat) (fl : Bool)
    (hnd : WIdsNodup w) :
    ((swap_nodes s w mi1 di1 n1 mi2 di2 n2 fl).1 = false →
      (swap_nodes s w mi1 di1 n1 mi2 di2 n2 fl).2 = w) ∧
    ((n1 = none ∨ n2 = none ∨ n1 = n2) →
      swap_nodes s w mi1 di1 n1 mi2 di2 n2 fl = (false, w)) ∧
    (∀ i1 i2, n1 = some i1 → n2 = some i2 →
      (is_descendant_w w i1 i2 = true ∨ is_descendant_w w i2 i1 = true) →
      (swap_nodes s w mi1 di1 n1 mi2 di2 n2 fl).1 = false) ∧
    (∀ i1 i2 m1 d1, n1 = some i1 → n2 = some i2 →
      w.mons[mi1]? = some m1 → m1.desktops[di1]? = some d1 →
      (find_by_id_in d1.root i1).isNone = true →
      (swap_nodes s w mi1 di1 n1 mi2 di2 n2 fl).1 = false) ∧
    (∀ i1 i2 m1 m2 d1 d2, n1 = some i1 → n2 = some i2 →
      w.mons[mi1]? = some m1 → w.mons[mi2]? = some m2 →
      m1.desktops[di1]? = some d1 → m2.desktops[di2]? = some d2 →
      (mi1, di1) ≠ (mi2, di2) →
      ((0 < m1.sticky_count ∧ 0 < sticky_count_w w i1) ∨
        (0 < m2.sticky_count ∧ 0 < sticky_count_w w i2)) →
      (swap_nodes s w mi1 di1 n1 mi2 di2 n2 fl).1 = false) := by
  refine ⟨?_, ?_, ?_, ?_, ?_⟩
  · -- returns false → the world (events included) is unchanged
    unfold swap_nodes
    split <;> try (intro _; rfl)
    rename_i i1 i2
    split
    · intro _; rfl
    · split <;> try (intro _; rfl)
      rename_i m1 m2 hm1 hm2
      split <;> try (intro _; rfl)
      rename_i d1 d2 hd1 hd2
      split
      · intro _; rfl
      · rename_i hdesc
        split
        · intro _; rfl
        · split
          · intro _; rfl
          · rename_i hfind
            split
            · rename_i hpar
              exfalso
              rcases hpar with hpar | hpar
              · rcases hroot1 : d1.root with _ | t1
                · rw [hroot1] at hpar
                  exact Option.noConfusion hpar
                · rw [hroot1] at hpar
                  dsimp only [Option.elim] at hpar
                  have ht1 : t1 ∈ worldTrees w :=
                    worldTrees_mem w mi1 di1 m1 d1 t1 hm1 hd1 hroot1
                  exact hdesc (Or.inl (descendant_of_parentIdOf w t1 ht1
                    (nodup_of_worldTrees w t1 hnd ht1) i1 i2 hpar))
              · rcases hroot2 : d2.root with _ | t2
                · rw [hroot2] at hpar
                  exact Option.noConfusion hpar
                · rw [hroot2] at hpar
                  dsimp only [Option.elim] at hpar
                  have ht2 : t2 ∈ worldTrees w :=
                    worldTrees_mem w mi2 di2 m2 d2 t2 hm2 hd2 hroot2
                  exact hdesc (Or.inr (descendant_of_parentIdOf w t2 ht2
                    (nodup_of_worldTrees w t2 hnd ht2) i2 i1 hpar))
            · intro hfalse
              exact absurd hfalse (by simp)
  · -- null or identical arguments
    rintro (rfl | rfl | heq)
    · unfold swap_nodes
      cases n2 <;> rfl
    · unfold swap_nodes
      cases n1 <;> rfl
    · rcases hn1 : n1 with _ | i1
      · unfold swap_nodes
        cases n2 <;> rfl
      · rw [hn1] at heq
        rw [← heq]
        unfold swap_nodes
        dsimp only
        rw [if_pos rfl]
  · -- descendant relation
    rintro i1 i2 rfl rfl hdesc
    unfold swap_nodes
    dsimp only
    split
    · rfl
    · split <;> try rfl
      rename_i m1 m2 hm1 hm2
      split <;> try rfl
  · -- unreachable from the desktop root
    rintro i1 i2 m1 d1 rfl rfl hm1 hd1 hnone
    unfold swap_nodes
    dsimp only
    split
    · rfl
    · split <;> try rfl
      rename_i m1' m2' hm1' hm2'
      obtain rfl : m1 = m1' := by rw [hm1] at hm1'; exact Option.some.inj hm1'
      split <;> try rfl
      rename_i d1' d2' hd1' hd2'
      obtain rfl : d1 = d1' := by rw [hd1] at hd1'; exact Option.some.inj hd1'
      split
      · rfl
      · split
        · rfl
        · rw [if_pos (Or.inl hnone)]
  · -- sticky leaves on sticky monitors across desktops
    rintro i1 i2 m1 m2 d1 d2 rfl rfl hm1 hm2 hd1 hd2 hne hst
    unfold swap_nodes
    dsimp only
    split
    · rfl
    · split <;> try rfl
      rename_i m1' m2' hm1' hm2'
      obtain rfl : m1 = m1' := by rw [hm1] at hm1'; exact Option.some.inj hm1'
      obtain rfl : m2 = m2' := by rw [hm2] at hm2'; exact Option.some.inj hm2'
      split <;> try rfl
      rename_i d1' d2' hd1' hd2'
      obtain rfl : d1 = d1' := by rw [hd1] at hd1'; exact Option.some.inj hd1'
      obtain rfl : d2 = d2' := by rw [hd2] at hd2'; exact Option.some.inj hd2'
      split
      · rfl
      · rw [if_pos ⟨hne, hst⟩]

/-- Witness for `swap_nodes_rejection_silent`: a null first node is turned
away with the world intact and no event emitted. -/
theorem swap_nodes_rejection_silent_witness :
    swap_nodes sampleSettings sampleWorld 0 0 none 0 0 (some 2) false =
      (false, sampleWorld) :=
  (swap_nodes_rejection_silent sampleSettings sampleWorld 0 0 none 0 0 (some 2)
    false (by show (((worldTrees sampleWorld).map NTree.treeIds).join).Nodup;
               decide)).2.1 (Or.inl rfl)

end Bspwm
